import Mathlib

/-!
# TokyoOS kernel memory subsystem: heap allocator and page-table manager

A shallow embedding of `src/Memory/Heap.cpp` and `src/Memory/PageTableManager.cpp`.

* Pointers and `uint64_t` values are natural numbers below `2^64`; `NULL` is `0`; every
  64-bit addition and subtraction of the source is reduced modulo `2^64`.
* Memory is a total function from addresses to header records: an address the code never
  wrote holds whatever the initial memory holds, and every theorem quantifies over it.
* `Heap.hpp` is not part of the sources at hand, so `BLOCK_SIZE`, `sizeof(HeapSegmentHeader)`
  and the frame allocator's answers are parameters, collected in `Config`.
-/

namespace TokyoOS

/-- The modulus of `uint64_t` arithmetic, `2^64`. -/
abbrev U64 : Nat := 18446744073709551616

/-- The value of an `int64_t` that holds the bit pattern `x` (two's complement). -/
def toInt64 (x : Nat) : Int :=
  if x % U64 < 9223372036854775808 then ((x % U64 : Nat) : Int) else ((x % U64 : Nat) : Int) - 18446744073709551616

/-- The constants that `Heap.cpp` takes from headers outside the sources at hand:
`BLOCK_SIZE`, `sizeof(HeapSegmentHeader)`, and the frame the allocator hands out at its
`k`-th call of `RequestPageFrame` (the allocator is assumed to always supply one). -/
structure Config where
  BLOCK_SIZE : Nat
  HeaderSize : Nat
  RequestPageFrame : Nat → Nat

/-- The fields of `struct HeapSegmentHeader`; `Next` and `Prev` are addresses, `0` is `NULL`. -/
structure HeapSegmentHeader where
  Size : Nat
  Next : Nat
  Prev : Nat
  Free : Bool
deriving DecidableEq

/-- The state `class Heap` works on: its three members, the memory seen as header records,
and a record of the calls made to the frame allocator and the paging manager. -/
structure Heap where
  HeapStart : Nat
  HeapEnd : Nat
  LastHeader : Nat
  mem : Nat → HeapSegmentHeader
  frames : Nat
  mapped : List (Nat × Nat)

/-- Memory after the header record at `a` is replaced by `h`. -/
def write (mem : Nat → HeapSegmentHeader) (a : Nat) (h : HeapSegmentHeader) :
    Nat → HeapSegmentHeader :=
  fun x => if x = a then h else mem x

/-- The assignment `a->Size = v`. -/
def Heap.setSize (hp : Heap) (a v : Nat) : Heap :=
  { hp with mem := write hp.mem a { hp.mem a with Size := v } }

/-- The assignment `a->Next = v`. -/
def Heap.setNext (hp : Heap) (a v : Nat) : Heap :=
  { hp with mem := write hp.mem a { hp.mem a with Next := v } }

/-- The assignment `a->Prev = v`. -/
def Heap.setPrev (hp : Heap) (a v : Nat) : Heap :=
  { hp with mem := write hp.mem a { hp.mem a with Prev := v } }

/-- The assignment `a->Free = v`. -/
def Heap.setFree (hp : Heap) (a : Nat) (v : Bool) : Heap :=
  { hp with mem := write hp.mem a { hp.mem a with Free := v } }

/-- The loop of `Heap::InitializeHeap` (lines 19-32): `count` times, request a frame, map it
at `position`, advance `position` by one page. Returns the heap with the calls recorded. -/
def initLoop (c : Config) : Nat → Heap → Nat → Heap
  | 0, hp, _ => hp
  | k + 1, hp, position =>
    initLoop c k
      { hp with frames := hp.frames + 1,
                mapped := hp.mapped ++ [(position, c.RequestPageFrame hp.frames)] }
      ((position + 0x1000) % U64)

/-- The function `Heap::InitializeHeap(heapAddress, pageCount)`. -/
def InitializeHeap (c : Config) (hp : Heap) (heapAddress pageCount : Nat) : Heap :=
  let hp := initLoop c pageCount hp heapAddress
  let heapSize := (pageCount * 0x1000) % U64
  let hp := { hp with HeapStart := heapAddress }
  let hp := { hp with HeapEnd := (heapAddress + heapSize) % U64 }
  let startSegmentHeader := heapAddress
  let hp := hp.setSize startSegmentHeader ((heapSize + U64 - c.HeaderSize % U64) % U64)
  let hp := hp.setNext startSegmentHeader 0
  let hp := hp.setPrev startSegmentHeader 0
  let hp := hp.setFree startSegmentHeader true
  { hp with LastHeader := startSegmentHeader }

/-- The method `HeapSegmentHeader::Split(heap, firstPartSize)` called on the header at `this`.
Returns the returned pointer (`0` for `NULL`) and the heap afterwards. The comparison with
`BLOCK_SIZE` is a signed one, `splitSegmentSize` being an `int64_t`. -/
def Split (c : Config) (hp : Heap) (this firstPartSize : Nat) : Nat × Heap :=
  let splitSegmentSize : Int :=
    toInt64 (((hp.mem this).Size + U64 - firstPartSize % U64 + U64 - c.HeaderSize % U64) % U64)
  if splitSegmentSize < (c.BLOCK_SIZE : Int) then (0, hp)
  else
    let secondSegment := (this + c.HeaderSize + firstPartSize) % U64
    let hp := if (hp.mem this).Next ≠ 0 then hp.setPrev (hp.mem this).Next secondSegment else hp
    let hp := hp.setNext secondSegment (hp.mem this).Next
    let hp := hp.setNext this secondSegment
    let hp := hp.setPrev secondSegment this
    let hp := hp.setSize secondSegment (splitSegmentSize % 18446744073709551616).toNat
    let hp := hp.setFree secondSegment true
    let hp := hp.setSize this firstPartSize
    let hp := if hp.LastHeader = this then { hp with LastHeader := (hp.mem this).Next } else hp
    (secondSegment, hp)

/-- The method `HeapSegmentHeader::MergeNext(heap)` called on the header at `this`. -/
def MergeNext (c : Config) (hp : Heap) (this : Nat) : Heap :=
  if (hp.mem this).Next = 0 ∨ (hp.mem (hp.mem this).Next).Free = false then hp
  else
    let hp := if (hp.mem this).Next = hp.LastHeader then { hp with LastHeader := this } else hp
    let hp :=
      if (hp.mem (hp.mem this).Next).Next ≠ 0 then
        hp.setPrev (hp.mem (hp.mem this).Next).Next this
      else hp
    let hp := hp.setSize this
      (((hp.mem this).Size + c.HeaderSize + (hp.mem (hp.mem this).Next).Size) % U64)
    hp.setNext this (hp.mem (hp.mem this).Next).Next

/-- The method `HeapSegmentHeader::MergePrev(heap)` called on the header at `this`. -/
def MergePrev (c : Config) (hp : Heap) (this : Nat) : Heap :=
  if (hp.mem this).Prev ≠ 0 ∧ (hp.mem (hp.mem this).Prev).Free = true then
    MergeNext c hp (hp.mem this).Prev
  else hp

/-- The loop of `Heap::ExtendHeap` (lines 99-112): `count` times, request a frame, map it at
`HeapEnd`, advance `HeapEnd` by one page. -/
def extendLoop (c : Config) : Nat → Heap → Heap
  | 0, hp => hp
  | k + 1, hp =>
    extendLoop c k
      { hp with frames := hp.frames + 1,
                mapped := hp.mapped ++ [(hp.HeapEnd, c.RequestPageFrame hp.frames)],
                HeapEnd := (hp.HeapEnd + 0x1000) % U64 }

/-- The function `Heap::ExtendHeap(size)`. -/
def ExtendHeap (c : Config) (hp : Heap) (size : Nat) : Heap :=
  let size := if size % 0x1000 > 0 then (size - size % 0x1000 + 0x1000) % U64 else size
  let pageCount := size / 0x1000
  let newSegment := hp.HeapEnd
  let hp := extendLoop c pageCount hp
  let hp := hp.setFree newSegment true
  let hp := hp.setNext newSegment 0
  let hp := hp.setPrev newSegment hp.LastHeader
  let hp := hp.setNext hp.LastHeader newSegment
  let hp := hp.setSize newSegment ((size + U64 - c.HeaderSize % U64) % U64)
  MergePrev c hp newSegment

/-- The request size after lines 48-52 of `Heap::Malloc`, as a number: `size` rounded up to a
multiple of `BLOCK_SIZE`. The code keeps this value modulo `2^64`. -/
def roundedSize (c : Config) (size : Nat) : Nat :=
  if size % c.BLOCK_SIZE > 0 then size - size % c.BLOCK_SIZE + c.BLOCK_SIZE else size

/-- How the `while` loop of `Heap::Malloc` ends: it returned a pointer, it ran off the end of
the list, or the model's iteration budget ran out first. -/
inductive ScanResult where
  | found (p : Nat) (hp : Heap)
  | notFound
  | outOfFuel

/-- The `while` loop of `Heap::Malloc` (lines 57-74) from `currentSegment`, with `size` already
rounded; `fuel` bounds the number of iterations. -/
def scan (c : Config) (size : Nat) : Nat → Heap → Nat → ScanResult
  | fuel, hp, currentSegment =>
    if currentSegment = 0 then .notFound
    else match fuel with
      | 0 => .outOfFuel
      | fuel + 1 =>
        if (hp.mem currentSegment).Free = true then
          if (hp.mem currentSegment).Size > size then
            let hp := (Split c hp currentSegment size).2
            let hp := hp.setFree currentSegment false
            .found ((currentSegment + c.HeaderSize) % U64) hp
          else if (hp.mem currentSegment).Size = size then
            let hp := hp.setFree currentSegment false
            .found ((currentSegment + c.HeaderSize) % U64) hp
          else scan c size fuel hp (hp.mem currentSegment).Next
        else scan c size fuel hp (hp.mem currentSegment).Next

/-- The body of `Heap::Malloc(size)` (lines 48-78), with the recursive call of line 78 passed
in as `retry`: the returned pointer (`0` for `NULL`) and the heap afterwards; `none` means that
a budget of the model ran out before the call returned. -/
def mallocBody (c : Config) (fuel : Nat) (retry : Heap → Nat → Option (Nat × Heap))
    (hp : Heap) (size : Nat) : Option (Nat × Heap) :=
  let size := roundedSize c size % U64
  if size = 0 then some (0, hp)
  else match scan c size fuel hp hp.HeapStart with
    | .found p hp1 => some (p, hp1)
    | .outOfFuel => none
    | .notFound => retry (ExtendHeap c hp size) size

/-- The function `Heap::Malloc(size)`. `fuel` bounds the iterations of each scan of the list,
`retries` the depth of the recursion after `ExtendHeap`; `none` means that one of the two ran
out before the call returned. -/
def Malloc (c : Config) (fuel : Nat) : Nat → Heap → Nat → Option (Nat × Heap)
  | 0, hp, size => mallocBody c fuel (fun _ _ => none) hp size
  | retries + 1, hp, size => mallocBody c fuel (Malloc c fuel retries) hp size

/-- The function `Heap::Free(address)`. -/
def Free (c : Config) (hp : Heap) (address : Nat) : Heap :=
  let segment := (address + U64 - c.HeaderSize % U64) % U64
  let hp := hp.setFree segment true
  let hp := MergeNext c hp segment
  MergePrev c hp segment

/-- The headers met when following `Next` from address `a`, at most `fuel` of them, each with
its address. -/
def walk (mem : Nat → HeapSegmentHeader) : Nat → Nat → List (Nat × HeapSegmentHeader)
  | 0, _ => []
  | fuel + 1, a => if a = 0 then [] else (a, mem a) :: walk mem fuel (mem a).Next

/-- The segment list of the heap: the headers reached from `HeapStart`. -/
def Heap.segments (hp : Heap) (fuel : Nat) : List (Nat × HeapSegmentHeader) :=
  walk hp.mem fuel hp.HeapStart

/-! ## The page-table manager -/

/-- Modelled from the spec: `PageTableEntry` is declared in a header outside the sources at
hand. An entry holds a present flag, a read/write flag and the physical address of a frame;
`GetFlag`, `SetFlag`, `GetAddress` and `SetAddress` read and write these fields. -/
structure PageTableEntry where
  Present : Bool
  ReadWrite : Bool
  Address : Nat
deriving DecidableEq

/-- Modelled from the spec: `PageMapIndexer` is declared in a header outside the sources at
hand. A virtual address decomposes into four 9-bit table indices, one per level, above a
12-bit offset in the page. -/
structure PageMapIndexer where
  TableLevel4Index : Nat
  TableLevel3Index : Nat
  TableLevel2Index : Nat
  TableLevel1Index : Nat
deriving DecidableEq

/-- The constructor `PageMapIndexer(virtualAddress)`, modelled from the spec as above. -/
def PageMapIndexer.ofAddress (virtualAddress : Nat) : PageMapIndexer :=
  ⟨(virtualAddress / 2 ^ 39) % 512, (virtualAddress / 2 ^ 30) % 512,
   (virtualAddress / 2 ^ 21) % 512, (virtualAddress / 2 ^ 12) % 512⟩

/-- The state `PageTableManager::MapPage` works on: the member `TableLevel4`, memory seen as
page tables (the entry of index `i` of the table at address `t` is `tables t i`), and the
number of calls made to `FrameAllocator.GetPage` so far. -/
structure PageTableManager where
  TableLevel4 : Nat
  tables : Nat → Nat → PageTableEntry
  requested : Nat

/-- The call `memset(table, 0, 0x1000)`: every entry of the table at `table` is zero. -/
def zeroTable (tables : Nat → Nat → PageTableEntry) (table : Nat) :
    Nat → Nat → PageTableEntry :=
  fun t i => if t = table then ⟨false, false, 0⟩ else tables t i

/-- The assignment `table->Entries[index] = entry`. -/
def storeEntry (tables : Nat → Nat → PageTableEntry) (table index : Nat)
    (entry : PageTableEntry) : Nat → Nat → PageTableEntry :=
  fun t i => if t = table ∧ i = index then entry else tables t i

/-- One of the three blocks of `MapPage` for the levels 4, 3 and 2 (lines 17-31, 34-48 and
51-65, the same code on different tables): read the entry of `index` in `table`; when it is
not present, get a frame from `GetPage`, zero it, and store an entry that points to it with
`Present` and `ReadWrite` set; return the table of the next level. `GetPage k` is the frame
the allocator returns at its `k`-th call. -/
def levelEntry (GetPage : Nat → Nat) (m : PageTableManager) (table index : Nat) :
    PageTableManager × Nat :=
  let entry := m.tables table index
  if entry.Present = false then
    let next := GetPage m.requested
    let m := { m with requested := m.requested + 1 }
    let m := { m with tables := zeroTable m.tables next }
    let entry := { entry with Address := next }
    let entry := { entry with Present := true }
    let entry := { entry with ReadWrite := true }
    let m := { m with tables := storeEntry m.tables table index entry }
    (m, next)
  else (m, entry.Address)

/-- The function `PageTableManager::MapPage(virtualAddress, physicalAddress)`. -/
def MapPage (GetPage : Nat → Nat) (m : PageTableManager)
    (virtualAddress physicalAddress : Nat) : PageTableManager :=
  let indexer := PageMapIndexer.ofAddress virtualAddress
  let r4 := levelEntry GetPage m m.TableLevel4 indexer.TableLevel4Index
  let r3 := levelEntry GetPage r4.1 r4.2 indexer.TableLevel3Index
  let r2 := levelEntry GetPage r3.1 r3.2 indexer.TableLevel2Index
  let level1Table := r2.2
  let entry := r2.1.tables level1Table indexer.TableLevel1Index
  let entry := { entry with Address := physicalAddress }
  let entry := { entry with Present := true }
  let entry := { entry with ReadWrite := true }
  { r2.1 with tables := storeEntry r2.1.tables level1Table indexer.TableLevel1Index entry }

/-- The tables `MapPage` works on for `virtualAddress`, from level 4 down to level 1: the one
`TableLevel4` names, then at each level the table the present entry points to or else the
frame `GetPage` hands out. -/
def tablePath (GetPage : Nat → Nat) (m : PageTableManager) (virtualAddress : Nat) : List Nat :=
  let indexer := PageMapIndexer.ofAddress virtualAddress
  let r4 := levelEntry GetPage m m.TableLevel4 indexer.TableLevel4Index
  let r3 := levelEntry GetPage r4.1 r4.2 indexer.TableLevel3Index
  let r2 := levelEntry GetPage r3.1 r3.2 indexer.TableLevel2Index
  [m.TableLevel4, r4.2, r3.2, r2.2]

/-- The table walk of the hardware for `virtualAddress`: follow the entries of the four
indices from `TableLevel4`; `none` when an entry of level 4, 3 or 2 is not present, else the
entry of level 1 that is reached. -/
def tableWalk (m : PageTableManager) (virtualAddress : Nat) : Option PageTableEntry :=
  let indexer := PageMapIndexer.ofAddress virtualAddress
  let e4 := m.tables m.TableLevel4 indexer.TableLevel4Index
  if e4.Present = false then none
  else
    let e3 := m.tables e4.Address indexer.TableLevel3Index
    if e3.Present = false then none
    else
      let e2 := m.tables e3.Address indexer.TableLevel2Index
      if e2.Present = false then none
      else some (m.tables e2.Address indexer.TableLevel1Index)

/-! ## The segment list as data -/

/-- What the list records of one segment: its payload size and whether it is free. -/
structure Seg where
  size : Nat
  free : Bool
deriving DecidableEq

/-- The first address past a run of segments whose first header is at `a`. -/
def endOf (H : Nat) : Nat → List Seg → Nat
  | a, [] => a
  | a, s :: t => endOf H (a + H + s.size) t

/-- The address of the last header of a run of segments whose first header is at `a`. -/
def lastAddr (H : Nat) : Nat → List Seg → Nat
  | a, [] => a
  | a, [_] => a
  | a, s :: t :: r => lastAddr H (a + H + s.size) (t :: r)

/-- The `Next` pointer of a header at `a` of payload size `n` that is followed by `t`. -/
def nextOf (H a n : Nat) : List Seg → Nat
  | [] => 0
  | _ :: _ => a + H + n

/-- Memory holds, from address `a` on, the headers of the segments `segs` laid out without
gaps, doubly linked, the first one with `Prev = prev` and the last one with `Next = NULL`. -/
def Chain (H : Nat) (mem : Nat → HeapSegmentHeader) : Nat → Nat → List Seg → Prop
  | _, _, [] => True
  | prev, a, s :: t =>
    mem a = ⟨s.size, nextOf H a s.size t, prev, s.free⟩ ∧ Chain H mem a (a + H + s.size) t

/-- The test of `Split` on whether a second segment is carved out, for a segment of payload
size `n` and a first part of `r` bytes. -/
def splitFits (c : Config) (n r : Nat) : Prop :=
  (c.BLOCK_SIZE : Int) ≤ toInt64 ((n + U64 - r % U64 + U64 - c.HeaderSize % U64) % U64)

instance (c : Config) (n r : Nat) : Decidable (splitFits c n r) := by
  unfold splitFits; infer_instance

/-- The memory after a `Split` that carves a second segment, header by header. -/
def splitMem (mem : Nat → HeapSegmentHeader) (this second r d : Nat) :
    Nat → HeapSegmentHeader :=
  fun x =>
    if x = this then ⟨r, second, (mem this).Prev, (mem this).Free⟩
    else if x = second then ⟨d, (mem this).Next, this, true⟩
    else if x = (mem this).Next ∧ (mem this).Next ≠ 0 then { mem x with Prev := second }
    else mem x

/-- What taking `r` bytes from the free segment `s` makes of it: an allocated segment of `r`
bytes and a free remainder when `Split` carves one, the whole segment allocated otherwise. -/
def carve (c : Config) (r : Nat) (s : Seg) (t : List Seg) : List Seg :=
  if r < s.size ∧ splitFits c s.size r then
    ⟨r, false⟩ :: ⟨s.size - r - c.HeaderSize, true⟩ :: t
  else ⟨s.size, false⟩ :: t

/-- First fit on the list: the address of the first free segment of at least `r` bytes among
the segments laid out from `a`, and the list after that segment is taken. -/
def allocList (c : Config) (r : Nat) : Nat → List Seg → Option (Nat × List Seg)
  | _, [] => none
  | a, s :: t =>
    if s.free = true ∧ r ≤ s.size then some (a, carve c r s t)
    else (allocList c r (a + c.HeaderSize + s.size) t).map fun q => (q.1, s :: q.2)

/-- The members of the heap object that `Split` and the merges never touch are equal. -/
def SameFields (h1 h2 : Heap) : Prop :=
  h1.HeapStart = h2.HeapStart ∧ h1.HeapEnd = h2.HeapEnd ∧ h1.frames = h2.frames ∧
    h1.mapped = h2.mapped

/-- The heap object `hp` has the segment list `segs`: the headers of `segs` lie without gaps
from `HeapStart` to `HeapEnd`, doubly linked, and every address fits 64 bits. -/
structure Layout (c : Config) (hp : Heap) (segs : List Seg) : Prop where
  nonempty : segs ≠ []
  start_pos : 0 < hp.HeapStart
  chain : Chain c.HeaderSize hp.mem 0 hp.HeapStart segs
  stop : endOf c.HeaderSize hp.HeapStart segs = hp.HeapEnd
  bound : hp.HeapEnd < U64

/-- No two neighbours in the list are both free. -/
def NoAdjFree (segs : List Seg) : Prop :=
  List.Chain' (fun s t : Seg => ¬ (s.free = true ∧ t.free = true)) segs

instance (segs : List Seg) : Decidable (NoAdjFree segs) := by
  unfold NoAdjFree; infer_instance

/-- A well-formed heap: its segments are contiguous, no two adjacent ones are free, and
`LastHeader` is the last header of the list. -/
structure WellFormed (c : Config) (hp : Heap) (segs : List Seg) : Prop where
  layout : Layout c hp segs
  last : hp.LastHeader = lastAddr c.HeaderSize hp.HeapStart segs
  noAdj : NoAdjFree segs

/-- The constants are sane: a block and a header have a positive size, and a header is
smaller than a page. -/
structure Config.Sane (c : Config) : Prop where
  block_pos : 0 < c.BLOCK_SIZE
  header_pos : 0 < c.HeaderSize
  header_lt : c.HeaderSize < 4096

/-- What `MergeNext` on the first segment of a list does: it absorbs the second one, header
included, when that one is free. -/
def mergeHead (H : Nat) : List Seg → List Seg
  | s :: n :: t => if n.free = true then ⟨s.size + H + n.size, s.free⟩ :: t else s :: n :: t
  | l => l

/-- What `MergeNext` on the segment of index `j` does to the list. -/
def mergeAt (H : Nat) : Nat → List Seg → List Seg
  | 0, l => mergeHead H l
  | _ + 1, [] => []
  | j + 1, s :: t => s :: mergeAt H j t

/-- The list with the segment of index `j` marked free. -/
def setFreeAt : Nat → List Seg → List Seg
  | _, [] => []
  | 0, s :: t => ⟨s.size, true⟩ :: t
  | j + 1, s :: t => s :: setFreeAt j t

/-- The address of the header of index `j` in a run of segments laid out from `a`. -/
def addrAt (H a : Nat) (segs : List Seg) (j : Nat) : Nat :=
  endOf H a (segs.take j)

/-- What `Free` on the payload of the segment of index `i` does to the list: mark it free,
merge it with its successor when that one is free, then merge its predecessor with it when
that one is free. -/
def freeList (H : Nat) (i : Nat) (segs : List Seg) : List Seg :=
  match i with
  | 0 => mergeAt H 0 (setFreeAt 0 segs)
  | k + 1 =>
    if (segs[k]?).map Seg.free = some true then
      mergeAt H k (mergeAt H (k + 1) (setFreeAt (k + 1) segs))
    else mergeAt H (k + 1) (setFreeAt (k + 1) segs)

/-- The headers, with their addresses, of a run of segments laid out from `a`, the first one
with `Prev = prev`: what the walk of the list reads when memory holds that run. -/
def headers (H : Nat) : Nat → Nat → List Seg → List (Nat × HeapSegmentHeader)
  | _, _, [] => []
  | prev, a, s :: t =>
    (a, ⟨s.size, nextOf H a s.size t, prev, s.free⟩) :: headers H a (a + H + s.size) t

/-- The constant `HEAP_ADDRESS` of `KernelInit.cpp`. -/
def HEAP_ADDRESS : Nat := 0xFFFFFFFF00000000

/-- Sample constants for the concrete scenarios: blocks of 16 bytes, headers of 32 bytes (three
8-byte fields and a flag, padded), frames handed out upwards from `0x200000`. -/
def sampleConfig : Config := ⟨16, 32, fun k => 0x200000 + k * 0x1000⟩

/-- A heap object before `InitializeHeap`: zeroed members over zeroed memory, no call made. -/
def blankHeap : Heap := ⟨0, 0, 0, fun _ => ⟨0, 0, 0, false⟩, 0, []⟩

/-- The kernel heap as `main` sets it up: `InitializeHeap(HEAP_ADDRESS, 16)`. -/
def kernelHeap : Heap := InitializeHeap sampleConfig blankHeap HEAP_ADDRESS 16

/-- A call on the heap object: `Malloc(size)`, `Free(address)` or `ExtendHeap(size)`. -/
inductive HeapOp where
  | malloc (size : Nat)
  | free (address : Nat)
  | extend (size : Nat)

/-- Runs a sequence of calls from `hp`; returns the pointers the `Malloc` calls returned, in
order, and the final heap (`none` when a `Malloc` ran out of its budget). -/
def runOps (c : Config) (fuel retries : Nat) : Heap → List HeapOp → Option (List Nat × Heap)
  | hp, [] => some ([], hp)
  | hp, .malloc size :: ops =>
    match Malloc c fuel retries hp size with
    | none => none
    | some (p, hp1) => (runOps c fuel retries hp1 ops).map fun r => (p :: r.1, r.2)
  | hp, .free address :: ops => runOps c fuel retries (Free c hp address) ops
  | hp, .extend size :: ops => runOps c fuel retries (ExtendHeap c hp size) ops

/-- Contiguity of the segment list as read from memory: a header with a successor is followed
by it without a gap and is its `Prev`; the header without successor ends at `HeapEnd`. -/
def Contiguous (c : Config) (hp : Heap) (fuel : Nat) : Prop :=
  ∀ x ∈ hp.segments fuel,
    (x.2.Next ≠ 0 → x.2.Next = x.1 + c.HeaderSize + x.2.Size ∧ (hp.mem x.2.Next).Prev = x.1) ∧
    (x.2.Next = 0 → x.1 + c.HeaderSize + x.2.Size = hp.HeapEnd)

instance (c : Config) (hp : Heap) (fuel : Nat) : Decidable (Contiguous c hp fuel) := by
  unfold Contiguous; infer_instance

/-- No header of the list read from memory is free together with its successor. -/
def NoAdjacentFree (hp : Heap) (fuel : Nat) : Prop :=
  ∀ x ∈ hp.segments fuel, x.2.Free = true → x.2.Next ≠ 0 → (hp.mem x.2.Next).Free = false

instance (hp : Heap) (fuel : Nat) : Decidable (NoAdjacentFree hp fuel) := by
  unfold NoAdjacentFree; infer_instance

/-- The kernel heap once its one segment is taken whole: after `Malloc(65504)`. -/
def fullKernelHeap : Heap :=
  ((Malloc sampleConfig 1 0 kernelHeap 65504).map Prod.snd).getD kernelHeap

/-- The shape of the heap in which a request of one page makes no progress: the header at
the heap start `b` is allocated and is what `LastHeader` names, and it is followed by nothing
or by one free segment of a page less a header that ends the list. -/
def Stuck (c : Config) (b : Nat) (hp : Heap) : Prop :=
  hp.HeapStart = b ∧ hp.LastHeader = b ∧ (hp.mem b).Free = false ∧ b < hp.HeapEnd ∧
    ((hp.mem b).Next = 0 ∨
      (b < (hp.mem b).Next ∧ hp.mem (hp.mem b).Next = ⟨4096 - c.HeaderSize, 0, b, true⟩))

/-- The size after lines 91-95 of `Heap::ExtendHeap`, as a number: `size` rounded up to a
multiple of the page size `0x1000`. The code keeps this value modulo `2^64`. -/
def pageRounded (size : Nat) : Nat :=
  if size % 0x1000 > 0 then size - size % 0x1000 + 0x1000 else size

/-- The `Present` flags of the entries of levels 4, 3 and 2 on the walk of `virtualAddress`
in the tables as they are; an entry below one that is not present counts as not present. -/
def presentLevels (m : PageTableManager) (virtualAddress : Nat) : List Bool :=
  let indexer := PageMapIndexer.ofAddress virtualAddress
  let e4 := m.tables m.TableLevel4 indexer.TableLevel4Index
  let e3 := m.tables e4.Address indexer.TableLevel3Index
  let e2 := m.tables e3.Address indexer.TableLevel2Index
  [e4.Present, e4.Present && e3.Present, e4.Present && e3.Present && e2.Present]

/-- The `Present` flags of the three entries `MapPage` reads for `virtualAddress` at levels
4, 3 and 2, each in the state in which `MapPage` reads it. -/
def readLevels (GetPage : Nat → Nat) (m : PageTableManager) (virtualAddress : Nat) :
    List Bool :=
  let indexer := PageMapIndexer.ofAddress virtualAddress
  let r4 := levelEntry GetPage m m.TableLevel4 indexer.TableLevel4Index
  let r3 := levelEntry GetPage r4.1 r4.2 indexer.TableLevel3Index
  [(m.tables m.TableLevel4 indexer.TableLevel4Index).Present,
   (r4.1.tables r4.2 indexer.TableLevel3Index).Present,
   (r3.1.tables r3.2 indexer.TableLevel2Index).Present]

/-- What a call of `MapPage` that leads from the tables `m` to the tables `m1` did at one of
the levels 4, 3, 2, where `index` of `table` leads to `child` and the walk goes on at
`childIndex`. When the entry was present: it is unchanged, `child` is the table it names, and
`child` is unchanged but possibly at `childIndex`. When it was not: `child` is the `k`-th frame
of `GetPage`, the entry names it with `Present` and `ReadWrite` set, and every entry of
`child` but possibly the one at `childIndex` is zero. -/
def LevelOutcome (GetPage : Nat → Nat) (m m1 : PageTableManager)
    (table index child childIndex : Nat) (wasPresent : Bool) (k : Nat) : Prop :=
  if wasPresent = true then
    m1.tables table index = m.tables table index ∧ (m.tables table index).Present = true ∧
      (m.tables table index).Address = child ∧
      ∀ x, x ≠ childIndex → m1.tables child x = m.tables child x
  else
    child = GetPage k ∧ m1.tables table index = ⟨true, true, child⟩ ∧
      ∀ x, x ≠ childIndex → m1.tables child x = ⟨false, false, 0⟩

/-- The table reached from `table` by following the present entries at the given indices,
the index into `table` first; `none` when an entry on the way is not present. -/
def descend (tables : Nat → Nat → PageTableEntry) : Nat → List Nat → Option Nat
  | table, [] => some table
  | table, i :: rest =>
    if (tables table i).Present = true then descend tables (tables table i).Address rest
    else none

/-- The tables form a tree: a table of level 4, 3, 2 or 1 is reached from `TableLevel4` along
one list of entries only, so no table frame is named by two entries, nor is the root named by
any. -/
def TableTree (m : PageTableManager) : Prop :=
  ∀ (p q : List Nat) (t : Nat), p.length ≤ 3 → q.length ≤ 3 →
    (∀ i ∈ p, i < 512) → (∀ i ∈ q, i < 512) →
    descend m.tables m.TableLevel4 p = some t → descend m.tables m.TableLevel4 q = some t →
    p = q

/-- The frames `GetPage` is still to return are not in use as tables, and are different from
one another. -/
def FreshFrames (GetPage : Nat → Nat) (m : PageTableManager) : Prop :=
  ∀ k, m.requested ≤ k →
    (∀ p : List Nat, p.length ≤ 3 → (∀ i ∈ p, i < 512) →
      descend m.tables m.TableLevel4 p ≠ some (GetPage k)) ∧
    ∀ j, m.requested ≤ j → GetPage j = GetPage k → j = k

/-- The walk of the hardware from `table` along the given indices: `none` when an entry above
the last one is not present, else the entry at the last index. -/
def walkFrom (tables : Nat → Nat → PageTableEntry) : Nat → List Nat → Option PageTableEntry
  | _, [] => none
  | table, [i] => some (tables table i)
  | table, i :: j :: rest =>
    if (tables table i).Present = false then none
    else walkFrom tables (tables table i).Address (j :: rest)

/-- What the table walk of `virtualAddress` results in: not mapped (`none`) when one of the
four entries on the walk is not present, else the frame and the `ReadWrite` flag of the entry
of level 1. -/
def translate (m : PageTableManager) (virtualAddress : Nat) : Option (Nat × Bool) :=
  match tableWalk m virtualAddress with
  | some e => if e.Present = true then some (e.Address, e.ReadWrite) else none
  | none => none

/-- Sample page tables for the concrete scenarios: the root table at `0x1000`, every entry of
every table not present, no frame requested yet. -/
def emptyTables : PageTableManager := ⟨0x1000, fun _ _ => ⟨false, false, 0⟩, 0⟩

/-- Sample frame allocator for the concrete scenarios: the `k`-th call of `GetPage` returns
the frame at `0x200000 + k * 0x1000`. -/
def sampleGetPage (k : Nat) : Nat := 0x200000 + k * 0x1000

/-! ## The cursor system calls -/

/-- The value of an `int32_t` that holds the bit pattern `x` (two's complement): the cast
`(int32_t) x` of a 64-bit register keeps the low 32 bits. -/
def toInt32 (x : Nat) : Int :=
  if x % 4294967296 < 2147483648 then ((x % 4294967296 : Nat) : Int)
  else ((x % 4294967296 : Nat) : Int) - 4294967296

/-- The conversion of a signed value to `uint64_t`: its value modulo `2^64`. -/
def toUInt64 (x : Int) : Nat :=
  (x % 18446744073709551616).toNat

/-- The `struct Point` of `Renderer.hpp`: two `int32_t` coordinates. -/
structure Point where
  X : Int
  Y : Int
deriving DecidableEq

/-- The member of `class Renderer` the cursor calls use: `Cursor`. -/
structure Renderer where
  Cursor : Point

/-- The registers the cursor calls read and write, out of `struct Registers` (declared in a
header outside the sources at hand): 64-bit values. -/
structure Registers where
  RAX : Nat
  R8 : Nat
  R9 : Nat

/-- The function `SysGetCrsr(regs)`, on the renderer `MainRenderer`. The operand
`(uint64_t) Cursor.X << 32` is a 64-bit value; the `int32_t` operand `Cursor.Y` of `|` is
converted to `uint64_t` as well. -/
def SysGetCrsr (MainRenderer : Renderer) (regs : Registers) : Registers :=
  { regs with RAX :=
      ((toUInt64 MainRenderer.Cursor.X <<< 32) % U64) ||| toUInt64 MainRenderer.Cursor.Y }

/-- The function `SysSetCrsr(regs)`, on the renderer `MainRenderer`. -/
def SysSetCrsr (MainRenderer : Renderer) (regs : Registers) : Renderer :=
  let MainRenderer :=
    { MainRenderer with Cursor := { MainRenderer.Cursor with X := toInt32 regs.R8 } }
  { MainRenderer with Cursor := { MainRenderer.Cursor with Y := toInt32 regs.R9 } }

/-! ## Chains of headers, `Split` and the scan of `Malloc` -/

theorem le_endOf (H : Nat) : ∀ (segs : List Seg) (a : Nat), a ≤ endOf H a segs
  | [], a => Nat.le_refl a
  | s :: t, a => by
    have := le_endOf H t (a + H + s.size)
    simp only [endOf]; omega

theorem cons_le_endOf (H : Nat) (s : Seg) (t : List Seg) (a : Nat) :
    a + H + s.size ≤ endOf H a (s :: t) := by
  simp only [endOf]; exact le_endOf H t _

theorem lastAddr_lt_endOf (H : Nat) (hH : 0 < H) :
    ∀ (segs : List Seg) (a : Nat), segs ≠ [] → lastAddr H a segs < endOf H a segs
  | [], _, h => absurd rfl h
  | [s], a, _ => by simp only [lastAddr, endOf]; omega
  | s :: t :: r, a, _ => by
    have := lastAddr_lt_endOf H hH (t :: r) (a + H + s.size) (by simp)
    simpa only [lastAddr, endOf] using this

theorem le_lastAddr (H : Nat) : ∀ (segs : List Seg) (a : Nat), a ≤ lastAddr H a segs
  | [], a => Nat.le_refl a
  | [_], a => Nat.le_refl a
  | s :: t :: r, a => by
    have := le_lastAddr H (t :: r) (a + H + s.size)
    simp only [lastAddr]; omega

/-- A chain only depends on the memory from its first header on. -/
theorem Chain.congr {H : Nat} {mem mem1 : Nat → HeapSegmentHeader} :
    ∀ (segs : List Seg) (prev a : Nat), (∀ x, a ≤ x → mem1 x = mem x) →
      Chain H mem prev a segs → Chain H mem1 prev a segs
  | [], _, _, _, _ => trivial
  | s :: t, prev, a, hm, hc => by
    refine ⟨?_, Chain.congr t a (a + H + s.size) (fun x h1 => hm x (by omega)) hc.2⟩
    rw [hm a (Nat.le_refl a)]; exact hc.1

/-- Changing the `Prev` field of the first header of a chain, and nothing else in it. -/
theorem Chain.reprev {H : Nat} (hH : 0 < H) {mem mem1 : Nat → HeapSegmentHeader}
    (segs : List Seg) (prev q a : Nat) (hm : ∀ x, a < x → mem1 x = mem x)
    (ha : segs ≠ [] → mem1 a = { mem a with Prev := q })
    (hc : Chain H mem prev a segs) : Chain H mem1 q a segs := by
  cases segs with
  | nil => trivial
  | cons s t =>
    refine ⟨?_, Chain.congr t a (a + H + s.size) (fun x h1 => hm x (by omega)) hc.2⟩
    rw [ha (by simp), hc.1]

@[simp] theorem write_same (mem : Nat → HeapSegmentHeader) (a : Nat) (h : HeapSegmentHeader) :
    write mem a h a = h := by simp [write]

theorem write_other (mem : Nat → HeapSegmentHeader) (a x : Nat) (h : HeapSegmentHeader)
    (hx : x ≠ a) : write mem a h x = mem x := by simp [write, hx]

/-- The test of `Split` in plain terms: the remainder after `r` bytes and a header is at least
one block (and below `2^63`, beyond which the signed comparison reads it as negative). -/
theorem splitFits_iff (c : Config) (n r : Nat) (hn : n < U64) (hr : r ≤ n)
    (hH : c.HeaderSize < 4096) :
    splitFits c n r ↔ r + c.HeaderSize + c.BLOCK_SIZE ≤ n ∧ n - r - c.HeaderSize < 2 ^ 63 := by
  unfold splitFits toInt64
  have h1 : r % U64 = r := Nat.mod_eq_of_lt (by omega)
  have h2 : c.HeaderSize % U64 = c.HeaderSize := Nat.mod_eq_of_lt (by simp only [U64]; omega)
  rw [h1, h2]
  simp only [U64] at *
  norm_num
  split_ifs with h <;> omega

theorem setSize_Size (hp : Heap) (a : Nat) (v : Nat) (x : Nat) :
    ((hp.setSize a v).mem x).Size = if x = a then v else (hp.mem x).Size := by
  simp only [Heap.setSize, write]; split_ifs with h
  · rfl
  · rfl
theorem setSize_Next (hp : Heap) (a : Nat) (v : Nat) (x : Nat) :
    ((hp.setSize a v).mem x).Next = (hp.mem x).Next := by
  simp only [Heap.setSize, write]; split_ifs with h
  · rw [h]
  · rfl
theorem setSize_Prev (hp : Heap) (a : Nat) (v : Nat) (x : Nat) :
    ((hp.setSize a v).mem x).Prev = (hp.mem x).Prev := by
  simp only [Heap.setSize, write]; split_ifs with h
  · rw [h]
  · rfl
theorem setSize_Free (hp : Heap) (a : Nat) (v : Nat) (x : Nat) :
    ((hp.setSize a v).mem x).Free = (hp.mem x).Free := by
  simp only [Heap.setSize, write]; split_ifs with h
  · rw [h]
  · rfl
theorem setNext_Size (hp : Heap) (a : Nat) (v : Nat) (x : Nat) :
    ((hp.setNext a v).mem x).Size = (hp.mem x).Size := by
  simp only [Heap.setNext, write]; split_ifs with h
  · rw [h]
  · rfl
theorem setNext_Next (hp : Heap) (a : Nat) (v : Nat) (x : Nat) :
    ((hp.setNext a v).mem x).Next = if x = a then v else (hp.mem x).Next := by
  simp only [Heap.setNext, write]; split_ifs with h
  · rfl
  · rfl
theorem setNext_Prev (hp : Heap) (a : Nat) (v : Nat) (x : Nat) :
    ((hp.setNext a v).mem x).Prev = (hp.mem x).Prev := by
  simp only [Heap.setNext, write]; split_ifs with h
  · rw [h]
  · rfl
theorem setNext_Free (hp : Heap) (a : Nat) (v : Nat) (x : Nat) :
    ((hp.setNext a v).mem x).Free = (hp.mem x).Free := by
  simp only [Heap.setNext, write]; split_ifs with h
  · rw [h]
  · rfl
theorem setPrev_Size (hp : Heap) (a : Nat) (v : Nat) (x : Nat) :
    ((hp.setPrev a v).mem x).Size = (hp.mem x).Size := by
  simp only [Heap.setPrev, write]; split_ifs with h
  · rw [h]
  · rfl
theorem setPrev_Next (hp : Heap) (a : Nat) (v : Nat) (x : Nat) :
    ((hp.setPrev a v).mem x).Next = (hp.mem x).Next := by
  simp only [Heap.setPrev, write]; split_ifs with h
  · rw [h]
  · rfl
theorem setPrev_Prev (hp : Heap) (a : Nat) (v : Nat) (x : Nat) :
    ((hp.setPrev a v).mem x).Prev = if x = a then v else (hp.mem x).Prev := by
  simp only [Heap.setPrev, write]; split_ifs with h
  · rfl
  · rfl
theorem setPrev_Free (hp : Heap) (a : Nat) (v : Nat) (x : Nat) :
    ((hp.setPrev a v).mem x).Free = (hp.mem x).Free := by
  simp only [Heap.setPrev, write]; split_ifs with h
  · rw [h]
  · rfl
theorem setFree_Size (hp : Heap) (a : Nat) (v : Bool) (x : Nat) :
    ((hp.setFree a v).mem x).Size = (hp.mem x).Size := by
  simp only [Heap.setFree, write]; split_ifs with h
  · rw [h]
  · rfl
theorem setFree_Next (hp : Heap) (a : Nat) (v : Bool) (x : Nat) :
    ((hp.setFree a v).mem x).Next = (hp.mem x).Next := by
  simp only [Heap.setFree, write]; split_ifs with h
  · rw [h]
  · rfl
theorem setFree_Prev (hp : Heap) (a : Nat) (v : Bool) (x : Nat) :
    ((hp.setFree a v).mem x).Prev = (hp.mem x).Prev := by
  simp only [Heap.setFree, write]; split_ifs with h
  · rw [h]
  · rfl
theorem setFree_Free (hp : Heap) (a : Nat) (v : Bool) (x : Nat) :
    ((hp.setFree a v).mem x).Free = if x = a then v else (hp.mem x).Free := by
  simp only [Heap.setFree, write]; split_ifs with h
  · rfl
  · rfl
/-- Every field of every header after one assignment to a header field. -/
theorem mem_set :
    (∀ (hp : Heap) (a : Nat) (v : Nat) (x : Nat),
      ((hp.setSize a v).mem x).Size = if x = a then v else (hp.mem x).Size) ∧
    (∀ (hp : Heap) (a : Nat) (v : Nat) (x : Nat),
      ((hp.setSize a v).mem x).Next = (hp.mem x).Next) ∧
    (∀ (hp : Heap) (a : Nat) (v : Nat) (x : Nat),
      ((hp.setSize a v).mem x).Prev = (hp.mem x).Prev) ∧
    (∀ (hp : Heap) (a : Nat) (v : Nat) (x : Nat),
      ((hp.setSize a v).mem x).Free = (hp.mem x).Free) ∧
    (∀ (hp : Heap) (a : Nat) (v : Nat) (x : Nat),
      ((hp.setNext a v).mem x).Size = (hp.mem x).Size) ∧
    (∀ (hp : Heap) (a : Nat) (v : Nat) (x : Nat),
      ((hp.setNext a v).mem x).Next = if x = a then v else (hp.mem x).Next) ∧
    (∀ (hp : Heap) (a : Nat) (v : Nat) (x : Nat),
      ((hp.setNext a v).mem x).Prev = (hp.mem x).Prev) ∧
    (∀ (hp : Heap) (a : Nat) (v : Nat) (x : Nat),
      ((hp.setNext a v).mem x).Free = (hp.mem x).Free) ∧
    (∀ (hp : Heap) (a : Nat) (v : Nat) (x : Nat),
      ((hp.setPrev a v).mem x).Size = (hp.mem x).Size) ∧
    (∀ (hp : Heap) (a : Nat) (v : Nat) (x : Nat),
      ((hp.setPrev a v).mem x).Next = (hp.mem x).Next) ∧
    (∀ (hp : Heap) (a : Nat) (v : Nat) (x : Nat),
      ((hp.setPrev a v).mem x).Prev = if x = a then v else (hp.mem x).Prev) ∧
    (∀ (hp : Heap) (a : Nat) (v : Nat) (x : Nat),
      ((hp.setPrev a v).mem x).Free = (hp.mem x).Free) ∧
    (∀ (hp : Heap) (a : Nat) (v : Bool) (x : Nat),
      ((hp.setFree a v).mem x).Size = (hp.mem x).Size) ∧
    (∀ (hp : Heap) (a : Nat) (v : Bool) (x : Nat),
      ((hp.setFree a v).mem x).Next = (hp.mem x).Next) ∧
    (∀ (hp : Heap) (a : Nat) (v : Bool) (x : Nat),
      ((hp.setFree a v).mem x).Prev = (hp.mem x).Prev) ∧
    (∀ (hp : Heap) (a : Nat) (v : Bool) (x : Nat),
      ((hp.setFree a v).mem x).Free = if x = a then v else (hp.mem x).Free) :=
  ⟨setSize_Size, setSize_Next, setSize_Prev, setSize_Free, setNext_Size, setNext_Next, setNext_Prev, setNext_Free, setPrev_Size, setPrev_Next, setPrev_Prev, setPrev_Free, setFree_Size, setFree_Next, setFree_Prev, setFree_Free⟩
/-- An assignment to a header field leaves the members of the heap object alone. -/
theorem fld_set :
    (∀ (hp : Heap) (a : Nat) (v : Nat), (hp.setSize a v).HeapStart = hp.HeapStart) ∧
    (∀ (hp : Heap) (a : Nat) (v : Nat), (hp.setSize a v).HeapEnd = hp.HeapEnd) ∧
    (∀ (hp : Heap) (a : Nat) (v : Nat), (hp.setSize a v).LastHeader = hp.LastHeader) ∧
    (∀ (hp : Heap) (a : Nat) (v : Nat), (hp.setSize a v).frames = hp.frames) ∧
    (∀ (hp : Heap) (a : Nat) (v : Nat), (hp.setSize a v).mapped = hp.mapped) ∧
    (∀ (hp : Heap) (a : Nat) (v : Nat), (hp.setNext a v).HeapStart = hp.HeapStart) ∧
    (∀ (hp : Heap) (a : Nat) (v : Nat), (hp.setNext a v).HeapEnd = hp.HeapEnd) ∧
    (∀ (hp : Heap) (a : Nat) (v : Nat), (hp.setNext a v).LastHeader = hp.LastHeader) ∧
    (∀ (hp : Heap) (a : Nat) (v : Nat), (hp.setNext a v).frames = hp.frames) ∧
    (∀ (hp : Heap) (a : Nat) (v : Nat), (hp.setNext a v).mapped = hp.mapped) ∧
    (∀ (hp : Heap) (a : Nat) (v : Nat), (hp.setPrev a v).HeapStart = hp.HeapStart) ∧
    (∀ (hp : Heap) (a : Nat) (v : Nat), (hp.setPrev a v).HeapEnd = hp.HeapEnd) ∧
    (∀ (hp : Heap) (a : Nat) (v : Nat), (hp.setPrev a v).LastHeader = hp.LastHeader) ∧
    (∀ (hp : Heap) (a : Nat) (v : Nat), (hp.setPrev a v).frames = hp.frames) ∧
    (∀ (hp : Heap) (a : Nat) (v : Nat), (hp.setPrev a v).mapped = hp.mapped) ∧
    (∀ (hp : Heap) (a : Nat) (v : Bool), (hp.setFree a v).HeapStart = hp.HeapStart) ∧
    (∀ (hp : Heap) (a : Nat) (v : Bool), (hp.setFree a v).HeapEnd = hp.HeapEnd) ∧
    (∀ (hp : Heap) (a : Nat) (v : Bool), (hp.setFree a v).LastHeader = hp.LastHeader) ∧
    (∀ (hp : Heap) (a : Nat) (v : Bool), (hp.setFree a v).frames = hp.frames) ∧
    (∀ (hp : Heap) (a : Nat) (v : Bool), (hp.setFree a v).mapped = hp.mapped) := by
  simp only [Heap.setSize, Heap.setNext, Heap.setPrev, Heap.setFree, implies_true, and_self]

theorem header_ext {h1 h2 : HeapSegmentHeader} (a : h1.Size = h2.Size)
    (b : h1.Next = h2.Next) (d : h1.Prev = h2.Prev) (e : h1.Free = h2.Free) : h1 = h2 := by
  cases h1; cases h2; simp_all

theorem heap_ext {h1 h2 : Heap} (a : h1.HeapStart = h2.HeapStart) (b : h1.HeapEnd = h2.HeapEnd)
    (d : h1.LastHeader = h2.LastHeader) (e : h1.mem = h2.mem) (f : h1.frames = h2.frames)
    (g : h1.mapped = h2.mapped) : h1 = h2 := by
  cases h1; cases h2; simp_all

/-- A member of a heap chosen by a test is the member of the chosen heap. -/
theorem fld_ite :
    (∀ (p : Prop) [Decidable p] (a b : Heap),
      (if p then a else b).HeapStart = if p then a.HeapStart else b.HeapStart) ∧
    (∀ (p : Prop) [Decidable p] (a b : Heap),
      (if p then a else b).HeapEnd = if p then a.HeapEnd else b.HeapEnd) ∧
    (∀ (p : Prop) [Decidable p] (a b : Heap),
      (if p then a else b).LastHeader = if p then a.LastHeader else b.LastHeader) ∧
    (∀ (p : Prop) [Decidable p] (a b : Heap),
      (if p then a else b).frames = if p then a.frames else b.frames) ∧
    (∀ (p : Prop) [Decidable p] (a b : Heap),
      (if p then a else b).mapped = if p then a.mapped else b.mapped) ∧
    (∀ (p : Prop) [Decidable p] (a b : Heap),
      (if p then a else b).mem = if p then a.mem else b.mem) := by
  refine ⟨?_, ?_, ?_, ?_, ?_, ?_⟩ <;> intro p _ a b <;> split_ifs <;> rfl
/-- A field of a header chosen by a test is the field of the chosen header. -/
theorem hdr_ite :
    (∀ (p : Prop) [Decidable p] (a b : HeapSegmentHeader),
      (if p then a else b).Size = if p then a.Size else b.Size) ∧
    (∀ (p : Prop) [Decidable p] (a b : HeapSegmentHeader),
      (if p then a else b).Next = if p then a.Next else b.Next) ∧
    (∀ (p : Prop) [Decidable p] (a b : HeapSegmentHeader),
      (if p then a else b).Prev = if p then a.Prev else b.Prev) ∧
    (∀ (p : Prop) [Decidable p] (a b : HeapSegmentHeader),
      (if p then a else b).Free = if p then a.Free else b.Free) := by
  refine ⟨?_, ?_, ?_, ?_⟩ <;> intro p _ a b <;> split_ifs <;> rfl

theorem Split_fields (c : Config) (hp : Heap) (this r : Nat) :
    (Split c hp this r).2.HeapStart = hp.HeapStart ∧ (Split c hp this r).2.HeapEnd = hp.HeapEnd ∧
    (Split c hp this r).2.frames = hp.frames ∧ (Split c hp this r).2.mapped = hp.mapped := by
  unfold Split; simp only []
  refine ⟨?_, ?_, ?_, ?_⟩ <;> split_ifs <;> simp only [fld_set]

theorem Split_no (c : Config) (hp : Heap) (this r : Nat)
    (h : ¬ splitFits c (hp.mem this).Size r) : Split c hp this r = (0, hp) := by
  unfold splitFits at h
  simp only [Split]
  rw [if_pos (by omega)]

theorem Split_size (c : Config) (n r : Nat) (hr : r ≤ n) (hn : n < U64)
    (hH2 : c.HeaderSize < 4096) (h : splitFits c n r) :
    (toInt64 ((n + U64 - r % U64 + U64 - c.HeaderSize % U64) % U64)
      % 18446744073709551616).toNat = n - r - c.HeaderSize := by
  have hsf := (splitFits_iff c _ r hn hr hH2).1 h
  unfold toInt64
  have h1 : r % U64 = r := Nat.mod_eq_of_lt (by omega)
  have h2 : c.HeaderSize % U64 = c.HeaderSize := Nat.mod_eq_of_lt (by simp only [U64]; omega)
  rw [h1, h2]
  simp only [U64] at *
  norm_num
  split_ifs with h3 <;> omega

theorem Split_yes (c : Config) (hp : Heap) (this r : Nat) (hr : r ≤ (hp.mem this).Size)
    (hn : (hp.mem this).Size < U64) (hH : 0 < c.HeaderSize) (hH2 : c.HeaderSize < 4096)
    (hthis : this + c.HeaderSize + (hp.mem this).Size < U64)
    (hnx : (hp.mem this).Next = 0 ∨ this + c.HeaderSize + r < (hp.mem this).Next)
    (h : splitFits c (hp.mem this).Size r) :
    ∃ hp1, Split c hp this r = (this + c.HeaderSize + r, hp1) ∧
      hp1.mem = splitMem hp.mem this (this + c.HeaderSize + r) r
                 ((hp.mem this).Size - r - c.HeaderSize) ∧
      hp1.LastHeader =
        (if hp.LastHeader = this then this + c.HeaderSize + r else hp.LastHeader) := by
  have hsf := (splitFits_iff c _ r hn hr hH2).1 h
  have hd := Split_size c _ r hr hn hH2 h
  unfold splitFits at h
  have hsec : (this + c.HeaderSize + r) % U64 = this + c.HeaderSize + r :=
    Nat.mod_eq_of_lt (by omega)
  unfold Split
  lift_lets
  intro sss second h1 h2 h3 h4 h5 h6 h7 h8
  have hs2 : second = this + c.HeaderSize + r := hsec
  have hs3 : (sss % 18446744073709551616).toNat = (hp.mem this).Size - r - c.HeaderSize := hd
  have hs4 : ¬ sss < (c.BLOCK_SIZE : Int) := by omega
  have e1 : this + c.HeaderSize + r ≠ this := by omega
  have e2 : this ≠ this + c.HeaderSize + r := by omega
  refine ⟨h8, ?_, ?_, ?_⟩
  · rw [if_neg hs4, hs2]
  · funext x
    rcases hnx with h0 | h0
    · by_cases hx1 : x = this
      · subst hx1
        apply header_ext <;>
          simp only [h8, h7, h6, h5, h4, h3, h2, h1, hs2, hs3, h0, splitMem, e1, e2, mem_set,
            fld_set, fld_ite, hdr_ite, if_true, if_false, ite_self, ne_eq, not_true_eq_false]
      · by_cases hx2 : x = this + c.HeaderSize + r
        · subst hx2
          apply header_ext <;>
          simp only [h8, h7, h6, h5, h4, h3, h2, h1, hs2, hs3, h0, splitMem, e1, e2, mem_set,
            fld_set, fld_ite, hdr_ite, if_true, if_false, ite_self, ne_eq, not_true_eq_false]
        · apply header_ext <;>
          simp only [h8, h7, h6, h5, h4, h3, h2, h1, hs2, hs3, h0, splitMem, e1, e2, mem_set,
            fld_set, fld_ite, hdr_ite, if_true, if_false, ite_self, ne_eq, not_true_eq_false,
            hx1, hx2, and_false]
    · have e3 : (hp.mem this).Next ≠ 0 := by omega
      have e4 : (hp.mem this).Next ≠ this := by omega
      have e5 : (hp.mem this).Next ≠ this + c.HeaderSize + r := by omega
      have e6 : this ≠ (hp.mem this).Next := by omega
      have e7 : this + c.HeaderSize + r ≠ (hp.mem this).Next := by omega
      by_cases hx1 : x = this
      · subst hx1
        apply header_ext <;>
          simp only [h8, h7, h6, h5, h4, h3, h2, h1, hs2, hs3, splitMem, e1, e2, e3, e4, e5, e6,
            e7, mem_set, fld_set, fld_ite, hdr_ite, if_true, if_false, ite_self, ne_eq,
            not_true_eq_false, not_false_eq_true]
      · by_cases hx2 : x = this + c.HeaderSize + r
        · subst hx2
          apply header_ext <;>
          simp only [h8, h7, h6, h5, h4, h3, h2, h1, hs2, hs3, splitMem, e1, e2, e3, e4, e5, e6,
            e7, mem_set, fld_set, fld_ite, hdr_ite, if_true, if_false, ite_self, ne_eq,
            not_true_eq_false, not_false_eq_true]
        · by_cases hx3 : x = (hp.mem this).Next
          · rw [hx3]
            apply header_ext <;>
            simp only [h8, h7, h6, h5, h4, h3, h2, h1, hs2, hs3, splitMem, e1, e2, e3, e4, e5,
              e6, e7, mem_set, fld_set, fld_ite, hdr_ite, if_true, if_false, ite_self, ne_eq,
              not_true_eq_false, not_false_eq_true, and_self]
          · apply header_ext <;>
            simp only [h8, h7, h6, h5, h4, h3, h2, h1, hs2, hs3, splitMem, e1, e2, e3, e4, e5,
              e6, e7, mem_set, fld_set, fld_ite, hdr_ite, if_true, if_false, ite_self, ne_eq,
              not_true_eq_false, not_false_eq_true, hx1, hx2, hx3, false_and]
  · by_cases h0 : (hp.mem this).Next = 0 <;> by_cases hl : hp.LastHeader = this <;>
      simp only [h8, h7, h6, h5, h4, h3, h2, h1, hs2, h0, hl, e1, e2, mem_set,
            fld_set, fld_ite, hdr_ite, if_true, if_false, ite_self, ne_eq, not_true_eq_false,
            not_false_eq_true]

theorem scan_succ (c : Config) (r fuel : Nat) (hp : Heap) (a : Nat) (ha : a ≠ 0) :
    scan c r (fuel + 1) hp a =
      if (hp.mem a).Free = true then
        if (hp.mem a).Size > r then
          .found ((a + c.HeaderSize) % U64) ((Split c hp a r).2.setFree a false)
        else if (hp.mem a).Size = r then
          .found ((a + c.HeaderSize) % U64) (hp.setFree a false)
        else scan c r fuel hp (hp.mem a).Next
      else scan c r fuel hp (hp.mem a).Next := by
  rw [scan, if_neg ha]

theorem scan_null (c : Config) (r fuel : Nat) (hp : Heap) : scan c r fuel hp 0 = .notFound := by
  unfold scan; rw [if_pos rfl]

theorem scan_head (c : Config) (hH : 0 < c.HeaderSize) (hH2 : c.HeaderSize < 4096)
    (hp : Heap) (prev a : Nat) (s : Seg) (t : List Seg) (r fuel : Nat)
    (hc : Chain c.HeaderSize hp.mem prev a (s :: t)) (ha : 0 < a)
    (he : endOf c.HeaderSize a (s :: t) < U64) (hf : s.free = true) (hr : r ≤ s.size) :
    ∃ hp1, scan c r (fuel + 1) hp a = .found (a + c.HeaderSize) hp1 ∧
      Chain c.HeaderSize hp1.mem prev a (carve c r s t) ∧
      (∀ x, x < a → hp1.mem x = hp.mem x) ∧
      (∀ x, endOf c.HeaderSize a (s :: t) ≤ x → hp1.mem x = hp.mem x) ∧
      SameFields hp1 hp ∧
      hp1.LastHeader =
        (if hp.LastHeader = a ∧ (r < s.size ∧ splitFits c s.size r) then a + c.HeaderSize + r
         else hp.LastHeader) := by
  have hm := hc.1
  have hle := cons_le_endOf c.HeaderSize s t a
  have hmod : (a + c.HeaderSize) % U64 = a + c.HeaderSize := Nat.mod_eq_of_lt (by omega)
  have hSize : (hp.mem a).Size = s.size := by rw [hm]
  have hFree : (hp.mem a).Free = true := by rw [hm]; exact hf
  rw [scan_succ c r fuel hp a (by omega), if_pos hFree, hmod, hSize]
  have hwhole : ∀ (h : ¬ (r < s.size ∧ splitFits c s.size r)),
      Chain c.HeaderSize (hp.setFree a false).mem prev a (carve c r s t) ∧
      (∀ x, x < a → (hp.setFree a false).mem x = hp.mem x) ∧
      (∀ x, endOf c.HeaderSize a (s :: t) ≤ x → (hp.setFree a false).mem x = hp.mem x) ∧
      SameFields (hp.setFree a false) hp ∧
      (hp.setFree a false).LastHeader =
        (if hp.LastHeader = a ∧ (r < s.size ∧ splitFits c s.size r) then a + c.HeaderSize + r
         else hp.LastHeader) := by
    intro h
    have hfr : ∀ x, x ≠ a → (hp.setFree a false).mem x = hp.mem x := by
      intro x hx
      apply header_ext <;> simp only [mem_set, hx, if_false]
    refine ⟨?_, fun x hx => hfr x (by omega), fun x hx => hfr x (by omega),
      ⟨rfl, rfl, rfl, rfl⟩, ?_⟩
    · rw [carve, if_neg h]
      refine ⟨?_, Chain.congr t a _ (fun x hx => hfr x (by omega)) hc.2⟩
      apply header_ext <;> simp only [mem_set, if_true, hm]
    · rw [if_neg (fun h1 => h h1.2)]; rfl
  by_cases hlt : r < s.size
  · rw [if_pos hlt]
    by_cases hsf : splitFits c s.size r
    · have hnx : (hp.mem a).Next = 0 ∨ a + c.HeaderSize + r < (hp.mem a).Next := by
        rw [hm]
        cases t with
        | nil => left; rfl
        | cons t1 t2 => right; simp only [nextOf]; omega
      obtain ⟨hp1, hs1, hs2, hs3⟩ := Split_yes c hp a r (by omega) (by omega) hH hH2
        (by omega) hnx (by rw [hSize]; exact hsf)
      have hsfi := (splitFits_iff c _ r (by omega) hr hH2).1 hsf
      have hF := Split_fields c hp a r
      rw [hs1] at hF ⊢
      refine ⟨hp1.setFree a false, rfl, ?_, ?_, ?_, ?_, ?_⟩
      · rw [carve, if_pos ⟨hlt, hsf⟩]
        refine ⟨?_, ?_, ?_⟩
        · apply header_ext <;>
            simp only [mem_set, if_true, hs2, splitMem, hm, nextOf]
        · have e1 : a + c.HeaderSize + r ≠ a := by omega
          apply header_ext <;>
            simp only [mem_set, if_true, if_false, hs2, splitMem, hm, e1]
          cases t with
          | nil => rfl
          | cons t1 t2 => simp only [nextOf]; omega
        · have hq : a + c.HeaderSize + r + c.HeaderSize + (s.size - r - c.HeaderSize)
              = a + c.HeaderSize + s.size := by omega
          rw [hq]
          refine Chain.reprev hH t a _ _ ?_ ?_ hc.2
          · intro x hx
            have e1 : x ≠ a := by omega
            have e2 : x ≠ a + c.HeaderSize + r := by omega
            have e3 : ¬ (x = (hp.mem a).Next ∧ (hp.mem a).Next ≠ 0) := by
              rw [hm]; intro h3
              have := h3.1
              cases t with
              | nil => simp only [nextOf] at h3; exact h3.2 rfl
              | cons t1 t2 => simp only [nextOf] at this; omega
            apply header_ext <;>
              simp only [mem_set, if_true, if_false, hs2, splitMem, e1, e2, e3]
          · intro hne
            have e1 : a + c.HeaderSize + s.size ≠ a := by omega
            have e2 : a + c.HeaderSize + s.size ≠ a + c.HeaderSize + r := by omega
            have e3 : (hp.mem a).Next = a + c.HeaderSize + s.size := by
              rw [hm]
              cases t with
              | nil => exact absurd rfl hne
              | cons t1 t2 => rfl
            have e4 : a + c.HeaderSize + s.size ≠ 0 := by omega
            apply header_ext <;>
              simp only [mem_set, if_true, if_false, hs2, splitMem, e1, e2, e3, e4, ne_eq,
                not_false_eq_true, and_self]
      · intro x hx
        have e1 : x ≠ a := by omega
        have e2 : x ≠ a + c.HeaderSize + r := by omega
        have e3 : ¬ (x = (hp.mem a).Next ∧ (hp.mem a).Next ≠ 0) := by
          rw [hm]; intro h3
          have := h3.1
          cases t with
          | nil => simp only [nextOf] at h3; exact h3.2 rfl
          | cons t1 t2 => simp only [nextOf] at this; omega
        apply header_ext <;>
          simp only [mem_set, if_true, if_false, hs2, splitMem, e1, e2, e3]
      · intro x hx
        have e1 : x ≠ a := by omega
        have e2 : x ≠ a + c.HeaderSize + r := by omega
        have e3 : ¬ (x = (hp.mem a).Next ∧ (hp.mem a).Next ≠ 0) := by
          rw [hm]; intro h3
          have := h3.1
          cases t with
          | nil => simp only [nextOf] at h3; exact h3.2 rfl
          | cons t1 t2 =>
            simp only [nextOf] at this
            have := cons_le_endOf c.HeaderSize t1 t2 (a + c.HeaderSize + s.size)
            simp only [endOf] at hx this
            omega
        apply header_ext <;>
          simp only [mem_set, if_true, if_false, hs2, splitMem, e1, e2, e3]
      · exact hF
      · simp only [fld_set, hs3, hlt, hsf, and_self, and_true]
    · rw [Split_no c hp a r (by rw [hSize]; exact hsf)]
      exact ⟨_, rfl, hwhole (fun h => hsf h.2)⟩
  · have heq : s.size = r := by omega
    rw [if_neg (by omega), if_pos heq]
    exact ⟨_, rfl, hwhole (fun h => hlt h.1)⟩

theorem lastAddr_cons (H a : Nat) (s : Seg) (t : List Seg) (ht : t ≠ []) :
    lastAddr H a (s :: t) = lastAddr H (a + H + s.size) t := by
  cases t with
  | nil => exact absurd rfl ht
  | cons t1 t2 => rfl

theorem carve_ne_nil (c : Config) (r : Nat) (s : Seg) (t : List Seg) : carve c r s t ≠ [] := by
  unfold carve; split_ifs <;> simp

theorem endOf_carve (c : Config) (r a : Nat) (s : Seg) (t : List Seg) (hr : r ≤ s.size)
    (hn : s.size < U64) (hH2 : c.HeaderSize < 4096) :
    endOf c.HeaderSize a (carve c r s t) = endOf c.HeaderSize a (s :: t) := by
  unfold carve
  split_ifs with h
  · have := (splitFits_iff c _ r hn hr hH2).1 h.2
    simp only [endOf]
    congr 1; omega
  · rfl

theorem lastAddr_carve (c : Config) (r a : Nat) (s : Seg) (t : List Seg) (hr : r ≤ s.size)
    (hn : s.size < U64) (hH2 : c.HeaderSize < 4096) :
    lastAddr c.HeaderSize a (carve c r s t) =
      if t = [] ∧ (r < s.size ∧ splitFits c s.size r) then a + c.HeaderSize + r
      else lastAddr c.HeaderSize a (s :: t) := by
  unfold carve
  by_cases h : r < s.size ∧ splitFits c s.size r
  · have := (splitFits_iff c _ r hn hr hH2).1 h.2
    rw [if_pos h]
    cases t with
    | nil => simp [lastAddr, h]
    | cons t1 t2 =>
      have hq : a + c.HeaderSize + r + c.HeaderSize + (s.size - r - c.HeaderSize)
              = a + c.HeaderSize + s.size := by omega
      simp [lastAddr, hq]
  · rw [if_neg h, if_neg (fun h1 => h h1.2)]
    cases t with
    | nil => rfl
    | cons t1 t2 => rfl

theorem allocList_ne_nil (c : Config) (r : Nat) :
    ∀ (segs : List Seg) (a p : Nat) (l : List Seg), allocList c r a segs = some (p, l) → l ≠ []
  | [], _, _, _, h => by simp [allocList] at h
  | s :: t, a, p, l, h => by
    unfold allocList at h
    split_ifs at h with h1
    · simp only [Option.some.injEq, Prod.mk.injEq] at h
      rw [← h.2]; exact carve_ne_nil c r s t
    · cases hq : allocList c r (a + c.HeaderSize + s.size) t with
      | none => rw [hq] at h; simp at h
      | some q =>
        rw [hq] at h
        simp only [Option.map_some', Option.some.injEq, Prod.mk.injEq] at h
        rw [← h.2]; simp

/-- The scan of `Malloc` over a chain does what first fit does on the list: it ends without a
pointer when no free segment is large enough, and otherwise returns the payload address of
the first such segment, leaving a chain for the list with that segment taken. -/
theorem scan_spec (c : Config) (hH : 0 < c.HeaderSize) (hH2 : c.HeaderSize < 4096) (r : Nat) :
    ∀ (segs : List Seg) (hp : Heap) (prev a fuel : Nat), segs ≠ [] →
      Chain c.HeaderSize hp.mem prev a segs → 0 < a → endOf c.HeaderSize a segs < U64 →
      segs.length ≤ fuel →
      (allocList c r a segs = none → scan c r fuel hp a = .notFound) ∧
      (∀ p l, allocList c r a segs = some (p, l) →
        ∃ hp1, scan c r fuel hp a = .found (p + c.HeaderSize) hp1 ∧
          Chain c.HeaderSize hp1.mem prev a l ∧
          (∀ x, x < p → hp1.mem x = hp.mem x) ∧
          (∀ x, endOf c.HeaderSize a segs ≤ x → hp1.mem x = hp.mem x) ∧
          SameFields hp1 hp ∧ a ≤ p ∧
          (hp.LastHeader = lastAddr c.HeaderSize a segs →
            hp1.LastHeader = lastAddr c.HeaderSize a l))
  | [], _, _, _, _, h, _, _, _, _ => absurd rfl h
  | s :: t, hp, prev, a, fuel, _, hc, ha, he, hfuel => by
    obtain ⟨fuel, rfl⟩ : ∃ k, fuel = k + 1 := ⟨fuel - 1, by simp at hfuel; omega⟩
    have hle := cons_le_endOf c.HeaderSize s t a
    by_cases hfit : s.free = true ∧ r ≤ s.size
    · have hal : allocList c r a (s :: t) = some (a, carve c r s t) := by
        rw [allocList, if_pos hfit]
      refine ⟨fun h => by rw [hal] at h; simp at h, ?_⟩
      intro p l hpl
      rw [hal] at hpl
      simp only [Option.some.injEq, Prod.mk.injEq] at hpl
      obtain ⟨rfl, rfl⟩ := hpl
      obtain ⟨hp1, h1, h2, h3, h4, h5, h6⟩ :=
        scan_head c hH hH2 hp prev a s t r fuel hc ha he hfit.1 hfit.2
      refine ⟨hp1, h1, h2, h3, h4, h5, Nat.le_refl _, ?_⟩
      intro hl
      rw [h6, lastAddr_carve c r a s t hfit.2 (by omega) hH2]
      cases t with
      | nil =>
        simp only [lastAddr] at hl
        simp only [hl, true_and, lastAddr]
      | cons t1 t2 =>
        have := le_lastAddr c.HeaderSize (t1 :: t2) (a + c.HeaderSize + s.size)
        rw [lastAddr_cons _ _ _ _ (by simp)] at hl
        have hne : hp.LastHeader ≠ a := by omega
        rw [if_neg (fun h => hne h.1), if_neg (fun h => by simp at h)]
        exact hl
    · have hm := hc.1
      have hstep : scan c r (fuel + 1) hp a = scan c r fuel hp (hp.mem a).Next := by
        rw [scan_succ c r fuel hp a (by omega)]
        by_cases hf : (hp.mem a).Free = true
        · rw [if_pos hf]
          rw [hm] at hf
          have hsz : (hp.mem a).Size < r := by
            rw [hm]
            simp only
            by_contra hcon
            exact hfit ⟨hf, by omega⟩
          rw [if_neg (by omega), if_neg (by omega)]
        · rw [if_neg hf]
      rw [hstep, hm]
      simp only
      cases t with
      | nil =>
        simp only [nextOf, scan_null, allocList, hfit, if_false, Option.map_none', true_implies,
          true_and]
        intro p l h
        simp at h
      | cons t1 t2 =>
        have ih := scan_spec c hH hH2 r (t1 :: t2) hp a (a + c.HeaderSize + s.size) fuel
          (by simp) hc.2 (by omega) (by simpa only [endOf] using he)
          (by simp only [List.length_cons] at hfuel ⊢; omega)
        simp only [nextOf]
        have hal : allocList c r a (s :: t1 :: t2) =
            (allocList c r (a + c.HeaderSize + s.size) (t1 :: t2)).map
              fun q => (q.1, s :: q.2) := by
          rw [allocList, if_neg hfit]
        rw [hal]
        refine ⟨fun h => ih.1 (by simpa using h), ?_⟩
        intro p l hpl
        cases hq : allocList c r (a + c.HeaderSize + s.size) (t1 :: t2) with
        | none => rw [hq] at hpl; simp at hpl
        | some q =>
          rw [hq] at hpl
          simp only [Option.map_some', Option.some.injEq, Prod.mk.injEq] at hpl
          obtain ⟨rfl, rfl⟩ := hpl
          obtain ⟨hp1, h1, h2, h3, h4, h5, h6, h7⟩ := ih.2 q.1 q.2 (by rw [hq])
          have hne := allocList_ne_nil c r _ _ _ _ hq
          refine ⟨hp1, h1, ⟨?_, h2⟩, h3, ?_, h5, by omega, ?_⟩
          · rw [h3 a (by omega), hm]
            cases hq2 : q.2 with
            | nil => exact absurd hq2 hne
            | cons u v => rfl
          · intro x hx; exact h4 x (by simpa only [endOf] using hx)
          · intro hl
            rw [lastAddr_cons _ _ _ _ (by simp)] at hl
            rw [lastAddr_cons _ _ _ _ hne]
            exact h7 hl

theorem mem_le_endOf (H : Nat) :
    ∀ (segs : List Seg) (a : Nat) (s : Seg), s ∈ segs → a + H + s.size ≤ endOf H a segs
  | [], _, _, h => by simp at h
  | t :: r, a, s, h => by
    rcases List.mem_cons.1 h with h1 | h1
    · subst h1; exact cons_le_endOf H s r a
    · have := mem_le_endOf H r (a + H + t.size) s h1
      simp only [endOf]; omega

theorem endOf_append (H : Nat) :
    ∀ (l1 l2 : List Seg) (a : Nat), endOf H a (l1 ++ l2) = endOf H (endOf H a l1) l2
  | [], _, _ => rfl
  | s :: t, l2, a => by simp only [List.cons_append, endOf]; exact endOf_append H t l2 _

/-- What first fit finds, spelled out: the list splits around the first free segment of at
least `r` bytes. -/
theorem allocList_some (c : Config) (r : Nat) :
    ∀ (segs : List Seg) (a p : Nat) (l : List Seg), allocList c r a segs = some (p, l) →
      ∃ pre s post, segs = pre ++ s :: post ∧ s.free = true ∧ r ≤ s.size ∧
        (∀ x ∈ pre, ¬ (x.free = true ∧ r ≤ x.size)) ∧
        p = endOf c.HeaderSize a pre ∧ l = pre ++ carve c r s post
  | [], _, _, _, h => by simp [allocList] at h
  | s :: t, a, p, l, h => by
    unfold allocList at h
    split_ifs at h with h1
    · simp only [Option.some.injEq, Prod.mk.injEq] at h
      exact ⟨[], s, t, rfl, h1.1, h1.2, by simp, h.1.symm, h.2.symm⟩
    · cases hq : allocList c r (a + c.HeaderSize + s.size) t with
      | none => rw [hq] at h; simp at h
      | some q =>
        rw [hq] at h
        simp only [Option.map_some', Option.some.injEq, Prod.mk.injEq] at h
        obtain ⟨pre, s1, post, e1, e2, e3, e4, e5, e6⟩ :=
          allocList_some c r t _ q.1 q.2 (by rw [hq])
        refine ⟨s :: pre, s1, post, by rw [e1]; rfl, e2, e3, ?_, ?_, ?_⟩
        · intro x hx
          rcases List.mem_cons.1 hx with h2 | h2
          · subst h2; exact h1
          · exact e4 x h2
        · rw [← h.1, e5]; rfl
        · rw [← h.2, e6]; rfl

/-- First fit on a list that splits around its first fitting segment. -/
theorem allocList_append (c : Config) (r : Nat) (s : Seg) (post : List Seg)
    (hf : s.free = true) (hr : r ≤ s.size) :
    ∀ (pre : List Seg) (a : Nat), (∀ x ∈ pre, ¬ (x.free = true ∧ r ≤ x.size)) →
      allocList c r a (pre ++ s :: post) =
        some (endOf c.HeaderSize a pre, pre ++ carve c r s post)
  | [], a, _ => by simp only [List.nil_append, allocList, hf, hr, and_self, if_true, endOf]
  | x :: pre, a, h => by
    have hx := h x (List.mem_cons_self _ _)
    have ih := allocList_append c r s post hf hr pre (a + c.HeaderSize + x.size)
      (fun y hy => h y (List.mem_cons_of_mem _ hy))
    simp only [List.cons_append, allocList, hx, if_false, List.append_eq, ih,
      Option.map_some', endOf]

theorem allocList_none (c : Config) (r : Nat) :
    ∀ (segs : List Seg) (a : Nat), allocList c r a segs = none ↔
      ∀ x ∈ segs, ¬ (x.free = true ∧ r ≤ x.size)
  | [], _ => by simp [allocList]
  | s :: t, a => by
    have ih := allocList_none c r t (a + c.HeaderSize + s.size)
    unfold allocList
    split_ifs with h1
    · simp only [reduceCtorEq, List.mem_cons, forall_eq_or_imp, false_iff, not_and]
      intro h2; exact absurd h1.2 (h2 h1.1)
    · simp only [Option.map_eq_none', ih, List.mem_cons, forall_eq_or_imp, h1,
        not_false_eq_true, true_and]

theorem le_roundedSize (c : Config) (hB : 0 < c.BLOCK_SIZE) (size : Nat) :
    size ≤ roundedSize c size := by
  unfold roundedSize
  split_ifs with h
  · have := Nat.mod_le size c.BLOCK_SIZE
    have := Nat.mod_lt size hB
    omega
  · exact Nat.le_refl _

/-- `Malloc` on a heap in which some free segment is large enough: no growth, first fit. -/
theorem Malloc_fit (c : Config) (hc : c.Sane) (hp : Heap) (segs : List Seg)
    (L : Layout c hp segs) (size fuel retries : Nat) (hsize : 0 < size)
    (hfuel : segs.length ≤ fuel) (p : Nat) (l : List Seg)
    (hal : allocList c (roundedSize c size) hp.HeapStart segs = some (p, l)) :
    ∃ hp1, Malloc c fuel retries hp size = some (p + c.HeaderSize, hp1) ∧
      Layout c hp1 l ∧
      (∀ x, x < p → hp1.mem x = hp.mem x) ∧
      (∀ x, hp.HeapEnd ≤ x → hp1.mem x = hp.mem x) ∧
      SameFields hp1 hp ∧
      (hp.LastHeader = lastAddr c.HeaderSize hp.HeapStart segs →
        hp1.LastHeader = lastAddr c.HeaderSize hp.HeapStart l) := by
  obtain ⟨pre, s, post, e1, e2, e3, e4, e5, e6⟩ := allocList_some c _ _ _ _ _ hal
  have hs : hp.HeapStart + c.HeaderSize + s.size ≤ hp.HeapEnd := by
    rw [← L.stop]; exact mem_le_endOf _ _ _ _ (by rw [e1]; simp)
  have hb := L.bound
  have hr0 := le_roundedSize c hc.block_pos size
  have hmod : roundedSize c size % U64 = roundedSize c size := Nat.mod_eq_of_lt (by omega)
  obtain ⟨hp1, h1, h2, h3, h4, h5, h6, h7⟩ :=
    (scan_spec c hc.header_pos hc.header_lt (roundedSize c size) segs hp 0 hp.HeapStart fuel
      L.nonempty L.chain L.start_pos (by rw [L.stop]; exact hb) hfuel).2 p l hal
  refine ⟨hp1, ?_, ?_, h3, ?_, h5, h7⟩
  · cases retries <;>
    · unfold Malloc mallocBody
      simp only [hmod]
      rw [if_neg (by omega), h1]
  · have hend : endOf c.HeaderSize hp.HeapStart l = endOf c.HeaderSize hp.HeapStart segs := by
      rw [e6, e1, endOf_append, endOf_append,
        endOf_carve c _ _ s post e3 (by omega) hc.header_lt]
    exact ⟨allocList_ne_nil c _ _ _ _ _ hal, by rw [h5.1]; exact L.start_pos,
      by rw [h5.1]; exact h2, by rw [h5.1, h5.2.1, hend]; exact L.stop,
      by rw [h5.2.1]; exact hb⟩
  · intro x hx; exact h4 x (by rw [L.stop]; exact hx)

/-! ## `MergeNext`, `MergePrev` and `Free` on a chain -/

theorem nextOf_congr (H a n : Nat) (t u : List Seg) (h : t = [] ↔ u = []) :
    nextOf H a n t = nextOf H a n u := by
  cases t with
  | nil => rw [h.1 rfl]
  | cons t1 t2 =>
    cases u with
    | nil => exact absurd (h.2 rfl) (by simp)
    | cons u1 u2 => rfl

theorem MergeNext_fields (c : Config) (hp : Heap) (this : Nat) :
    SameFields (MergeNext c hp this) hp := by
  unfold MergeNext SameFields
  simp only []
  refine ⟨?_, ?_, ?_, ?_⟩ <;> split_ifs <;> simp only [fld_set]

theorem MergeNext_head (c : Config) (hH : 0 < c.HeaderSize)
    (hp : Heap) (prev a : Nat) (s : Seg) (t : List Seg)
    (hc : Chain c.HeaderSize hp.mem prev a (s :: t)) (ha : 0 < a)
    (he : endOf c.HeaderSize a (s :: t) < U64) :
    Chain c.HeaderSize (MergeNext c hp a).mem prev a (mergeHead c.HeaderSize (s :: t)) ∧
      (∀ x, x < a → (MergeNext c hp a).mem x = hp.mem x) ∧
      (∀ x, endOf c.HeaderSize a (s :: t) ≤ x → (MergeNext c hp a).mem x = hp.mem x) ∧
      (MergeNext c hp a).LastHeader =
        (if (hp.mem a).Next ≠ 0 ∧ (hp.mem (hp.mem a).Next).Free = true ∧
            (hp.mem a).Next = hp.LastHeader then a else hp.LastHeader) := by
  have hm := hc.1
  cases t with
  | nil =>
    have h0 : (hp.mem a).Next = 0 := by rw [hm]; rfl
    have hq : MergeNext c hp a = hp := by
      unfold MergeNext; rw [if_pos (Or.inl h0)]
    rw [hq]
    refine ⟨hc, fun _ _ => rfl, fun _ _ => rfl, ?_⟩
    rw [if_neg (fun h => h.1 h0)]
  | cons n t =>
    have hmn := hc.2.1
    have hnx : (hp.mem a).Next = a + c.HeaderSize + s.size := by rw [hm]; rfl
    by_cases hf : n.free = true
    · have hle := cons_le_endOf c.HeaderSize n t (a + c.HeaderSize + s.size)
      simp only [endOf] at he hle
      have hfree : (hp.mem (a + c.HeaderSize + s.size)).Free = true := by rw [hmn]; exact hf
      unfold MergeNext
      rw [if_neg (by rw [hnx, hfree]; simp; omega)]
      lift_lets
      intro h1 h2 h3
      have e1 : a + c.HeaderSize + s.size ≠ a := by omega
      have hmod : (s.size + c.HeaderSize + n.size) % U64 = s.size + c.HeaderSize + n.size :=
        Nat.mod_eq_of_lt (by omega)
      have hmerge : mergeHead c.HeaderSize (s :: n :: t) =
          ⟨s.size + c.HeaderSize + n.size, s.free⟩ :: t := by
        simp only [mergeHead, hf, if_true]
      rw [hmerge]
      have hm1 : h1.mem = hp.mem := by
        simp only [h1]; split_ifs <;> rfl
      have hSa : (hp.mem a).Size = s.size := by rw [hm]
      have hPa : (hp.mem a).Prev = prev := by rw [hm]
      have hFa : (hp.mem a).Free = s.free := by rw [hm]
      have hSn : (hp.mem (a + c.HeaderSize + s.size)).Size = n.size := by rw [hmn]
      have hNn : (hp.mem (a + c.HeaderSize + s.size)).Next =
          nextOf c.HeaderSize (a + c.HeaderSize + s.size) n.size t := by rw [hmn]
      have hl1 : h1.LastHeader =
          if a + c.HeaderSize + s.size = hp.LastHeader then a else hp.LastHeader := by
        simp only [h1, hnx]; split_ifs <;> rfl
      refine ⟨⟨?_, ?_⟩, ?_, ?_, ?_⟩
      · cases t with
        | nil =>
          apply header_ext <;>
            simp only [h3, h2, hm1, hnx, hNn, hSa, hPa, hFa, hSn, hmod, nextOf, mem_set, fld_ite,
              hdr_ite, if_true, if_false, ne_eq, not_true_eq_false, e1]
        | cons t1 t2 =>
          have e2 : a + c.HeaderSize + s.size + c.HeaderSize + n.size ≠ 0 := by omega
          have e3 : a ≠ a + c.HeaderSize + s.size + c.HeaderSize + n.size := by omega
          have e4 : a + c.HeaderSize + s.size ≠
              a + c.HeaderSize + s.size + c.HeaderSize + n.size := by omega
          apply header_ext <;>
            simp only [h3, h2, hm1, hnx, hNn, hSa, hPa, hFa, hSn, hmod, nextOf, mem_set, fld_ite,
              hdr_ite, if_true, if_false, ne_eq, not_true_eq_false, not_false_eq_true, e1, e2,
              e3, e4]
          omega
      · have hq : a + c.HeaderSize + (s.size + c.HeaderSize + n.size) =
            a + c.HeaderSize + s.size + c.HeaderSize + n.size := by omega
        rw [hq]
        refine Chain.reprev hH t _ a _ ?_ ?_ hc.2.2
        · intro x hx
          have e2 : x ≠ a := by omega
          cases t with
          | nil =>
            apply header_ext <;>
            simp only [h3, h2, hm1, hnx, hNn, nextOf, mem_set, fld_ite,
              hdr_ite, if_true, if_false, ne_eq, not_true_eq_false, e2]
          | cons t1 t2 =>
            have e3 : x ≠ a + c.HeaderSize + s.size + c.HeaderSize + n.size := by omega
            have e4 : a + c.HeaderSize + s.size + c.HeaderSize + n.size ≠ 0 := by omega
            apply header_ext <;>
            simp only [h3, h2, hm1, hnx, hNn, nextOf, mem_set, fld_ite,
              hdr_ite, if_true, if_false, ne_eq, not_true_eq_false, not_false_eq_true, e2, e3, e4]
        · intro hne
          cases t with
          | nil => exact absurd rfl hne
          | cons t1 t2 =>
            have e3 : a + c.HeaderSize + s.size + c.HeaderSize + n.size ≠ a := by omega
            have e4 : a + c.HeaderSize + s.size + c.HeaderSize + n.size ≠ 0 := by omega
            apply header_ext <;>
            simp only [h3, h2, hm1, hnx, hNn, nextOf, mem_set, fld_ite,
              hdr_ite, if_true, if_false, ne_eq, not_true_eq_false, not_false_eq_true, e3, e4]
      · intro x hx
        have e2 : x ≠ a := by omega
        have e3 : x ≠ a + c.HeaderSize + s.size + c.HeaderSize + n.size := by omega
        cases t <;>
        apply header_ext <;>
          simp only [h3, h2, hm1, hnx, hNn, nextOf, mem_set, fld_ite,
            hdr_ite, if_true, if_false, ne_eq, e2, e3, ite_self, ite_apply, not_true_eq_false]
      · intro x hx
        simp only [endOf] at hx
        have e2 : x ≠ a := by omega
        cases t with
        | nil =>
          apply header_ext <;>
          simp only [h3, h2, hm1, hnx, hNn, nextOf, mem_set, fld_ite,
            hdr_ite, if_true, if_false, ne_eq, e2, ite_self, ite_apply, not_true_eq_false]
        | cons t1 t2 =>
          have := cons_le_endOf c.HeaderSize t1 t2
              (a + c.HeaderSize + s.size + c.HeaderSize + n.size)
          simp only [endOf] at this hx
          have e3 : x ≠ a + c.HeaderSize + s.size + c.HeaderSize + n.size := by omega
          apply header_ext <;>
          simp only [h3, h2, hm1, hnx, hNn, nextOf, mem_set, fld_ite,
            hdr_ite, if_true, if_false, ne_eq, e2, e3, ite_self, ite_apply, not_true_eq_false]
      · simp only [h3, h2, hm1, hl1, hnx, hfree, fld_set, fld_ite, ite_self, ne_eq, true_and]
        have e0 : a + c.HeaderSize + s.size ≠ 0 := by omega
        simp only [e0, not_false_eq_true, true_and]
    · have hfree : (hp.mem (a + c.HeaderSize + s.size)).Free = false := by
        rw [hmn]; simpa using hf
      have hq : MergeNext c hp a = hp := by
        unfold MergeNext; rw [if_pos (Or.inr (by rw [hnx]; exact hfree))]
      rw [hq]
      have hmerge : mergeHead c.HeaderSize (s :: n :: t) = s :: n :: t := by
        simp only [mergeHead, hf, if_false]
        rfl
      rw [hmerge]
      refine ⟨hc, fun _ _ => rfl, fun _ _ => rfl, ?_⟩
      rw [if_neg (fun h => by rw [hnx, hfree] at h; simp at h)]

theorem mergeHead_ne_nil (H : Nat) (l : List Seg) (h : l ≠ []) : mergeHead H l ≠ [] := by
  cases l with
  | nil => exact absurd rfl h
  | cons s t =>
    cases t with
    | nil => simp [mergeHead]
    | cons n t => simp only [mergeHead]; split_ifs <;> simp

theorem mergeAt_ne_nil (H : Nat) : ∀ (j : Nat) (l : List Seg), l ≠ [] → mergeAt H j l ≠ []
  | 0, l, h => mergeHead_ne_nil H l h
  | _ + 1, [], h => absurd rfl h
  | j + 1, s :: t, _ => by simp [mergeAt]

theorem endOf_mergeHead (H a : Nat) (l : List Seg) :
    endOf H a (mergeHead H l) = endOf H a l := by
  cases l with
  | nil => rfl
  | cons s t =>
    cases t with
    | nil => rfl
    | cons n t =>
      simp only [mergeHead]; split_ifs
      · simp only [endOf]; congr 1; omega
      · rfl

theorem endOf_mergeAt (H : Nat) :
    ∀ (j : Nat) (l : List Seg) (a : Nat), endOf H a (mergeAt H j l) = endOf H a l
  | 0, l, a => endOf_mergeHead H a l
  | _ + 1, [], _ => rfl
  | j + 1, s :: t, a => by simp only [mergeAt, endOf]; exact endOf_mergeAt H j t _

theorem addrAt_succ (H a : Nat) (s : Seg) (t : List Seg) (j : Nat) :
    addrAt H a (s :: t) (j + 1) = addrAt H (a + H + s.size) t j := rfl

theorem addrAt_zero (H a : Nat) (l : List Seg) : addrAt H a l 0 = a := rfl

theorem le_addrAt (H a : Nat) (l : List Seg) (j : Nat) : a ≤ addrAt H a l j :=
  le_endOf H _ a

theorem addrAt_lt_endOf (H : Nat) (hH : 0 < H) :
    ∀ (l : List Seg) (a j : Nat), j < l.length → addrAt H a l j < endOf H a l
  | [], _, _, h => by simp at h
  | s :: t, a, 0, _ => by
    have := cons_le_endOf H s t a
    rw [addrAt_zero]; omega
  | s :: t, a, j + 1, h => by
    rw [addrAt_succ]; simp only [endOf]
    exact addrAt_lt_endOf H hH t _ j (by simpa using h)

/-- `MergeNext` on the header of index `j` of a chain merges that segment with its successor
in the list when the successor is free, and changes nothing otherwise. -/
theorem MergeNext_at (c : Config) (hH : 0 < c.HeaderSize) :
    ∀ (segs : List Seg) (hp : Heap) (prev a j : Nat),
      Chain c.HeaderSize hp.mem prev a segs → 0 < a → endOf c.HeaderSize a segs < U64 →
      j < segs.length →
      Chain c.HeaderSize (MergeNext c hp (addrAt c.HeaderSize a segs j)).mem prev a
        (mergeAt c.HeaderSize j segs) ∧
      (∀ x, x < addrAt c.HeaderSize a segs j →
        (MergeNext c hp (addrAt c.HeaderSize a segs j)).mem x = hp.mem x) ∧
      (∀ x, endOf c.HeaderSize a segs ≤ x →
        (MergeNext c hp (addrAt c.HeaderSize a segs j)).mem x = hp.mem x) ∧
      (hp.LastHeader = lastAddr c.HeaderSize a segs →
        (MergeNext c hp (addrAt c.HeaderSize a segs j)).LastHeader =
          lastAddr c.HeaderSize a (mergeAt c.HeaderSize j segs))
  | [], _, _, _, _, _, _, _, h => by simp at h
  | s :: t, hp, prev, a, 0, hc, ha, he, _ => by
    obtain ⟨h1, h2, h3, h4⟩ := MergeNext_head c hH hp prev a s t hc ha he
    refine ⟨h1, h2, h3, ?_⟩
    intro hl
    rw [addrAt_zero, h4]
    have hm := hc.1
    cases t with
    | nil =>
      have h0 : (hp.mem a).Next = 0 := by rw [hm]; rfl
      rw [if_neg (fun h => h.1 h0)]; exact hl
    | cons n t =>
      have hmn := hc.2.1
      have hnx : (hp.mem a).Next = a + c.HeaderSize + s.size := by rw [hm]; rfl
      have hfr : (hp.mem (a + c.HeaderSize + s.size)).Free = n.free := by rw [hmn]
      rw [hnx, hfr]
      by_cases hf : n.free = true
      · simp only [mergeAt, mergeHead, hf, if_true]
        cases t with
        | nil =>
          simp only [lastAddr] at hl
          rw [if_pos ⟨by omega, trivial, hl.symm⟩]; rfl
        | cons t1 t2 =>
          have := le_lastAddr c.HeaderSize (t1 :: t2)
            (a + c.HeaderSize + s.size + c.HeaderSize + n.size)
          simp only [lastAddr] at hl
          rw [if_neg (fun h => by omega), hl]
          simp only [lastAddr]
          congr 1; omega
      · rw [if_neg (fun h => hf h.2.1)]
        simp only [mergeAt, mergeHead, hf, if_false]
        exact hl
  | s :: t, hp, prev, a, j + 1, hc, ha, he, hj => by
    have hle := cons_le_endOf c.HeaderSize s t a
    have ht : t ≠ [] := by
      intro h; rw [h] at hj; simp at hj
    obtain ⟨h1, h2, h3, h4⟩ := MergeNext_at c hH t hp a (a + c.HeaderSize + s.size) j hc.2
      (by omega) (by simpa only [endOf] using he) (by simpa using hj)
    have hge := le_addrAt c.HeaderSize (a + c.HeaderSize + s.size) t j
    rw [addrAt_succ]
    refine ⟨⟨?_, h1⟩, h2, ?_, ?_⟩
    · rw [h2 a (by omega), hc.1]
      rw [nextOf_congr _ _ _ t (mergeAt c.HeaderSize j t)
        ⟨fun h => absurd h ht, fun h => absurd h (mergeAt_ne_nil _ _ _ ht)⟩]
    · intro x hx; exact h3 x (by simpa only [endOf] using hx)
    · intro hl
      rw [lastAddr_cons _ _ _ _ ht] at hl
      simp only [mergeAt]
      rw [lastAddr_cons _ _ _ _ (mergeAt_ne_nil _ _ _ ht)]
      exact h4 hl

theorem setFreeAt_ne_nil : ∀ (j : Nat) (l : List Seg), l ≠ [] → setFreeAt j l ≠ []
  | _, [], h => absurd rfl h
  | 0, s :: t, _ => by simp [setFreeAt]
  | j + 1, s :: t, _ => by simp [setFreeAt]

theorem length_setFreeAt : ∀ (j : Nat) (l : List Seg), (setFreeAt j l).length = l.length
  | _, [] => by simp [setFreeAt]
  | 0, s :: t => rfl
  | j + 1, s :: t => by simp only [setFreeAt, List.length_cons, length_setFreeAt j t]

theorem endOf_setFreeAt (H : Nat) :
    ∀ (j : Nat) (l : List Seg) (a : Nat), endOf H a (setFreeAt j l) = endOf H a l
  | _, [], _ => by simp [setFreeAt]
  | 0, s :: t, _ => rfl
  | j + 1, s :: t, a => by simp only [setFreeAt, endOf]; exact endOf_setFreeAt H j t _

theorem lastAddr_setFreeAt (H : Nat) :
    ∀ (j : Nat) (l : List Seg) (a : Nat), lastAddr H a (setFreeAt j l) = lastAddr H a l
  | _, [], _ => by simp [setFreeAt]
  | 0, [s], _ => rfl
  | 0, s :: t :: r, _ => rfl
  | j + 1, [s], a => by simp [setFreeAt, lastAddr]
  | j + 1, s :: t :: r, a => by
    have ih := lastAddr_setFreeAt H j (t :: r) (a + H + s.size)
    have hne := setFreeAt_ne_nil j (t :: r) (by simp)
    simp only [setFreeAt] at hne ⊢
    rw [lastAddr_cons _ _ _ _ hne]
    exact ih

theorem addrAt_setFreeAt (H : Nat) :
    ∀ (j : Nat) (l : List Seg) (a k : Nat), addrAt H a (setFreeAt j l) k = addrAt H a l k
  | _, [], _, _ => by simp [setFreeAt]
  | 0, s :: t, _, 0 => rfl
  | 0, s :: t, _, k + 1 => rfl
  | j + 1, s :: t, _, 0 => rfl
  | j + 1, s :: t, a, k + 1 => by
    simp only [setFreeAt, addrAt_succ]; exact addrAt_setFreeAt H j t _ k

theorem addrAt_mergeAt (H : Nat) :
    ∀ (j : Nat) (l : List Seg) (a k : Nat), k ≤ j → addrAt H a (mergeAt H j l) k = addrAt H a l k
  | _, _, _, 0, _ => rfl
  | 0, _, _, k + 1, h => by omega
  | _ + 1, [], _, _ + 1, _ => rfl
  | j + 1, s :: t, a, k + 1, h => by
    simp only [mergeAt, addrAt_succ]; exact addrAt_mergeAt H j t _ k (by omega)

theorem length_mergeAt (H : Nat) :
    ∀ (j : Nat) (l : List Seg), j < l.length → j < (mergeAt H j l).length
  | 0, l, h => by
    have := mergeHead_ne_nil H l (by intro h0; rw [h0] at h; simp at h)
    exact List.length_pos.2 this
  | _ + 1, [], h => by simp at h
  | j + 1, s :: t, h => by
    have := length_mergeAt H j t (by simpa using h)
    simp only [mergeAt, List.length_cons]; omega

theorem getElem?_mergeAt (H : Nat) :
    ∀ (j : Nat) (l : List Seg) (k : Nat), k < j → (mergeAt H j l)[k]? = l[k]?
  | 0, _, _, h => by omega
  | _ + 1, [], _, _ => rfl
  | j + 1, s :: t, 0, _ => by simp [mergeAt]
  | j + 1, s :: t, k + 1, h => by
    simp only [mergeAt, List.getElem?_cons_succ]
    exact getElem?_mergeAt H j t k (by omega)

theorem getElem?_setFreeAt :
    ∀ (j : Nat) (l : List Seg) (k : Nat), k ≠ j → (setFreeAt j l)[k]? = l[k]?
  | _, [], _, _ => by simp [setFreeAt]
  | 0, s :: t, 0, h => absurd rfl h
  | 0, s :: t, k + 1, _ => by simp [setFreeAt]
  | j + 1, s :: t, 0, _ => by simp [setFreeAt]
  | j + 1, s :: t, k + 1, h => by
    simp only [setFreeAt, List.getElem?_cons_succ]
    exact getElem?_setFreeAt j t k (by omega)

/-- The `Free` flag in memory is the one of the list. -/
theorem Chain_free (H : Nat) (mem : Nat → HeapSegmentHeader) :
    ∀ (segs : List Seg) (prev a j : Nat), Chain H mem prev a segs → j < segs.length →
      (segs[j]?).map Seg.free = some (mem (addrAt H a segs j)).Free
  | [], _, _, _, _, h => by simp at h
  | s :: t, _, a, 0, hc, _ => by
    rw [addrAt_zero, hc.1]; simp
  | s :: t, _, a, j + 1, hc, h => by
    rw [addrAt_succ, List.getElem?_cons_succ]
    exact Chain_free H mem t a _ j hc.2 (by simpa using h)

/-- The `Prev` pointer of a header past the first is the address of the header before it. -/
theorem Chain_prev (H : Nat) (mem : Nat → HeapSegmentHeader) :
    ∀ (segs : List Seg) (prev a j : Nat), Chain H mem prev a segs → j + 1 < segs.length →
      (mem (addrAt H a segs (j + 1))).Prev = addrAt H a segs j
  | [], _, _, _, _, h => by simp at h
  | [_], _, _, _, _, h => by simp at h
  | s :: t :: r, _, a, 0, hc, _ => by
    rw [addrAt_succ, addrAt_zero, addrAt_zero, hc.2.1]
  | s :: t :: r, _, a, j + 1, hc, h => by
    rw [addrAt_succ, addrAt_succ]
    exact Chain_prev H mem (t :: r) a _ j hc.2 (by simpa using h)

/-- Marking the segment of index `j` free in memory marks it free in the list. -/
theorem setFree_at (c : Config) (hH : 0 < c.HeaderSize) :
    ∀ (segs : List Seg) (hp : Heap) (prev a j : Nat),
      Chain c.HeaderSize hp.mem prev a segs → j < segs.length →
      Chain c.HeaderSize (hp.setFree (addrAt c.HeaderSize a segs j) true).mem prev a
        (setFreeAt j segs)
  | [], _, _, _, _, _, h => by simp at h
  | s :: t, hp, prev, a, 0, hc, _ => by
    rw [addrAt_zero]
    refine ⟨?_, Chain.congr t a _ (fun x hx => ?_) hc.2⟩
    · apply header_ext <;> simp only [mem_set, if_true, hc.1]
    · have e1 : x ≠ a := by omega
      apply header_ext <;> simp only [mem_set, if_false, e1]
  | s :: t, hp, prev, a, j + 1, hc, hj => by
    have ht : t ≠ [] := by
      intro h; rw [h] at hj; simp at hj
    have ih := setFree_at c hH t hp a (a + c.HeaderSize + s.size) j hc.2 (by simpa using hj)
    have hge := le_addrAt c.HeaderSize (a + c.HeaderSize + s.size) t j
    rw [addrAt_succ]
    refine ⟨?_, ih⟩
    have e1 : a ≠ addrAt c.HeaderSize (a + c.HeaderSize + s.size) t j := by omega
    rw [nextOf_congr _ _ _ (setFreeAt j t) t
        ⟨fun h => absurd h (setFreeAt_ne_nil _ _ ht), fun h => absurd h ht⟩, ← hc.1]
    apply header_ext <;> simp only [mem_set, if_false, e1]

theorem setFree_other (hp : Heap) (a x : Nat) (v : Bool) (h : x ≠ a) :
    (hp.setFree a v).mem x = hp.mem x := by
  apply header_ext <;> simp only [mem_set, if_false, h]

/-- `Free` on the payload address of the segment of index `i` of a laid-out heap leaves a
laid-out heap whose list is the one `freeList` computes; a correct `LastHeader` stays correct. -/
theorem Free_spec (c : Config) (hc : c.Sane) (hp : Heap) (segs : List Seg)
    (L : Layout c hp segs) (i : Nat) (hi : i < segs.length) :
    Layout c (Free c hp (addrAt c.HeaderSize hp.HeapStart segs i + c.HeaderSize))
        (freeList c.HeaderSize i segs) ∧
      SameFields (Free c hp (addrAt c.HeaderSize hp.HeapStart segs i + c.HeaderSize)) hp ∧
      (hp.LastHeader = lastAddr c.HeaderSize hp.HeapStart segs →
        (Free c hp (addrAt c.HeaderSize hp.HeapStart segs i + c.HeaderSize)).LastHeader =
          lastAddr c.HeaderSize hp.HeapStart (freeList c.HeaderSize i segs)) := by
  have hH := hc.header_pos
  have hH2 := hc.header_lt
  have hb := L.bound
  have hlt := addrAt_lt_endOf c.HeaderSize hH segs hp.HeapStart i hi
  rw [L.stop] at hlt
  have hseg : (addrAt c.HeaderSize hp.HeapStart segs i + c.HeaderSize + U64
      - c.HeaderSize % U64) % U64 = addrAt c.HeaderSize hp.HeapStart segs i := by
    have h2 : c.HeaderSize % U64 = c.HeaderSize := Nat.mod_eq_of_lt (by simp only [U64]; omega)
    rw [h2]
    simp only [U64] at *
    omega
  unfold Free
  simp only [hseg]
  -- step 1: the flag
  have c1 := setFree_at c hH segs hp 0 hp.HeapStart i L.chain hi
  have a1 : addrAt c.HeaderSize hp.HeapStart segs i =
      addrAt c.HeaderSize hp.HeapStart (setFreeAt i segs) i := (addrAt_setFreeAt _ _ _ _ _).symm
  have e1 : endOf c.HeaderSize hp.HeapStart (setFreeAt i segs) < U64 := by
    rw [endOf_setFreeAt, L.stop]; exact hb
  have i1 : i < (setFreeAt i segs).length := by rw [length_setFreeAt]; exact hi
  -- step 2: merge with the successor
  generalize hA : hp.setFree (addrAt c.HeaderSize hp.HeapStart segs i) true = hpA at c1 ⊢
  have fA : SameFields hpA hp ∧ hpA.LastHeader = hp.LastHeader := by
    rw [← hA]; exact ⟨⟨rfl, rfl, rfl, rfl⟩, rfl⟩
  rw [a1]
  obtain ⟨c2, _, _, l2⟩ := MergeNext_at c hH (setFreeAt i segs) hpA 0 hp.HeapStart i c1
    L.start_pos e1 i1
  have f2 := MergeNext_fields c hpA (addrAt c.HeaderSize hp.HeapStart (setFreeAt i segs) i)
  generalize hB : MergeNext c hpA (addrAt c.HeaderSize hp.HeapStart (setFreeAt i segs) i) = hpB
    at c2 l2 f2 ⊢
  have e2 : endOf c.HeaderSize hp.HeapStart (mergeAt c.HeaderSize i (setFreeAt i segs)) < U64 := by
    rw [endOf_mergeAt]; exact e1
  have n2 : mergeAt c.HeaderSize i (setFreeAt i segs) ≠ [] :=
    mergeAt_ne_nil _ _ _ (setFreeAt_ne_nil _ _ L.nonempty)
  have i2 := length_mergeAt c.HeaderSize i _ i1
  have a2 : addrAt c.HeaderSize hp.HeapStart (setFreeAt i segs) i =
      addrAt c.HeaderSize hp.HeapStart (mergeAt c.HeaderSize i (setFreeAt i segs)) i :=
    (addrAt_mergeAt _ _ _ _ _ (Nat.le_refl _)).symm
  rw [a2]
  have lB : hp.LastHeader = lastAddr c.HeaderSize hp.HeapStart segs →
      hpB.LastHeader = lastAddr c.HeaderSize hp.HeapStart
        (mergeAt c.HeaderSize i (setFreeAt i segs)) := by
    intro h; apply l2; rw [fA.2, lastAddr_setFreeAt]; exact h
  have fB : SameFields hpB hp := by
    obtain ⟨x1, x2, x3, x4⟩ := f2
    obtain ⟨y1, y2, y3, y4⟩ := fA.1
    exact ⟨x1.trans y1, x2.trans y2, x3.trans y3, x4.trans y4⟩
  have mkL : ∀ (h : Heap) (l : List Seg), SameFields h hp → l ≠ [] →
      Chain c.HeaderSize h.mem 0 hp.HeapStart l →
      endOf c.HeaderSize hp.HeapStart l = endOf c.HeaderSize hp.HeapStart segs →
      Layout c h l := by
    intro h l f n ch e
    exact ⟨n, by rw [f.1]; exact L.start_pos, by rw [f.1]; exact ch,
      by rw [f.1, f.2.1, e]; exact L.stop, by rw [f.2.1]; exact hb⟩
  -- step 3: merge the predecessor
  unfold MergePrev
  cases i with
  | zero =>
    simp only [freeList]
    have hp0 : (hpB.mem (addrAt c.HeaderSize hp.HeapStart
        (mergeAt c.HeaderSize 0 (setFreeAt 0 segs)) 0)).Prev = 0 := by
      rw [addrAt_zero]
      cases hq : mergeAt c.HeaderSize 0 (setFreeAt 0 segs) with
      | nil => exact absurd hq n2
      | cons u v => rw [hq] at c2; rw [c2.1]
    rw [if_neg (fun h => h.1 hp0)]
    refine ⟨mkL hpB _ fB n2 c2 (by rw [endOf_mergeAt, endOf_setFreeAt]), fB, lB⟩
  | succ k =>
    have hpk := Chain_prev c.HeaderSize hpB.mem _ 0 hp.HeapStart k c2 i2
    have hfk := Chain_free c.HeaderSize hpB.mem _ 0 hp.HeapStart k c2 (by omega)
    rw [getElem?_mergeAt _ _ _ _ (by omega), getElem?_setFreeAt _ _ _ (by omega)] at hfk
    have hpos : addrAt c.HeaderSize hp.HeapStart
        (mergeAt c.HeaderSize (k + 1) (setFreeAt (k + 1) segs)) k ≠ 0 := by
      have := le_addrAt c.HeaderSize hp.HeapStart
        (mergeAt c.HeaderSize (k + 1) (setFreeAt (k + 1) segs)) k
      have := L.start_pos
      omega
    rw [hpk]
    simp only [freeList]
    by_cases hf : (segs[k]?).map Seg.free = some true
    · rw [if_pos hf]
      rw [hf] at hfk
      rw [if_pos ⟨hpos, (Option.some.inj hfk).symm⟩]
      obtain ⟨c3, _, _, l3⟩ := MergeNext_at c hH _ hpB 0 hp.HeapStart k c2 L.start_pos e2
        (by omega)
      have f3 := MergeNext_fields c hpB (addrAt c.HeaderSize hp.HeapStart
        (mergeAt c.HeaderSize (k + 1) (setFreeAt (k + 1) segs)) k)
      have fC : SameFields (MergeNext c hpB (addrAt c.HeaderSize hp.HeapStart
          (mergeAt c.HeaderSize (k + 1) (setFreeAt (k + 1) segs)) k)) hp := by
        obtain ⟨x1, x2, x3, x4⟩ := f3
        obtain ⟨y1, y2, y3, y4⟩ := fB
        exact ⟨x1.trans y1, x2.trans y2, x3.trans y3, x4.trans y4⟩
      refine ⟨mkL _ _ fC (mergeAt_ne_nil _ _ _ n2) c3
        (by rw [endOf_mergeAt, endOf_mergeAt, endOf_setFreeAt]), fC, fun h => l3 (lB h)⟩
    · rw [if_neg hf]
      rw [if_neg (fun h => hf (by rw [hfk, h.2]))]
      refine ⟨mkL hpB _ fB n2 c2 (by rw [endOf_mergeAt, endOf_setFreeAt]), fB, lB⟩

/-! ## The walk of the list, and `InitializeHeap` -/

theorem walk_null (mem : Nat → HeapSegmentHeader) : ∀ fuel, walk mem fuel 0 = []
  | 0 => rfl
  | _ + 1 => by simp [walk]

theorem walk_chain (H : Nat) (mem : Nat → HeapSegmentHeader) :
    ∀ (segs : List Seg) (prev a fuel : Nat), Chain H mem prev a segs → 0 < a → segs ≠ [] →
      walk mem fuel a = (headers H prev a segs).take fuel
  | [], _, _, _, _, _, h => absurd rfl h
  | s :: t, prev, a, 0, _, _, _ => rfl
  | s :: t, prev, a, fuel + 1, hc, ha, _ => by
    simp only [walk, headers, List.take_succ_cons]
    rw [if_neg (by omega), hc.1]
    congr 1
    cases t with
    | nil => simp only [nextOf, walk_null, headers, List.take_nil]
    | cons t1 t2 =>
      simp only [nextOf]
      exact walk_chain H mem (t1 :: t2) a _ fuel hc.2 (by omega) (by simp)

/-- The segment list read from a laid-out heap is the list of headers of its segments. -/
theorem Layout.segments_eq {c : Config} {hp : Heap} {segs : List Seg} (L : Layout c hp segs)
    (fuel : Nat) :
    hp.segments fuel = (headers c.HeaderSize 0 hp.HeapStart segs).take fuel :=
  walk_chain c.HeaderSize hp.mem segs 0 hp.HeapStart fuel L.chain L.start_pos L.nonempty

theorem initLoop_mem (c : Config) :
    ∀ (k : Nat) (hp : Heap) (pos : Nat), (initLoop c k hp pos).mem = hp.mem
  | 0, _, _ => rfl
  | k + 1, hp, pos => by simp only [initLoop]; rw [initLoop_mem c k]

/-- `InitializeHeap(base, n)` leaves a well-formed heap of one free segment that spans the
`n` pages but for its header. -/
theorem InitializeHeap_spec (c : Config) (hc : c.Sane) (hp0 : Heap) (base n : Nat)
    (hb : 0 < base) (hn : 1 ≤ n) (he : base + n * 4096 < U64) :
    WellFormed c (InitializeHeap c hp0 base n) [⟨n * 4096 - c.HeaderSize, true⟩] ∧
      (InitializeHeap c hp0 base n).HeapStart = base ∧
      (InitializeHeap c hp0 base n).HeapEnd = base + n * 4096 ∧
      (InitializeHeap c hp0 base n).LastHeader = base := by
  have hH := hc.header_pos
  have hH2 := hc.header_lt
  have h1 : n * 4096 % U64 = n * 4096 := Nat.mod_eq_of_lt (by omega)
  have h2 : (base + n * 4096) % U64 = base + n * 4096 := Nat.mod_eq_of_lt he
  have h3 : c.HeaderSize % U64 = c.HeaderSize := Nat.mod_eq_of_lt (by simp only [U64]; omega)
  have h4 : (n * 4096 + U64 - c.HeaderSize) % U64 = n * 4096 - c.HeaderSize := by
    simp only [U64] at *; omega
  have hS : (InitializeHeap c hp0 base n).HeapStart = base := rfl
  have hE : (InitializeHeap c hp0 base n).HeapEnd = base + n * 4096 := by
    simp only [InitializeHeap, fld_set, h1, h2]
  have hL : (InitializeHeap c hp0 base n).LastHeader = base := rfl
  have hM : (InitializeHeap c hp0 base n).mem base =
      ⟨n * 4096 - c.HeaderSize, 0, 0, true⟩ := by
    apply header_ext <;>
      simp only [InitializeHeap, mem_set, if_true, h1, h3, h4]
  refine ⟨⟨⟨by simp, by rw [hS]; exact hb, ?_, ?_, by rw [hE]; exact he⟩, ?_, ?_⟩, hS, hE, hL⟩
  · rw [hS]; exact ⟨hM, trivial⟩
  · rw [hS, hE]; simp only [endOf]; omega
  · rw [hS, hL]; rfl
  · exact List.chain'_singleton _

/-! ## Lists that split around one segment -/

theorem setFreeAt_append (x : Seg) (post : List Seg) :
    ∀ (pre : List Seg), setFreeAt pre.length (pre ++ x :: post) = pre ++ ⟨x.size, true⟩ :: post
  | [] => rfl
  | y :: pre => by
    simp only [List.length_cons, List.cons_append, setFreeAt, List.append_eq,
      setFreeAt_append x post pre]

theorem mergeAt_append (H : Nat) (l : List Seg) :
    ∀ (pre : List Seg), mergeAt H pre.length (pre ++ l) = pre ++ mergeHead H l
  | [] => rfl
  | y :: pre => by
    simp only [List.length_cons, List.cons_append, mergeAt, List.append_eq,
      mergeAt_append H l pre]

theorem addrAt_append (H : Nat) (l : List Seg) :
    ∀ (pre : List Seg) (a : Nat), addrAt H a (pre ++ l) pre.length = endOf H a pre
  | [], _ => rfl
  | y :: pre, a => by
    simp only [List.length_cons, List.cons_append, addrAt_succ, endOf]
    exact addrAt_append H l pre _

theorem headers_take_append (H : Nat) (l1 l2 : List Seg) (h1 : l1 ≠ []) (h2 : l2 ≠ []) :
    ∀ (pre : List Seg) (prev a : Nat),
      (headers H prev a (pre ++ l1)).take pre.length =
        (headers H prev a (pre ++ l2)).take pre.length
  | [], _, _ => rfl
  | y :: pre, prev, a => by
    simp only [List.cons_append, headers, List.length_cons, List.take_succ_cons, List.append_eq]
    rw [headers_take_append H l1 l2 h1 h2 pre, nextOf_congr H a y.size (pre ++ l1) (pre ++ l2)
      ⟨fun h => absurd h (by simp [h1]), fun h => absurd h (by simp [h2])⟩]

/-- In memory that holds a chain, the header of the segment after `pre` is the one listed. -/
theorem Chain_append_head (H : Nat) (mem : Nat → HeapSegmentHeader) (s : Seg)
    (post : List Seg) :
    ∀ (pre : List Seg) (prev a : Nat), Chain H mem prev a (pre ++ s :: post) →
      (mem (endOf H a pre)).Size = s.size ∧ (mem (endOf H a pre)).Free = s.free
  | [], _, _, hc => by rw [endOf, hc.1]; exact ⟨rfl, rfl⟩
  | y :: pre, _, a, hc => by
    simp only [endOf]
    exact Chain_append_head H mem s post pre a _ hc.2

/-- Freeing what `Malloc` carved out of the free segment `s` gives `s` back, when no two
neighbours of the list were both free. -/
theorem freeList_carve (c : Config) (hH2 : c.HeaderSize < 4096) (r : Nat) (s : Seg)
    (post : List Seg) (hf : s.free = true) (hr : r ≤ s.size) (hn : s.size < U64)
    (pre : List Seg) (hno : NoAdjFree (pre ++ s :: post)) :
    freeList c.HeaderSize pre.length (pre ++ carve c r s post) = pre ++ s :: post := by
  have hs : (⟨s.size, true⟩ : Seg) = s := by
    cases s with
    | mk sz fr => simp only at hf; rw [hf]
  have hpost : ∀ n t, post = n :: t → n.free = false := by
    intro n t h
    rw [h] at hno
    have := (@List.chain'_split _ _ s pre (n :: t)).1 hno
    have h2 := (List.chain'_cons.1 this.2).1
    simp only [hf, true_and, Bool.not_eq_true] at h2
    exact h2
  have hmid : mergeAt c.HeaderSize pre.length (setFreeAt pre.length (pre ++ carve c r s post))
      = pre ++ s :: post := by
    unfold carve
    split_ifs with h
    · have := (splitFits_iff c _ r hn hr hH2).1 h.2
      rw [setFreeAt_append, mergeAt_append]
      simp only [mergeHead, if_true]
      have hq : r + c.HeaderSize + (s.size - r - c.HeaderSize) = s.size := by omega
      rw [hq, hs]
    · rw [setFreeAt_append, mergeAt_append, hs]
      cases post with
      | nil => rfl
      | cons n t =>
        have := hpost n t rfl
        simp only [mergeHead, this, Bool.false_eq_true, if_false]
  rcases List.eq_nil_or_concat pre with h0 | ⟨pre1, y, h1⟩
  · subst h0
    simp only [List.length_nil, freeList]
    exact hmid
  · rw [List.concat_eq_append] at h1
    subst h1
    have hy : y.free = false := by
      have : NoAdjFree (pre1 ++ y :: s :: post) := by
        simpa [List.append_assoc] using hno
      have := (@List.chain'_split _ _ y pre1 (s :: post)).1 this
      have h2 := (List.chain'_cons.1 this.2).1
      simp only [hf, and_true, Bool.not_eq_true] at h2
      exact h2
    have hlen : (pre1 ++ [y]).length = pre1.length + 1 := by simp
    rw [hlen] at hmid ⊢
    simp only [freeList]
    have hget : (pre1 ++ [y] ++ carve c r s post)[pre1.length]? = some y := by
      rw [List.append_assoc, List.getElem?_append_right (Nat.le_refl _)]
      simp
    rw [hget]
    simp only [Option.map_some', hy, Option.some.injEq, Bool.false_eq_true, if_false]
    exact hmid

theorem sampleConfig_sane : sampleConfig.Sane := ⟨by decide, by decide, by decide⟩

theorem kernelHeap_wellFormed : WellFormed sampleConfig kernelHeap [⟨65504, true⟩] :=
  (InitializeHeap_spec sampleConfig sampleConfig_sane blankHeap HEAP_ADDRESS 16 (by decide)
    (by decide) (by decide)).1

theorem fullKernelHeap_wellFormed : WellFormed sampleConfig fullKernelHeap [⟨65504, false⟩] :=
  ⟨⟨by simp, by decide, ⟨by decide, trivial⟩, by decide, by decide⟩, by decide,
    List.chain'_singleton _⟩

theorem block_le_roundedSize (c : Config) (size : Nat) (hs : 0 < size) :
    c.BLOCK_SIZE ≤ roundedSize c size := by
  unfold roundedSize
  split_ifs with h
  · have := Nat.mod_le size c.BLOCK_SIZE
    omega
  · have h0 : size % c.BLOCK_SIZE = 0 := by omega
    exact Nat.le_of_dvd hs (Nat.dvd_of_mod_eq_zero h0)

/-- `Free` on the payload of the segment of index `i`, the pointer given as a number. -/
theorem Free_at (c : Config) (hc : c.Sane) (hp : Heap) (segs : List Seg)
    (L : Layout c hp segs) (i : Nat) (hi : i < segs.length) (p : Nat)
    (hp_eq : p = addrAt c.HeaderSize hp.HeapStart segs i + c.HeaderSize) :
    Layout c (Free c hp p) (freeList c.HeaderSize i segs) ∧
      (Free c hp p).HeapStart = hp.HeapStart := by
  rw [hp_eq]
  have := Free_spec c hc hp segs L i hi
  exact ⟨this.1, this.2.1.1⟩

theorem segments_single (c : Config) (hp : Heap) (n : Nat) (L : Layout c hp [⟨n, true⟩])
    (k : Nat) (hk : 1 ≤ k) : hp.segments k = [(hp.HeapStart, ⟨n, 0, 0, true⟩)] := by
  obtain ⟨k, rfl⟩ : ∃ j, k = j + 1 := ⟨k - 1, by omega⟩
  rw [L.segments_eq]
  simp [headers, nextOf]

theorem carve_head (c : Config) (r : Nat) (s : Seg) (t : List Seg) :
    ∃ u v, carve c r s t = u :: v ∧ u.free = false := by
  unfold carve
  split_ifs
  · exact ⟨_, _, rfl, rfl⟩
  · exact ⟨_, _, rfl, rfl⟩

/-! ## A request that `ExtendHeap` never satisfies -/

theorem Stuck.scan {c : Config} (hc : c.Sane) {b : Nat} {hp : Heap} (h : Stuck c b hp)
    (hb : 0 < b) (fuel : Nat) (hfuel : 2 ≤ fuel) :
    scan c 4096 fuel hp hp.HeapStart = .notFound := by
  obtain ⟨h1, _, h3, _, h5⟩ := h
  have hH := hc.header_pos
  obtain ⟨fuel, rfl⟩ : ∃ k, fuel = k + 2 := ⟨fuel - 2, by omega⟩
  rw [h1, scan_succ _ _ _ _ _ (by omega), if_neg (by rw [h3]; simp)]
  rcases h5 with h5 | ⟨h5, h6⟩
  · rw [h5, scan_null]
  · rw [scan_succ _ _ _ _ _ (by omega), h6]
    simp only [if_true]
    rw [if_neg (by omega), if_neg (by omega), scan_null]

theorem Stuck.extend {c : Config} (hc : c.Sane) {b : Nat} {hp : Heap} (h : Stuck c b hp)
    (hb : 0 < b) (he : hp.HeapEnd + 4096 < U64) :
    Stuck c b (ExtendHeap c hp 4096) ∧
      (ExtendHeap c hp 4096).HeapEnd = hp.HeapEnd + 4096 := by
  obtain ⟨h1, h2, h3, h4, _⟩ := h
  have hH := hc.header_pos
  have hH2 := hc.header_lt
  have hmod : (hp.HeapEnd + 4096) % U64 = hp.HeapEnd + 4096 := Nat.mod_eq_of_lt he
  have hsz : (4096 + U64 - c.HeaderSize % U64) % U64 = 4096 - c.HeaderSize := by
    have h2 : c.HeaderSize % U64 = c.HeaderSize := Nat.mod_eq_of_lt (by simp only [U64]; omega)
    rw [h2]
    simp only [U64]
    omega
  unfold ExtendHeap
  lift_lets
  intro size pageCount newSegment g1 g2 g3 g4 g5 g6
  have hsize : size = 4096 := by simp only [size]; decide
  have hpc : pageCount = 1 := by simp only [pageCount, hsize]
  have hg1 : g1.mem = hp.mem ∧ g1.HeapStart = hp.HeapStart ∧ g1.LastHeader = hp.LastHeader ∧
      g1.HeapEnd = hp.HeapEnd + 4096 := by
    simp only [g1, hpc, extendLoop, hmod, and_self]
  have hnew : newSegment = hp.HeapEnd := rfl
  have e1 : b ≠ hp.HeapEnd := by omega
  have e2 : hp.HeapEnd ≠ b := by omega
  have e3 : hp.HeapEnd ≠ 0 := by omega
  have hL : g6.LastHeader = b := by
    simp only [g6, g5, g4, g3, g2, fld_set, hg1.2.2.1, h2]
  have hmb : (g6.mem b).Free = false ∧ (g6.mem b).Next = hp.HeapEnd := by
    constructor <;>
    simp only [g6, g5, g4, g3, g2, mem_set, fld_set, hg1.1, hg1.2.2.1, h2, hnew, e1, if_false,
      if_true, h3]
  have hme : g6.mem hp.HeapEnd = ⟨4096 - c.HeaderSize, 0, b, true⟩ := by
    apply header_ext <;>
    simp only [g6, g5, g4, g3, g2, mem_set, fld_set, hg1.1, hg1.2.2.1, h2, hnew, e2, if_false,
      if_true, hsize, hsz]
  have hmp : MergePrev c g6 newSegment = g6 := by
    unfold MergePrev
    rw [hnew, hme]
    simp only
    rw [if_neg (fun h => by rw [hmb.1] at h; simp at h)]
  rw [hmp]
  have hS : g6.HeapStart = b := by
    simp only [g6, g5, g4, g3, g2, fld_set, hg1.2.1, h1]
  have hE : g6.HeapEnd = hp.HeapEnd + 4096 := by
    simp only [g6, g5, g4, g3, g2, fld_set, hg1.2.2.2]
  exact ⟨⟨hS, hL, hmb.1, by rw [hE]; omega, Or.inr ⟨by rw [hmb.2]; exact h4,
    by rw [hmb.2]; exact hme⟩⟩, hE⟩

theorem Stuck.malloc {c : Config} (hc : c.Sane) (hB : 4096 % c.BLOCK_SIZE = 0) {b : Nat}
    (hb : 0 < b) (fuel : Nat) (hfuel : 2 ≤ fuel) :
    ∀ (retries : Nat) (hp : Heap), Stuck c b hp → hp.HeapEnd + 4096 * (retries + 1) < U64 →
      Malloc c fuel retries hp 4096 = none
  | 0, hp, h, _ => by
    have hr : roundedSize c 4096 % U64 = 4096 := by
      simp only [roundedSize, hB, gt_iff_lt, Nat.lt_irrefl, if_false]
      decide
    simp only [Malloc, mallocBody, hr]
    rw [if_neg (by decide), h.scan hc hb fuel hfuel]
  | retries + 1, hp, h, he => by
    have hr : roundedSize c 4096 % U64 = 4096 := by
      simp only [roundedSize, hB, gt_iff_lt, Nat.lt_irrefl, if_false]
      decide
    obtain ⟨h1, h2⟩ := h.extend hc hb (by omega)
    simp only [Malloc, mallocBody, hr]
    rw [if_neg (by decide), h.scan hc hb fuel hfuel]
    exact Stuck.malloc hc hB hb fuel hfuel retries _ h1 (by rw [h2]; omega)

theorem Stuck.of_wellFormed {c : Config} (hc : c.Sane) {hp : Heap} {n : Nat}
    (W : WellFormed c hp [⟨n, false⟩]) : Stuck c hp.HeapStart hp := by
  have hm := W.layout.chain.1
  have hs := W.layout.stop
  have hH := hc.header_pos
  simp only [endOf] at hs
  refine ⟨rfl, W.last, by rw [hm], by omega, Or.inl (by rw [hm]; rfl)⟩

/-! ## `MapPage` -/

theorem levelEntry_present (g : Nat → Nat) (m : PageTableManager) (t i : Nat)
    (h : (m.tables t i).Present = true) :
    levelEntry g m t i = (m, (m.tables t i).Address) := by
  unfold levelEntry
  simp only [h, Bool.true_eq_false, if_false]

theorem levelEntry_absent (g : Nat → Nat) (m : PageTableManager) (t i : Nat)
    (h : (m.tables t i).Present = false) :
    levelEntry g m t i =
      (⟨m.TableLevel4,
        storeEntry (zeroTable m.tables (g m.requested)) t i ⟨true, true, g m.requested⟩,
        m.requested + 1⟩, g m.requested) := by
  unfold levelEntry
  simp only [h, if_true]

theorem levelEntry_entry (g : Nat → Nat) (m : PageTableManager) (t i : Nat) :
    ((levelEntry g m t i).1.tables t i).Present = true ∧
      ((levelEntry g m t i).1.tables t i).Address = (levelEntry g m t i).2 := by
  cases h : (m.tables t i).Present
  · rw [levelEntry_absent g m t i h]
    simp only [storeEntry, and_self, if_true]
  · rw [levelEntry_present g m t i h]
    exact ⟨h, rfl⟩

theorem levelEntry_frame (g : Nat → Nat) (m : PageTableManager) (t i t1 i1 : Nat)
    (h1 : t1 ≠ t) (h2 : t1 ≠ (levelEntry g m t i).2) :
    (levelEntry g m t i).1.tables t1 i1 = m.tables t1 i1 := by
  cases h : (m.tables t i).Present
  · rw [levelEntry_absent g m t i h] at h2 ⊢
    simp only at h2
    simp only [storeEntry, zeroTable, h1, h2, false_and, if_false]
  · rw [levelEntry_present g m t i h]

theorem levelEntry_root (g : Nat → Nat) (m : PageTableManager) (t i : Nat) :
    (levelEntry g m t i).1.TableLevel4 = m.TableLevel4 := by
  cases h : (m.tables t i).Present
  · rw [levelEntry_absent g m t i h]
  · rw [levelEntry_present g m t i h]

/-- After `MapPage` on a path of four different tables, the entries of the three upper levels
are present and lead down the path, and the entry of level 1 is the one just stored. -/
theorem MapPage_path (g : Nat → Nat) (m : PageTableManager) (v p : Nat)
    (hpath : (tablePath g m v).Nodup) :
    ∃ t3 t2 t1, tablePath g m v = [m.TableLevel4, t3, t2, t1] ∧
      (MapPage g m v p).TableLevel4 = m.TableLevel4 ∧
      (MapPage g m v p).tables m.TableLevel4 (PageMapIndexer.ofAddress v).TableLevel4Index
        = ⟨true, ((MapPage g m v p).tables m.TableLevel4
            (PageMapIndexer.ofAddress v).TableLevel4Index).ReadWrite, t3⟩ ∧
      (MapPage g m v p).tables t3 (PageMapIndexer.ofAddress v).TableLevel3Index
        = ⟨true, ((MapPage g m v p).tables t3
            (PageMapIndexer.ofAddress v).TableLevel3Index).ReadWrite, t2⟩ ∧
      (MapPage g m v p).tables t2 (PageMapIndexer.ofAddress v).TableLevel2Index
        = ⟨true, ((MapPage g m v p).tables t2
            (PageMapIndexer.ofAddress v).TableLevel2Index).ReadWrite, t1⟩ ∧
      (MapPage g m v p).tables t1 (PageMapIndexer.ofAddress v).TableLevel1Index
        = ⟨true, true, p⟩ := by
  simp only [tablePath, MapPage] at hpath ⊢
  generalize PageMapIndexer.ofAddress v = ix at hpath ⊢
  have hr4 := levelEntry_entry g m m.TableLevel4 ix.TableLevel4Index
  have hroot4 := levelEntry_root g m m.TableLevel4 ix.TableLevel4Index
  generalize levelEntry g m m.TableLevel4 ix.TableLevel4Index = r4 at hpath hr4 hroot4 ⊢
  have hr3 := levelEntry_entry g r4.1 r4.2 ix.TableLevel3Index
  have f3 := levelEntry_frame g r4.1 r4.2 ix.TableLevel3Index
  have hroot3 := levelEntry_root g r4.1 r4.2 ix.TableLevel3Index
  generalize levelEntry g r4.1 r4.2 ix.TableLevel3Index = r3 at hpath hr3 f3 hroot3 ⊢
  have hr2 := levelEntry_entry g r3.1 r3.2 ix.TableLevel2Index
  have f2 := levelEntry_frame g r3.1 r3.2 ix.TableLevel2Index
  have hroot2 := levelEntry_root g r3.1 r3.2 ix.TableLevel2Index
  generalize levelEntry g r3.1 r3.2 ix.TableLevel2Index = r2 at hpath hr2 f2 hroot2 ⊢
  have hroot : r2.1.TableLevel4 = m.TableLevel4 := by rw [hroot2, hroot3, hroot4]
  simp only [List.nodup_cons, List.mem_cons, List.mem_singleton, not_or, List.not_mem_nil,
    not_false_eq_true, List.nodup_nil, and_true] at hpath
  obtain ⟨⟨a1, a2, a3⟩, ⟨b1, b2⟩, c1⟩ := hpath
  refine ⟨r4.2, r3.2, r2.2, rfl, hroot, ?_, ?_, ?_, ?_⟩
  · simp only [storeEntry, a3, false_and, if_false]
    rw [f2 _ _ a2 a3, f3 _ _ a1 a2]
    cases hq : r4.1.tables m.TableLevel4 ix.TableLevel4Index with
    | mk pr rw ad => rw [hq] at hr4; simp only at hr4; rw [hr4.1, hr4.2]
  · simp only [storeEntry, b2, false_and, if_false]
    rw [f2 _ _ b1 b2]
    cases hq : r3.1.tables r4.2 ix.TableLevel3Index with
    | mk pr rw ad => rw [hq] at hr3; simp only at hr3; rw [hr3.1, hr3.2]
  · simp only [storeEntry, c1, false_and, if_false]
    cases hq : r2.1.tables r3.2 ix.TableLevel2Index with
    | mk pr rw ad => rw [hq] at hr2; simp only at hr2; rw [hr2.1, hr2.2]
  · simp only [storeEntry, and_self, if_true]

/-- `MapPage` when the three upper entries on the path of `v` are present: only the entry of
level 1 is stored, and no frame is requested. -/
theorem MapPage_present (g : Nat → Nat) (m : PageTableManager) (v p t3 t2 t1 : Nat)
    (h4 : m.tables m.TableLevel4 (PageMapIndexer.ofAddress v).TableLevel4Index
      = ⟨true, (m.tables m.TableLevel4
          (PageMapIndexer.ofAddress v).TableLevel4Index).ReadWrite, t3⟩)
    (h3 : m.tables t3 (PageMapIndexer.ofAddress v).TableLevel3Index
      = ⟨true, (m.tables t3 (PageMapIndexer.ofAddress v).TableLevel3Index).ReadWrite, t2⟩)
    (h2 : m.tables t2 (PageMapIndexer.ofAddress v).TableLevel2Index
      = ⟨true, (m.tables t2 (PageMapIndexer.ofAddress v).TableLevel2Index).ReadWrite, t1⟩) :
    MapPage g m v p =
      ⟨m.TableLevel4,
        storeEntry m.tables t1 (PageMapIndexer.ofAddress v).TableLevel1Index ⟨true, true, p⟩,
        m.requested⟩ := by
  have e4 := levelEntry_present g m m.TableLevel4
    (PageMapIndexer.ofAddress v).TableLevel4Index (by rw [h4])
  have a4 : (m.tables m.TableLevel4 (PageMapIndexer.ofAddress v).TableLevel4Index).Address
      = t3 := by rw [h4]
  rw [a4] at e4
  have e3 := levelEntry_present g m t3 (PageMapIndexer.ofAddress v).TableLevel3Index
    (by rw [h3])
  have a3 : (m.tables t3 (PageMapIndexer.ofAddress v).TableLevel3Index).Address = t2 := by
    rw [h3]
  rw [a3] at e3
  have e2 := levelEntry_present g m t2 (PageMapIndexer.ofAddress v).TableLevel2Index
    (by rw [h2])
  have a2 : (m.tables t2 (PageMapIndexer.ofAddress v).TableLevel2Index).Address = t1 := by
    rw [h2]
  rw [a2] at e2
  simp only [MapPage, e4, e3, e2]

theorem tableWalk_of_path (m : PageTableManager) (v t3 t2 t1 : Nat) (r4 r3 r2 : Bool)
    (h4 : m.tables m.TableLevel4 (PageMapIndexer.ofAddress v).TableLevel4Index = ⟨true, r4, t3⟩)
    (h3 : m.tables t3 (PageMapIndexer.ofAddress v).TableLevel3Index = ⟨true, r3, t2⟩)
    (h2 : m.tables t2 (PageMapIndexer.ofAddress v).TableLevel2Index = ⟨true, r2, t1⟩) :
    tableWalk m v = some (m.tables t1 (PageMapIndexer.ofAddress v).TableLevel1Index) := by
  simp only [tableWalk, h4, h3, h2, Bool.true_eq_false, if_false]

/-- With an empty root table at `0x1000` and frames handed out from `0x200000` upwards, the four
tables on the path of the address `0xFFFFFFFF00000000` are pairwise distinct. -/
theorem sampleTables_path :
    (tablePath (fun k => 0x200000 + k * 0x1000) ⟨0x1000, fun _ _ => ⟨false, false, 0⟩, 0⟩
      0xFFFFFFFF00000000).Nodup := by
  decide

/-! ## `InitializeHeap`: the calls to the frame allocator and the paging manager -/

/-- The loop of `InitializeHeap` requests one frame per page and maps the `i`-th at `pos + i *
4096`; it touches nothing else of the heap object. -/
theorem initLoop_calls (c : Config) :
    ∀ (k : Nat) (hp : Heap) (pos : Nat), pos + k * 4096 < U64 →
      (initLoop c k hp pos).frames = hp.frames + k ∧
      (initLoop c k hp pos).mapped = hp.mapped ++
        (List.range k).map (fun i => (pos + i * 4096, c.RequestPageFrame (hp.frames + i)))
  | 0, hp, pos, _ => by simp [initLoop]
  | k + 1, hp, pos, h => by
    have h1 : (pos + 4096) % U64 = pos + 4096 := Nat.mod_eq_of_lt (by omega)
    have ih := initLoop_calls c k
      { hp with frames := hp.frames + 1,
                mapped := hp.mapped ++ [(pos, c.RequestPageFrame hp.frames)] }
      (pos + 4096) (by omega)
    obtain ⟨ih1, ih2⟩ := ih
    simp only at ih1 ih2
    simp only [initLoop, h1]
    refine ⟨by rw [ih1]; omega, ?_⟩
    rw [ih2, List.range_succ_eq_map, List.map_cons, List.map_map, List.append_assoc]
    simp only [List.singleton_append, Nat.zero_mul, Nat.add_zero, List.cons.injEq, true_and,
      List.append_cancel_left_eq]
    apply List.map_congr_left
    intro i _
    simp only [Function.comp_apply, Nat.succ_eq_add_one, Prod.mk.injEq]
    exact ⟨by omega, by rw [Nat.add_assoc, Nat.add_comm 1 i]⟩

/-- The loop of `InitializeHeap` requests one frame per page, whatever the addresses. -/
theorem initLoop_frames (c : Config) :
    ∀ (k : Nat) (hp : Heap) (pos : Nat), (initLoop c k hp pos).frames = hp.frames + k
  | 0, _, _ => rfl
  | k + 1, hp, pos => by
    simp only [initLoop]
    rw [initLoop_frames c k]
    simp only
    omega

/-! ## `ExtendHeap` on a heap whose `LastHeader` is the last header -/

/-- The loop of `ExtendHeap` requests one frame per page, maps the `i`-th at `HeapEnd + i *
4096`, and advances `HeapEnd` past them; it touches nothing else of the heap object. -/
theorem extendLoop_calls (c : Config) :
    ∀ (k : Nat) (hp : Heap), hp.HeapEnd + k * 4096 < U64 →
      (extendLoop c k hp).frames = hp.frames + k ∧
      (extendLoop c k hp).mapped = hp.mapped ++
        (List.range k).map
          (fun i => (hp.HeapEnd + i * 4096, c.RequestPageFrame (hp.frames + i))) ∧
      (extendLoop c k hp).HeapEnd = hp.HeapEnd + k * 4096 ∧
      (extendLoop c k hp).mem = hp.mem ∧
      (extendLoop c k hp).HeapStart = hp.HeapStart ∧
      (extendLoop c k hp).LastHeader = hp.LastHeader
  | 0, hp, _ => by simp [extendLoop]
  | k + 1, hp, h => by
    have h1 : (hp.HeapEnd + 4096) % U64 = hp.HeapEnd + 4096 := Nat.mod_eq_of_lt (by omega)
    have ih := extendLoop_calls c k
      { hp with frames := hp.frames + 1,
                mapped := hp.mapped ++ [(hp.HeapEnd, c.RequestPageFrame hp.frames)],
                HeapEnd := hp.HeapEnd + 4096 }
      (by simp only; omega)
    obtain ⟨ih1, ih2, ih3, ih4, ih5, ih6⟩ := ih
    simp only at ih1 ih2 ih3 ih4 ih5 ih6
    simp only [extendLoop, h1]
    refine ⟨by rw [ih1]; omega, ?_, by rw [ih3]; omega, ih4, ih5, ih6⟩
    rw [ih2, List.range_succ_eq_map, List.map_cons, List.map_map, List.append_assoc]
    simp only [List.singleton_append, Nat.zero_mul, Nat.add_zero, List.cons.injEq, true_and,
      List.append_cancel_left_eq]
    apply List.map_congr_left
    intro i _
    simp only [Function.comp_apply, Nat.succ_eq_add_one, Prod.mk.injEq]
    exact ⟨by omega, by rw [Nat.add_assoc, Nat.add_comm 1 i]⟩

/-- The page rounding yields the least multiple of the page size that is at least `size`. -/
theorem pageRounded_spec (size : Nat) :
    4096 ∣ pageRounded size ∧ size ≤ pageRounded size ∧ pageRounded size < size + 4096 := by
  unfold pageRounded
  split_ifs with h
  · refine ⟨?_, by omega, by omega⟩
    exact Nat.dvd_of_mod_eq_zero (by omega)
  · exact ⟨Nat.dvd_of_mod_eq_zero (by omega), Nat.le_refl _, by omega⟩

/-- A run of segments grows by one at its end: the header that was last gets the new one as
`Next`, the new header sits where the run ended with `Next = NULL` and the old last as `Prev`. -/
theorem Chain_snoc (H : Nat) (hH : 0 < H) (mem mem1 : Nat → HeapSegmentHeader) (n : Nat)
    (f : Bool) :
    ∀ (segs : List Seg) (prev a : Nat), segs ≠ [] → Chain H mem prev a segs →
      (∀ x, x ≠ lastAddr H a segs → x ≠ endOf H a segs → mem1 x = mem x) →
      mem1 (lastAddr H a segs) = { mem (lastAddr H a segs) with Next := endOf H a segs } →
      mem1 (endOf H a segs) = ⟨n, 0, lastAddr H a segs, f⟩ →
      Chain H mem1 prev a (segs ++ [⟨n, f⟩])
  | [], _, _, h, _, _, _, _ => absurd rfl h
  | [s], prev, a, _, hc, _, hl, he => by
    simp only [lastAddr, endOf] at hl he
    simp only [Chain, and_true] at hc
    simp only [List.singleton_append, Chain, nextOf, and_true]
    refine ⟨?_, he⟩
    rw [hl, hc]
    rfl
  | s :: t :: r, prev, a, _, hc, ho, hl, he => by
    simp only [lastAddr, endOf] at hl he ho
    obtain ⟨hc1, hc2⟩ := hc
    have h1 := le_lastAddr H (t :: r) (a + H + s.size)
    have h2 := lastAddr_lt_endOf H hH (t :: r) (a + H + s.size) (by simp)
    simp only [endOf] at h2
    have ih := Chain_snoc H hH mem mem1 n f (t :: r) a (a + H + s.size) (by simp) hc2
      (by simpa only [endOf] using ho) hl (by simpa only [endOf] using he)
    refine ⟨?_, ih⟩
    rw [ho a (by omega) (by omega), hc1]
    rfl

/-- What `MergeNext` makes of `LastHeader`, whatever the memory holds. -/
theorem MergeNext_last (c : Config) (hp : Heap) (this : Nat) :
    (MergeNext c hp this).LastHeader =
      if (hp.mem this).Next ≠ 0 ∧ (hp.mem (hp.mem this).Next).Free = true ∧
          (hp.mem this).Next = hp.LastHeader then this else hp.LastHeader := by
  unfold MergeNext
  by_cases h1 : (hp.mem this).Next = 0
  · simp only [h1, true_or, if_true, ne_eq, not_true_eq_false, false_and, if_false]
  · cases h2 : (hp.mem (hp.mem this).Next).Free
    · simp only [h1, or_true, if_true, ne_eq, Bool.false_eq_true, false_and, and_false, if_false]
    · by_cases h3 : (hp.mem this).Next = hp.LastHeader
      · have h4 : ¬ hp.LastHeader = 0 := h3 ▸ h1
        simp only [h1, h2, h3, h4, Bool.true_eq_false, or_self, if_false, fld_set, fld_ite,
          if_true, ite_self, ne_eq, not_false_eq_true, and_self]
      · simp only [h1, h2, h3, Bool.true_eq_false, or_self, if_false, fld_set, fld_ite,
          ite_self, ne_eq, not_false_eq_true, and_false]

/-- The last header of a run that ends with one more segment is where the run before it ends. -/
theorem lastAddr_snoc (H : Nat) (t : Seg) :
    ∀ (pre : List Seg) (a : Nat), lastAddr H a (pre ++ [t]) = endOf H a pre
  | [], a => rfl
  | [s], a => rfl
  | s :: u :: r, a => by
    have := lastAddr_snoc H t (u :: r) (a + H + s.size)
    simpa [lastAddr, endOf] using this

/-- `ExtendHeap(size)` on a heap whose list ends with the segment `t`, `LastHeader` being the
header of `t`: the list grows by a free segment of the rounded size less a header, which is
merged into `t` when `t` is free; the frames are requested and mapped page by page from the
old `HeapEnd`; `LastHeader` is not assigned. -/
theorem ExtendHeap_spec (c : Config) (hc : c.Sane) (hp : Heap) (pre : List Seg) (t : Seg)
    (L : Layout c hp (pre ++ [t]))
    (hl : hp.LastHeader = lastAddr c.HeaderSize hp.HeapStart (pre ++ [t]))
    (size : Nat) (hs : 0 < size) (he : hp.HeapEnd + pageRounded size < U64) :
    Layout c (ExtendHeap c hp size)
      (if t.free = true then pre ++ [⟨t.size + pageRounded size, true⟩]
        else pre ++ [t, ⟨pageRounded size - c.HeaderSize, true⟩]) ∧
    (ExtendHeap c hp size).frames = hp.frames + pageRounded size / 4096 ∧
    (ExtendHeap c hp size).mapped = hp.mapped ++
      (List.range (pageRounded size / 4096)).map
        (fun i => (hp.HeapEnd + i * 4096, c.RequestPageFrame (hp.frames + i))) ∧
    (ExtendHeap c hp size).HeapEnd = hp.HeapEnd + pageRounded size ∧
    (ExtendHeap c hp size).HeapStart = hp.HeapStart ∧
    (ExtendHeap c hp size).LastHeader = hp.LastHeader := by
  have hH := hc.header_pos
  have hH2 := hc.header_lt
  obtain ⟨hd, hle, hlt⟩ := pageRounded_spec size
  generalize hP : pageRounded size = P at he hd hle hlt ⊢
  have hP4 : 4096 ≤ P := by obtain ⟨k, rfl⟩ := hd; omega
  have hk : P / 4096 * 4096 = P := Nat.div_mul_cancel hd
  rw [lastAddr_snoc] at hl
  have hstop := L.stop
  rw [endOf_append] at hstop
  simp only [endOf] at hstop
  have hsp := L.start_pos
  have hla := le_endOf c.HeaderSize pre hp.HeapStart
  generalize hA : endOf c.HeaderSize hp.HeapStart pre = la at hl hstop hla
  have hhead := Chain_append_head c.HeaderSize hp.mem t [] pre 0 hp.HeapStart L.chain
  rw [hA] at hhead
  have hsz : (P + U64 - c.HeaderSize % U64) % U64 = P - c.HeaderSize := by
    have h2 : c.HeaderSize % U64 = c.HeaderSize := Nat.mod_eq_of_lt (by simp only [U64]; omega)
    rw [h2]
    simp only [U64] at he ⊢
    omega
  unfold ExtendHeap
  lift_lets
  intro size1 pageCount newSegment g1 g2 g3 g4 g5 g6
  have hsize : size1 = P := by
    rw [← hP]
    simp only [size1, pageRounded]
    split_ifs with h
    · rw [Nat.mod_eq_of_lt]
      have : pageRounded size = size - size % 4096 + 4096 := by
        simp only [pageRounded, h, if_true]
      omega
    · rfl
  have hpc : pageCount = P / 4096 := by simp only [pageCount, hsize]
  obtain ⟨k1, k2, k3, k4, k5, k6⟩ := extendLoop_calls c (P / 4096) hp (by rw [hk]; exact he)
  rw [hk] at k3
  have hnew : newSegment = hp.HeapEnd := rfl
  have e1 : la ≠ hp.HeapEnd := by omega
  have e2 : hp.HeapEnd ≠ la := by omega
  have e3 : hp.HeapEnd ≠ 0 := by omega
  have hL6 : g6.LastHeader = la := by
    simp only [g6, g5, g4, g3, g2, g1, hpc, fld_set, k6, hl]
  have hS6 : g6.HeapStart = hp.HeapStart := by
    simp only [g6, g5, g4, g3, g2, g1, hpc, fld_set, k5]
  have hE6 : g6.HeapEnd = hp.HeapEnd + P := by
    simp only [g6, g5, g4, g3, g2, g1, hpc, fld_set, k3]
  have hF6 : g6.frames = hp.frames + P / 4096 := by
    simp only [g6, g5, g4, g3, g2, g1, hpc, fld_set, k1]
  have hM6 : g6.mapped = hp.mapped ++ (List.range (P / 4096)).map
      (fun i => (hp.HeapEnd + i * 4096, c.RequestPageFrame (hp.frames + i))) := by
    simp only [g6, g5, g4, g3, g2, g1, hpc, fld_set, k2]
  have hme : g6.mem hp.HeapEnd = ⟨P - c.HeaderSize, 0, la, true⟩ := by
    apply header_ext <;>
    simp only [g6, g5, g4, g3, g2, g1, hpc, mem_set, fld_set, k4, k6, hl, hnew, e2, if_false,
      if_true, hsize, hsz]
  have hml : g6.mem la = { hp.mem la with Next := hp.HeapEnd } := by
    apply header_ext <;>
    simp only [g6, g5, g4, g3, g2, g1, hpc, mem_set, fld_set, k4, k6, hl, hnew, e1, if_false,
      if_true]
  have hmo : ∀ x, x ≠ la → x ≠ hp.HeapEnd → g6.mem x = hp.mem x := by
    intro x x1 x2
    apply header_ext <;>
    simp only [g6, g5, g4, g3, g2, g1, hpc, mem_set, fld_set, k4, k6, hl, hnew, x1, x2,
      if_false]
  have hch : Chain c.HeaderSize g6.mem 0 hp.HeapStart
      ((pre ++ [t]) ++ [⟨P - c.HeaderSize, true⟩]) := by
    apply Chain_snoc c.HeaderSize hH hp.mem g6.mem _ _ (pre ++ [t]) 0 hp.HeapStart (by simp)
      L.chain
    · rw [lastAddr_snoc, hA, L.stop]; exact hmo
    · rw [lastAddr_snoc, hA, L.stop]; exact hml
    · rw [lastAddr_snoc, hA, L.stop]; exact hme
  have hend : endOf c.HeaderSize hp.HeapStart ((pre ++ [t]) ++ [⟨P - c.HeaderSize, true⟩])
      = hp.HeapEnd + P := by
    rw [endOf_append, L.stop]
    simp only [endOf]
    omega
  unfold MergePrev
  rw [hnew, hme]
  simp only
  have hfree : (g6.mem la).Free = t.free := by rw [hml]; exact hhead.2
  rw [hfree]
  cases hf : t.free with
  | false =>
    simp only [Bool.false_eq_true, and_false, if_false]
    refine ⟨⟨by simp, by rw [hS6]; exact hsp, ?_, ?_, by rw [hE6]; exact he⟩, hF6, hM6, hE6,
      hS6, by rw [hL6, hl]⟩
    · rw [hS6]; simpa using hch
    · rw [hS6, hE6, ← hend]; simp
  | true =>
    have hla0 : la ≠ 0 := by omega
    simp only [ne_eq, hla0, not_false_eq_true, and_self, if_true]
    have haddr : addrAt c.HeaderSize hp.HeapStart
        (pre ++ [t, ⟨P - c.HeaderSize, true⟩]) pre.length = la := by
      rw [addrAt_append, hA]
    have hch2 : Chain c.HeaderSize g6.mem 0 hp.HeapStart
        (pre ++ [t, ⟨P - c.HeaderSize, true⟩]) := by simpa using hch
    have hend2 : endOf c.HeaderSize hp.HeapStart (pre ++ [t, ⟨P - c.HeaderSize, true⟩])
        = hp.HeapEnd + P := by rw [← hend]; simp
    obtain ⟨m1, _, _, _⟩ := MergeNext_at c hH (pre ++ [t, ⟨P - c.HeaderSize, true⟩]) g6 0
      hp.HeapStart pre.length hch2 hsp (by rw [hend2]; exact he) (by simp)
    rw [haddr, mergeAt_append] at m1
    simp only [mergeHead, if_true] at m1
    have hsum : t.size + c.HeaderSize + (P - c.HeaderSize) = t.size + P := by omega
    rw [hsum, hf] at m1
    obtain ⟨f1, f2, f3, f4⟩ := MergeNext_fields c g6 la
    have hlast := MergeNext_last c g6 la
    rw [hml] at hlast
    simp only [hL6, e2, and_false, if_false] at hlast
    refine ⟨⟨by simp, by rw [f1, hS6]; exact hsp, ?_, ?_, by rw [f2, hE6]; exact he⟩,
      by rw [f3, hF6], by rw [f4, hM6], by rw [f2, hE6], by rw [f1, hS6], by rw [hlast, hl]⟩
    · rw [f1, hS6]; exact m1
    · rw [f1, hS6, f2, hE6, endOf_append, hA]
      simp only [endOf]
      omega

/-- The part of a run of segments behind its first segments is a run of its own, whose first
header has the last header before it as `Prev`. -/
theorem Chain_drop (H : Nat) (mem : Nat → HeapSegmentHeader) (l : List Seg) :
    ∀ (pre : List Seg) (prev a : Nat), Chain H mem prev a (pre ++ l) →
      Chain H mem (if pre = [] then prev else lastAddr H a pre) (endOf H a pre) l
  | [], _, _, hc => by simpa [endOf] using hc
  | [s], _, a, hc => by
    have := Chain_drop H mem l [] a (a + H + s.size) hc.2
    simpa [endOf, lastAddr] using this
  | s :: u :: r, _, a, hc => by
    have := Chain_drop H mem l (u :: r) a (a + H + s.size) hc.2
    simpa [endOf, lastAddr] using this

/-! ## The rounding of the request in `Malloc` -/

/-- The rounded request is a multiple of the block size. -/
theorem roundedSize_dvd (c : Config) (size : Nat) : c.BLOCK_SIZE ∣ roundedSize c size := by
  unfold roundedSize
  split_ifs with h
  · have h1 := Nat.div_add_mod size c.BLOCK_SIZE
    have h2 : size - size % c.BLOCK_SIZE = c.BLOCK_SIZE * (size / c.BLOCK_SIZE) := by omega
    rw [h2]
    exact Dvd.intro (size / c.BLOCK_SIZE + 1) (by rw [Nat.mul_add, Nat.mul_one])
  · exact Nat.dvd_of_mod_eq_zero (by omega)

/-- No multiple of the block size lies between the request and its rounded value. -/
theorem roundedSize_least (c : Config) (size m : Nat) (hm : c.BLOCK_SIZE ∣ m)
    (hle : size ≤ m) : roundedSize c size ≤ m := by
  unfold roundedSize
  split_ifs with h
  · obtain ⟨k, rfl⟩ := hm
    have h1 := Nat.div_add_mod size c.BLOCK_SIZE
    have h2 : size - size % c.BLOCK_SIZE = c.BLOCK_SIZE * (size / c.BLOCK_SIZE) := by omega
    rw [h2]
    have h3 : c.BLOCK_SIZE * (size / c.BLOCK_SIZE) < c.BLOCK_SIZE * k := by omega
    have h4 : size / c.BLOCK_SIZE < k := Nat.lt_of_mul_lt_mul_left h3
    calc c.BLOCK_SIZE * (size / c.BLOCK_SIZE) + c.BLOCK_SIZE
        = c.BLOCK_SIZE * (size / c.BLOCK_SIZE + 1) := by rw [Nat.mul_add, Nat.mul_one]
      _ ≤ c.BLOCK_SIZE * k := Nat.mul_le_mul_left _ h4
  · exact hle

/-- Rounding a rounded request changes nothing. -/
theorem roundedSize_idem (c : Config) (size : Nat) :
    roundedSize c (roundedSize c size) = roundedSize c size := by
  have h := Nat.mod_eq_zero_of_dvd (roundedSize_dvd c size)
  generalize roundedSize c size = r at h ⊢
  simp only [roundedSize, h, gt_iff_lt, Nat.lt_irrefl, if_false]

/-- After `Split`, whatever the memory holds, the header it was called on has the size of the
first part when a second segment was carved, and `Split` changed nothing otherwise. -/
theorem Split_this (c : Config) (hp : Heap) (this r : Nat) :
    (splitFits c (hp.mem this).Size r → ((Split c hp this r).2.mem this).Size = r) ∧
    (¬ splitFits c (hp.mem this).Size r → (Split c hp this r).2 = hp) := by
  constructor
  · intro h
    have h1 : ¬ toInt64 (((hp.mem this).Size + U64 - r % U64 + U64 - c.HeaderSize % U64) % U64)
        < (c.BLOCK_SIZE : Int) := by
      unfold splitFits at h; omega
    unfold Split
    lift_lets
    intro d second g1 g2 g3 g4 g5 g6 g7 g8
    have h2 : ¬ d < (c.BLOCK_SIZE : Int) := h1
    rw [if_neg h2]
    simp only [g8, g7, fld_ite, mem_set, ite_self, if_true]
  · intro h
    rw [Split_no c hp this r h]

/-- A pointer the scan of `Malloc` returns is the payload of a header that is now marked
allocated and whose size is at least the size searched for, whatever the memory holds. -/
theorem scan_found (c : Config) (r : Nat) :
    ∀ (fuel : Nat) (hp : Heap) (a p : Nat) (hp1 : Heap),
      scan c r fuel hp a = .found p hp1 →
      ∃ seg, p = (seg + c.HeaderSize) % U64 ∧ r ≤ (hp1.mem seg).Size ∧
        (hp1.mem seg).Free = false
  | 0, hp, a, p, hp1, h => by
    unfold scan at h
    split_ifs at h
  | fuel + 1, hp, a, p, hp1, h => by
    by_cases ha : a = 0
    · rw [ha, scan_null] at h
      exact ScanResult.noConfusion h
    · rw [scan_succ c r fuel hp a ha] at h
      split_ifs at h with h1 h2 h3
      · simp only [ScanResult.found.injEq] at h
        obtain ⟨rfl, rfl⟩ := h
        refine ⟨a, rfl, ?_, by simp only [mem_set, if_true]⟩
        simp only [mem_set]
        by_cases hf : splitFits c (hp.mem a).Size r
        · rw [(Split_this c hp a r).1 hf]
        · rw [(Split_this c hp a r).2 hf]; omega
      · simp only [ScanResult.found.injEq] at h
        obtain ⟨rfl, rfl⟩ := h
        refine ⟨a, rfl, ?_, by simp only [mem_set, if_true]⟩
        simp only [mem_set]
        omega
      · exact scan_found c r fuel hp _ p hp1 h
      · exact scan_found c r fuel hp _ p hp1 h

/-- A pointer `Malloc` returns for a non-zero request whose rounded value fits 64 bits is the
payload of a header marked allocated whose size is at least the rounded request. -/
theorem Malloc_found (c : Config) (hB : 0 < c.BLOCK_SIZE) (fuel : Nat) :
    ∀ (retries : Nat) (hp : Heap) (size p : Nat) (hp1 : Heap), 0 < size →
      roundedSize c size < U64 → Malloc c fuel retries hp size = some (p, hp1) →
      ∃ seg, p = (seg + c.HeaderSize) % U64 ∧ roundedSize c size ≤ (hp1.mem seg).Size ∧
        (hp1.mem seg).Free = false
  | 0, hp, size, p, hp1, hs, hr, h => by
    have h1 : roundedSize c size % U64 = roundedSize c size := Nat.mod_eq_of_lt hr
    have h2 := le_roundedSize c hB size
    simp only [Malloc, mallocBody, h1] at h
    rw [if_neg (by omega)] at h
    cases hsc : scan c (roundedSize c size) fuel hp hp.HeapStart with
    | found q hq =>
      rw [hsc] at h
      simp only [Option.some.injEq, Prod.mk.injEq] at h
      obtain ⟨rfl, rfl⟩ := h
      exact scan_found c _ fuel hp _ _ _ hsc
    | notFound => rw [hsc] at h; exact Option.noConfusion h
    | outOfFuel => rw [hsc] at h; exact Option.noConfusion h
  | retries + 1, hp, size, p, hp1, hs, hr, h => by
    have h1 : roundedSize c size % U64 = roundedSize c size := Nat.mod_eq_of_lt hr
    have h2 := le_roundedSize c hB size
    simp only [Malloc, mallocBody, h1] at h
    rw [if_neg (by omega)] at h
    cases hsc : scan c (roundedSize c size) fuel hp hp.HeapStart with
    | found q hq =>
      rw [hsc] at h
      simp only [Option.some.injEq, Prod.mk.injEq] at h
      obtain ⟨rfl, rfl⟩ := h
      exact scan_found c _ fuel hp _ _ _ hsc
    | notFound =>
      rw [hsc] at h
      have ih := Malloc_found c hB fuel retries _ (roundedSize c size) p hp1 (by omega)
        (by rw [roundedSize_idem]; exact hr) h
      rw [roundedSize_idem] at ih
      exact ih
    | outOfFuel => rw [hsc] at h; exact Option.noConfusion h

/-! ## What `MapPage` creates and what it leaves alone -/

/-- The outcome of `MapPage(v, p)` on a path of four different tables, level by level: the
tables on the path, which of the three upper entries were present, the number of frames
requested, what became of each table on the path, and that no other table changed. -/
theorem MapPage_outcome (g : Nat → Nat) (m : PageTableManager) (v p : Nat)
    (hpath : (tablePath g m v).Nodup) :
    ∃ t3 t2 t1 q4 q3 q2, tablePath g m v = [m.TableLevel4, t3, t2, t1] ∧
      presentLevels m v = [q4, q3, q2] ∧ readLevels g m v = [q4, q3, q2] ∧
      (MapPage g m v p).requested = m.requested + [q4, q3, q2].count false ∧
      (MapPage g m v p).TableLevel4 = m.TableLevel4 ∧
      (∀ x, x ≠ (PageMapIndexer.ofAddress v).TableLevel4Index →
        (MapPage g m v p).tables m.TableLevel4 x = m.tables m.TableLevel4 x) ∧
      LevelOutcome g m (MapPage g m v p) m.TableLevel4
        (PageMapIndexer.ofAddress v).TableLevel4Index t3
        (PageMapIndexer.ofAddress v).TableLevel3Index q4 m.requested ∧
      LevelOutcome g m (MapPage g m v p) t3
        (PageMapIndexer.ofAddress v).TableLevel3Index t2
        (PageMapIndexer.ofAddress v).TableLevel2Index q3
        (m.requested + [q4].count false) ∧
      LevelOutcome g m (MapPage g m v p) t2
        (PageMapIndexer.ofAddress v).TableLevel2Index t1
        (PageMapIndexer.ofAddress v).TableLevel1Index q2
        (m.requested + [q4, q3].count false) ∧
      (MapPage g m v p).tables t1 (PageMapIndexer.ofAddress v).TableLevel1Index
        = ⟨true, true, p⟩ ∧
      (∀ t x, t ≠ m.TableLevel4 → t ≠ t3 → t ≠ t2 → t ≠ t1 →
        (MapPage g m v p).tables t x = m.tables t x) := by
  simp only [tablePath, MapPage, presentLevels, readLevels] at hpath ⊢
  generalize PageMapIndexer.ofAddress v = ix at hpath ⊢
  cases h4 : (m.tables m.TableLevel4 ix.TableLevel4Index).Present
  · -- level 4 not present: three tables are created
    rw [levelEntry_absent g m _ _ h4] at hpath ⊢
    simp only at hpath ⊢
    have n1 : g m.requested ≠ m.TableLevel4 := by
      intro h
      simp only [List.nodup_cons, List.mem_cons, not_or] at hpath
      exact hpath.1.1 h.symm
    have h3 : (storeEntry (zeroTable m.tables (g m.requested)) m.TableLevel4
        ix.TableLevel4Index ⟨true, true, g m.requested⟩ (g m.requested)
        ix.TableLevel3Index).Present = false := by
      simp only [storeEntry, zeroTable, n1, false_and, if_false, if_true]
    rw [levelEntry_absent g _ _ _ h3] at hpath ⊢
    simp only at hpath ⊢
    have n2 : g (m.requested + 1) ≠ m.TableLevel4 ∧ g (m.requested + 1) ≠ g m.requested := by
      simp only [List.nodup_cons, List.mem_cons, not_or] at hpath
      exact ⟨fun h => hpath.1.2.1 h.symm, fun h => hpath.2.1.1 h.symm⟩
    have h2 : (storeEntry (zeroTable (storeEntry (zeroTable m.tables (g m.requested))
        m.TableLevel4 ix.TableLevel4Index ⟨true, true, g m.requested⟩) (g (m.requested + 1)))
        (g m.requested) ix.TableLevel3Index ⟨true, true, g (m.requested + 1)⟩
        (g (m.requested + 1)) ix.TableLevel2Index).Present = false := by
      simp only [storeEntry, zeroTable, n2, false_and, if_false, if_true]
    rw [levelEntry_absent g _ _ _ h2] at hpath ⊢
    simp only at hpath ⊢
    simp only [List.nodup_cons, List.mem_cons, List.mem_singleton, not_or, List.not_mem_nil,
      not_false_eq_true, List.nodup_nil, and_true] at hpath
    obtain ⟨⟨a1, a2, a3⟩, ⟨b1, b2⟩, c1⟩ := hpath
    have a1s : ¬ g m.requested = m.TableLevel4 := fun h => a1 h.symm
    have a2s : ¬ g (m.requested + 1) = m.TableLevel4 := fun h => a2 h.symm
    have a3s : ¬ g (m.requested + 1 + 1) = m.TableLevel4 := fun h => a3 h.symm
    have b1s : ¬ g (m.requested + 1) = g m.requested := fun h => b1 h.symm
    have b2s : ¬ g (m.requested + 1 + 1) = g m.requested := fun h => b2 h.symm
    have c1s : ¬ g (m.requested + 1 + 1) = g (m.requested + 1) := fun h => c1 h.symm
    refine ⟨g m.requested, g (m.requested + 1), g (m.requested + 1 + 1), false, false, false,
      ?_, ?_, ?_, ?_, ?_, ?_, ?_, ?_, ?_, ?_, ?_⟩
    · rfl
    · simp only [h4, Bool.false_and]
    · simp only [h4, h3, h2]
    · simp only [List.count_cons_self, List.count_nil]
    · trivial
    · intro x hx
      simp only [storeEntry, zeroTable, a1, a2, a3, hx, false_and, and_false, if_false]
    · simp only [LevelOutcome, Bool.false_eq_true, if_false, true_and]
      refine ⟨?_, ?_⟩
      · simp only [storeEntry, zeroTable, a1, a2, a3, false_and, and_self, if_false, if_true]
      · intro x hx
        simp only [storeEntry, zeroTable, a1s, b1, b2, hx, false_and, and_false,
          if_false, if_true, and_self]
    · simp only [LevelOutcome, Bool.false_eq_true, if_false, List.count_cons_self,
        List.count_nil, true_and]
      refine ⟨?_, ?_⟩
      · simp only [storeEntry, zeroTable, b1, b2, false_and, and_self, if_false, if_true]
      · intro x hx
        simp only [storeEntry, zeroTable, a2s, b1s, c1, hx, false_and, and_false,
          if_false, if_true, and_self]
    · simp only [LevelOutcome, Bool.false_eq_true, if_false, List.count_cons_self,
        List.count_nil, true_and]
      refine ⟨?_, ?_⟩
      · simp only [storeEntry, zeroTable, c1, false_and, and_self, if_false, if_true]
      · intro x hx
        simp only [storeEntry, zeroTable, a3s, b2s, c1s, hx, false_and, and_false, if_false,
          if_true]
    · simp only [storeEntry, and_self, if_true]
    · intro t x e0 e1 e2 e3
      simp only [storeEntry, zeroTable, e0, e1, e2, e3, false_and, if_false]
  · -- level 4 present
    rw [levelEntry_present g m _ _ h4] at hpath ⊢
    simp only at hpath ⊢
    generalize ha4 : (m.tables m.TableLevel4 ix.TableLevel4Index).Address = t3 at hpath ⊢
    cases h3 : (m.tables t3 ix.TableLevel3Index).Present
    · -- level 3 not present: two tables are created
      rw [levelEntry_absent g m _ _ h3] at hpath ⊢
      simp only at hpath ⊢
      have n1 : g m.requested ≠ t3 := by
        intro h
        simp only [List.nodup_cons, List.mem_cons, not_or] at hpath
        exact hpath.2.1.1 h.symm
      have h2 : (storeEntry (zeroTable m.tables (g m.requested)) t3
          ix.TableLevel3Index ⟨true, true, g m.requested⟩ (g m.requested)
          ix.TableLevel2Index).Present = false := by
        simp only [storeEntry, zeroTable, n1, false_and, if_false, if_true]
      rw [levelEntry_absent g _ _ _ h2] at hpath ⊢
      simp only at hpath ⊢
      simp only [List.nodup_cons, List.mem_cons, List.mem_singleton, not_or, List.not_mem_nil,
        not_false_eq_true, List.nodup_nil, and_true] at hpath
      obtain ⟨⟨a1, a2, a3⟩, ⟨b1, b2⟩, c1⟩ := hpath
      have a1s : ¬ t3 = m.TableLevel4 := fun h => a1 h.symm
      have a2s : ¬ g m.requested = m.TableLevel4 := fun h => a2 h.symm
      have a3s : ¬ g (m.requested + 1) = m.TableLevel4 := fun h => a3 h.symm
      have b1s : ¬ g m.requested = t3 := fun h => b1 h.symm
      have b2s : ¬ g (m.requested + 1) = t3 := fun h => b2 h.symm
      have c1s : ¬ g (m.requested + 1) = g m.requested := fun h => c1 h.symm
      refine ⟨t3, g m.requested, g (m.requested + 1), true, false, false,
        ?_, ?_, ?_, ?_, ?_, ?_, ?_, ?_, ?_, ?_, ?_⟩
      · rfl
      · simp only [h4, h3, Bool.true_and, Bool.false_and]
      · simp only [h4, h3, h2]
      · rfl
      · trivial
      · intro x hx
        simp only [storeEntry, zeroTable, a1, a2, a3, hx, false_and, and_false, if_false]
      · simp only [LevelOutcome, if_true, h4, ha4, true_and]
        refine ⟨?_, ?_⟩
        · simp only [storeEntry, zeroTable, a1, a2, a3, false_and, and_self, if_false, if_true]
        · intro x hx
          simp only [storeEntry, zeroTable, a1s, b1, b2, hx, false_and, and_false,
            if_false, if_true, and_self]
      · simp only [LevelOutcome, Bool.false_eq_true, if_false, List.count_cons_of_ne, ne_eq,
          Bool.true_eq_false, not_false_eq_true, List.count_nil, Nat.add_zero, true_and]
        refine ⟨?_, ?_⟩
        · simp only [storeEntry, zeroTable, b1, b2, false_and, and_self, if_false, if_true]
        · intro x hx
          simp only [storeEntry, zeroTable, a2s, b1s, c1, hx, false_and, and_false,
            if_false, if_true, and_self]
      · simp only [LevelOutcome, Bool.false_eq_true, if_false, List.count_cons_self,
          List.count_cons_of_ne, ne_eq, Bool.true_eq_false, not_false_eq_true,
          List.count_nil, true_and]
        refine ⟨?_, ?_⟩
        · simp only [storeEntry, zeroTable, c1, false_and, and_self, if_false, if_true]
        · intro x hx
          simp only [storeEntry, zeroTable, a3s, b2s, c1s, hx, false_and, and_false, if_false,
            if_true]
      · simp only [storeEntry, and_self, if_true]
      · intro t x e0 e1 e2 e3
        simp only [storeEntry, zeroTable, e0, e1, e2, e3, false_and, if_false]
    · -- level 3 present
      rw [levelEntry_present g m _ _ h3] at hpath ⊢
      simp only at hpath ⊢
      generalize ha3 : (m.tables t3 ix.TableLevel3Index).Address = t2 at hpath ⊢
      cases h2 : (m.tables t2 ix.TableLevel2Index).Present
      · -- level 2 not present: one table is created
        rw [levelEntry_absent g m _ _ h2] at hpath ⊢
        simp only at hpath ⊢
        simp only [List.nodup_cons, List.mem_cons, List.mem_singleton, not_or,
          List.not_mem_nil, not_false_eq_true, List.nodup_nil, and_true] at hpath
        obtain ⟨⟨a1, a2, a3⟩, ⟨b1, b2⟩, c1⟩ := hpath
        have a1s : ¬ t3 = m.TableLevel4 := fun h => a1 h.symm
        have a2s : ¬ t2 = m.TableLevel4 := fun h => a2 h.symm
        have a3s : ¬ g m.requested = m.TableLevel4 := fun h => a3 h.symm
        have b1s : ¬ t2 = t3 := fun h => b1 h.symm
        have b2s : ¬ g m.requested = t3 := fun h => b2 h.symm
        have c1s : ¬ g m.requested = t2 := fun h => c1 h.symm
        refine ⟨t3, t2, g m.requested, true, true, false,
          ?_, ?_, ?_, ?_, ?_, ?_, ?_, ?_, ?_, ?_, ?_⟩
        · rfl
        · simp only [h4, h3, h2, ha4, ha3, Bool.true_and, Bool.and_self]
        · simp only [h4, h3, h2]
        · rfl
        · trivial
        · intro x hx
          simp only [storeEntry, zeroTable, a1, a2, a3, hx, false_and, and_false, if_false]
        · simp only [LevelOutcome, if_true, h4, ha4, true_and]
          refine ⟨?_, ?_⟩
          · simp only [storeEntry, zeroTable, a1, a2, a3, false_and, and_self, if_false,
              if_true]
          · intro x hx
            simp only [storeEntry, zeroTable, a1s, b1, b2, hx, false_and, and_false,
              if_false, if_true, and_self]
        · simp only [LevelOutcome, if_true, h3, ha3, true_and]
          refine ⟨?_, ?_⟩
          · simp only [storeEntry, zeroTable, b1, b2, false_and, and_self, if_false, if_true]
          · intro x hx
            simp only [storeEntry, zeroTable, a2s, b1s, c1, hx, false_and, and_false,
              if_false, if_true, and_self]
        · simp only [LevelOutcome, Bool.false_eq_true, if_false, List.count_cons_of_ne, ne_eq,
            Bool.true_eq_false, not_false_eq_true, List.count_nil, Nat.add_zero, true_and]
          refine ⟨?_, ?_⟩
          · simp only [storeEntry, zeroTable, c1, false_and, and_self, if_false, if_true]
          · intro x hx
            simp only [storeEntry, zeroTable, a3s, b2s, c1s, hx, false_and, and_false,
              if_false, if_true]
        · simp only [storeEntry, and_self, if_true]
        · intro t x e0 e1 e2 e3
          simp only [storeEntry, zeroTable, e0, e1, e2, e3, false_and, if_false]
      · -- level 2 present: no table is created
        rw [levelEntry_present g m _ _ h2] at hpath ⊢
        simp only at hpath ⊢
        generalize ha2 : (m.tables t2 ix.TableLevel2Index).Address = t1 at hpath ⊢
        simp only [List.nodup_cons, List.mem_cons, List.mem_singleton, not_or,
          List.not_mem_nil, not_false_eq_true, List.nodup_nil, and_true] at hpath
        obtain ⟨⟨a1, a2, a3⟩, ⟨b1, b2⟩, c1⟩ := hpath
        have a1s : ¬ t3 = m.TableLevel4 := fun h => a1 h.symm
        have a2s : ¬ t2 = m.TableLevel4 := fun h => a2 h.symm
        have a3s : ¬ t1 = m.TableLevel4 := fun h => a3 h.symm
        have b1s : ¬ t2 = t3 := fun h => b1 h.symm
        have b2s : ¬ t1 = t3 := fun h => b2 h.symm
        have c1s : ¬ t1 = t2 := fun h => c1 h.symm
        refine ⟨t3, t2, t1, true, true, true, ?_, ?_, ?_, ?_, ?_, ?_, ?_, ?_, ?_, ?_, ?_⟩
        · rfl
        · simp only [h4, h3, h2, ha4, ha3, Bool.true_and, Bool.and_self]
        · simp only [h4, h3, h2]
        · rfl
        · trivial
        · intro x hx
          simp only [storeEntry, a3, hx, false_and, and_false, if_false]
        · simp only [LevelOutcome, if_true, h4, ha4, true_and]
          refine ⟨?_, ?_⟩
          · simp only [storeEntry, a3, false_and, if_false]
          · intro x hx
            simp only [storeEntry, b2, hx, false_and, and_false, if_false]
        · simp only [LevelOutcome, if_true, h3, ha3, true_and]
          refine ⟨?_, ?_⟩
          · simp only [storeEntry, b2, false_and, if_false]
          · intro x hx
            simp only [storeEntry, c1, hx, false_and, and_false, if_false]
        · simp only [LevelOutcome, if_true, h2, ha2, true_and]
          refine ⟨?_, ?_⟩
          · simp only [storeEntry, c1, false_and, if_false]
          · intro x hx
            simp only [storeEntry, hx, and_false, if_false]
        · simp only [storeEntry, and_self, if_true]
        · intro t x e0 e1 e2 e3
          simp only [storeEntry, e3, false_and, if_false]

/-- One level of `MapPage` requests a frame exactly when the entry it reads is not present. -/
theorem levelEntry_requested (g : Nat → Nat) (m : PageTableManager) (t i : Nat) :
    (levelEntry g m t i).1.requested
      = m.requested + [(m.tables t i).Present].count false := by
  cases h : (m.tables t i).Present
  · rw [levelEntry_absent g m t i h]; rfl
  · rw [levelEntry_present g m t i h]; rfl

/-- The frames `MapPage` requests, whatever the tables hold: one for each of the three entries
it reads that is not present. -/
theorem MapPage_requested (g : Nat → Nat) (m : PageTableManager) (v p : Nat) :
    (MapPage g m v p).requested = m.requested + (readLevels g m v).count false ∧
      (readLevels g m v).count false ≤ 3 := by
  simp only [MapPage, readLevels]
  generalize PageMapIndexer.ofAddress v = ix
  rw [levelEntry_requested, levelEntry_requested, levelEntry_requested]
  generalize (m.tables m.TableLevel4 ix.TableLevel4Index).Present = a
  generalize ((levelEntry g m m.TableLevel4 ix.TableLevel4Index).1.tables
    (levelEntry g m m.TableLevel4 ix.TableLevel4Index).2 ix.TableLevel3Index).Present = b
  generalize ((levelEntry g (levelEntry g m m.TableLevel4 ix.TableLevel4Index).1
    (levelEntry g m m.TableLevel4 ix.TableLevel4Index).2 ix.TableLevel3Index).1.tables
    (levelEntry g (levelEntry g m m.TableLevel4 ix.TableLevel4Index).1
    (levelEntry g m m.TableLevel4 ix.TableLevel4Index).2 ix.TableLevel3Index).2
    ix.TableLevel2Index).Present = d
  cases a <;> cases b <;> cases d <;> exact ⟨rfl, by decide⟩

/-! ## `MapPage` and the mappings of other pages -/

/-- The table indices of an address are below 512. -/
theorem ofAddress_lt (v : Nat) :
    (PageMapIndexer.ofAddress v).TableLevel4Index < 512 ∧
    (PageMapIndexer.ofAddress v).TableLevel3Index < 512 ∧
    (PageMapIndexer.ofAddress v).TableLevel2Index < 512 ∧
    (PageMapIndexer.ofAddress v).TableLevel1Index < 512 := by
  simp only [PageMapIndexer.ofAddress]
  refine ⟨?_, ?_, ?_, ?_⟩ <;> exact Nat.mod_lt _ (by decide)

/-- In tables that form a tree, with frames of `GetPage` not in use, the four tables
`MapPage` goes through are four different tables. -/
theorem tree_path_nodup (g : Nat → Nat) (m : PageTableManager) (v : Nat)
    (hT : TableTree m) (hF : FreshFrames g m) : (tablePath g m v).Nodup := by
  obtain ⟨l4, l3, l2, _⟩ := ofAddress_lt v
  simp only [tablePath]
  generalize PageMapIndexer.ofAddress v = ix at l4 l3 l2 ⊢
  obtain ⟨F0, I0⟩ := hF m.requested (Nat.le_refl _)
  obtain ⟨F1, I1⟩ := hF (m.requested + 1) (by omega)
  obtain ⟨F2, _⟩ := hF (m.requested + 1 + 1) (by omega)
  have g01 : g m.requested ≠ g (m.requested + 1) := fun h => by
    have := I1 m.requested (Nat.le_refl _) h; omega
  have g02 : g m.requested ≠ g (m.requested + 1 + 1) := fun h => by
    have := I0 (m.requested + 1 + 1) (by omega) h.symm; omega
  have g12 : g (m.requested + 1) ≠ g (m.requested + 1 + 1) := fun h => by
    have := I1 (m.requested + 1 + 1) (by omega) h.symm; omega
  have r0 : ∀ k, m.requested ≤ k → m.TableLevel4 ≠ g k := fun k hk h =>
    (hF k hk).1 [] (by simp) (by simp) (by rw [← h]; rfl)
  cases h4 : (m.tables m.TableLevel4 ix.TableLevel4Index).Present
  · rw [levelEntry_absent g m _ _ h4]
    simp only
    have n1 : g m.requested ≠ m.TableLevel4 := fun h => r0 _ (Nat.le_refl _) h.symm
    have h3 : (storeEntry (zeroTable m.tables (g m.requested)) m.TableLevel4
        ix.TableLevel4Index ⟨true, true, g m.requested⟩ (g m.requested)
        ix.TableLevel3Index).Present = false := by
      simp only [storeEntry, zeroTable, n1, false_and, if_false, if_true]
    rw [levelEntry_absent g _ _ _ h3]
    simp only
    have n2 : g (m.requested + 1) ≠ m.TableLevel4 ∧ g (m.requested + 1) ≠ g m.requested :=
      ⟨fun h => r0 _ (by omega) h.symm, fun h => g01 h.symm⟩
    have h2 : (storeEntry (zeroTable (storeEntry (zeroTable m.tables (g m.requested))
        m.TableLevel4 ix.TableLevel4Index ⟨true, true, g m.requested⟩) (g (m.requested + 1)))
        (g m.requested) ix.TableLevel3Index ⟨true, true, g (m.requested + 1)⟩
        (g (m.requested + 1)) ix.TableLevel2Index).Present = false := by
      simp only [storeEntry, zeroTable, n2, false_and, if_false, if_true]
    rw [levelEntry_absent g _ _ _ h2]
    simp only [List.nodup_cons, List.mem_cons, List.mem_singleton, not_or, List.not_mem_nil,
      not_false_eq_true, List.nodup_nil, and_true]
    exact ⟨⟨r0 _ (Nat.le_refl _), r0 _ (by omega), r0 _ (by omega)⟩, ⟨g01, g02⟩, g12⟩
  · rw [levelEntry_present g m _ _ h4]
    simp only
    have d3 : descend m.tables m.TableLevel4 [ix.TableLevel4Index]
        = some (m.tables m.TableLevel4 ix.TableLevel4Index).Address := by
      simp only [descend, h4, if_true]
    generalize (m.tables m.TableLevel4 ix.TableLevel4Index).Address = t3 at d3 ⊢
    have b3 : ∀ i ∈ [ix.TableLevel4Index], i < 512 := by
      intro i hi; simp only [List.mem_singleton] at hi; rw [hi]; exact l4
    have e3 : m.TableLevel4 ≠ t3 := fun h => by
      have := hT [] [ix.TableLevel4Index] t3 (by simp) (by simp) (by simp) b3
        (by rw [← h]; rfl) d3
      simp at this
    have r3 : ∀ k, m.requested ≤ k → t3 ≠ g k := fun k hk h =>
      (hF k hk).1 [ix.TableLevel4Index] (by simp) b3 (by rw [← h]; exact d3)
    cases h3 : (m.tables t3 ix.TableLevel3Index).Present
    · rw [levelEntry_absent g m _ _ h3]
      simp only
      have n1 : g m.requested ≠ t3 := fun h => r3 _ (Nat.le_refl _) h.symm
      have h2 : (storeEntry (zeroTable m.tables (g m.requested)) t3
          ix.TableLevel3Index ⟨true, true, g m.requested⟩ (g m.requested)
          ix.TableLevel2Index).Present = false := by
        simp only [storeEntry, zeroTable, n1, false_and, if_false, if_true]
      rw [levelEntry_absent g _ _ _ h2]
      simp only [List.nodup_cons, List.mem_cons, List.mem_singleton, not_or, List.not_mem_nil,
        not_false_eq_true, List.nodup_nil, and_true]
      exact ⟨⟨e3, r0 _ (Nat.le_refl _), r0 _ (by omega)⟩, ⟨r3 _ (Nat.le_refl _),
        r3 _ (by omega)⟩, g01⟩
    · rw [levelEntry_present g m _ _ h3]
      simp only
      have d2 : descend m.tables m.TableLevel4 [ix.TableLevel4Index, ix.TableLevel3Index]
          = some (m.tables t3 ix.TableLevel3Index).Address := by
        simp only [descend, h4, if_true] at d3 ⊢
        simp only [Option.some.injEq] at d3
        rw [d3]
        simp only [h3, if_true]
      generalize (m.tables t3 ix.TableLevel3Index).Address = t2 at d2 ⊢
      have b2 : ∀ i ∈ [ix.TableLevel4Index, ix.TableLevel3Index], i < 512 := by
        intro i hi
        simp only [List.mem_cons, List.mem_singleton, List.not_mem_nil, or_false] at hi
        rcases hi with hi | hi <;> rw [hi] <;> assumption
      have e2 : m.TableLevel4 ≠ t2 ∧ t3 ≠ t2 := by
        constructor
        · intro h
          have := hT [] [ix.TableLevel4Index, ix.TableLevel3Index] t2 (by simp) (by simp)
            (by simp) b2 (by rw [← h]; rfl) d2
          simp at this
        · intro h
          have := hT [ix.TableLevel4Index] [ix.TableLevel4Index, ix.TableLevel3Index] t2
            (by simp) (by simp) b3 b2 (by rw [← h]; exact d3) d2
          simp at this
      have r2 : ∀ k, m.requested ≤ k → t2 ≠ g k := fun k hk h =>
        (hF k hk).1 _ (by simp) b2 (by rw [← h]; exact d2)
      cases h2 : (m.tables t2 ix.TableLevel2Index).Present
      · rw [levelEntry_absent g m _ _ h2]
        simp only [List.nodup_cons, List.mem_cons, List.mem_singleton, not_or,
          List.not_mem_nil, not_false_eq_true, List.nodup_nil, and_true]
        exact ⟨⟨e3, e2.1, r0 _ (Nat.le_refl _)⟩, ⟨e2.2, r3 _ (Nat.le_refl _)⟩,
          r2 _ (Nat.le_refl _)⟩
      · rw [levelEntry_present g m _ _ h2]
        simp only
        have d1 : descend m.tables m.TableLevel4
            [ix.TableLevel4Index, ix.TableLevel3Index, ix.TableLevel2Index]
            = some (m.tables t2 ix.TableLevel2Index).Address := by
          simp only [descend, h4, if_true] at d3 d2 ⊢
          simp only [Option.some.injEq] at d3
          rw [d3] at d2 ⊢
          simp only [h3, if_true, Option.some.injEq] at d2 ⊢
          rw [d2]
          simp only [h2, if_true]
        generalize (m.tables t2 ix.TableLevel2Index).Address = t1 at d1 ⊢
        have b1 : ∀ i ∈ [ix.TableLevel4Index, ix.TableLevel3Index, ix.TableLevel2Index],
            i < 512 := by
          intro i hi
          simp only [List.mem_cons, List.mem_singleton, List.not_mem_nil, or_false] at hi
          rcases hi with hi | hi | hi <;> rw [hi] <;> assumption
        have e1 : m.TableLevel4 ≠ t1 ∧ t3 ≠ t1 ∧ t2 ≠ t1 := by
          refine ⟨?_, ?_, ?_⟩
          · intro h
            have := hT [] _ t1 (by simp) (by simp) (by simp) b1 (by rw [← h]; rfl) d1
            simp at this
          · intro h
            have := hT [ix.TableLevel4Index] _ t1 (by simp) (by simp) b3 b1
              (by rw [← h]; exact d3) d1
            simp at this
          · intro h
            have := hT [ix.TableLevel4Index, ix.TableLevel3Index] _ t1 (by simp) (by simp) b2
              b1 (by rw [← h]; exact d2) d1
            simp at this
        simp only [List.nodup_cons, List.mem_cons, List.mem_singleton, not_or,
          List.not_mem_nil, not_false_eq_true, List.nodup_nil, and_true]
        exact ⟨⟨e3, e2.1, e1.1⟩, ⟨e2.2, e1.2.1⟩, e1.2.2⟩

/-- One more index at the end of a path of indices: one more entry followed. -/
theorem descend_snoc (tables : Nat → Nat → PageTableEntry) (j : Nat) :
    ∀ (pos : List Nat) (root u : Nat), descend tables root pos = some u →
      descend tables root (pos ++ [j]) =
        if (tables u j).Present = true then some (tables u j).Address else none
  | [], root, u, h => by
    simp only [descend, Option.some.injEq] at h
    simp only [List.nil_append, descend, h]
  | i :: pos, root, u, h => by
    simp only [descend] at h
    simp only [List.cons_append, descend]
    split_ifs at h with hp
    simp only [hp, if_true]
    exact descend_snoc tables j pos _ u h

/-- Two states of the tables that agree on every table outside a set `S` give the same walk
from any table reached along a list of indices `pos` outside the lists `bad`, when the tables
reached along lists outside `bad` are outside `S`. -/
theorem walkFrom_congr (tables tables1 : Nat → Nat → PageTableEntry) (S : Nat → Prop)
    (hframe : ∀ t, ¬ S t → ∀ x, tables1 t x = tables t x) (root : Nat)
    (bad : List Nat → Prop)
    (hoff : ∀ pos u, pos.length ≤ 3 → (∀ i ∈ pos, i < 512) →
      descend tables root pos = some u → ¬ bad pos → ¬ S u)
    (hbad : ∀ pos j, bad (pos ++ [j]) → bad pos) :
    ∀ (js pos : List Nat) (u : Nat), js ≠ [] → pos.length + js.length ≤ 4 →
      (∀ i ∈ pos, i < 512) → (∀ i ∈ js, i < 512) → descend tables root pos = some u →
      ¬ bad pos → walkFrom tables1 u js = walkFrom tables u js
  | [], _, _, h, _, _, _, _, _ => absurd rfl h
  | [j], pos, u, _, hl, hp, _, hd, hb => by
    simp only [List.length_singleton] at hl
    simp only [walkFrom]
    rw [hframe u (hoff pos u (by omega) hp hd hb) j]
  | j :: k :: rest, pos, u, _, hl, hp, hj, hd, hb => by
    simp only [List.length_cons] at hl
    simp only [walkFrom]
    rw [hframe u (hoff pos u (by omega) hp hd hb) j]
    cases hpr : (tables u j).Present
    · simp only [if_true]
    · simp only [Bool.true_eq_false, if_false]
      have hd2 := descend_snoc tables j pos root u hd
      rw [hpr] at hd2
      simp only [if_true] at hd2
      apply walkFrom_congr tables tables1 S hframe root bad hoff hbad (k :: rest) (pos ++ [j])
        _ (by simp) (by simp only [List.length_append, List.length_cons, List.length_nil]; omega)
        _ _ hd2 (fun h => hb (hbad pos j h))
      · intro i hi
        simp only [List.mem_append, List.mem_singleton] at hi
        rcases hi with hi | hi
        · exact hp i hi
        · rw [hi]; exact hj j (by simp)
      · intro i hi
        exact hj i (by simp only [List.mem_cons] at hi ⊢; exact Or.inr hi)

/-- The walk of `tableWalk` is the walk from `TableLevel4` along the four indices. -/
theorem tableWalk_eq (m : PageTableManager) (v : Nat) :
    tableWalk m v = walkFrom m.tables m.TableLevel4
      [(PageMapIndexer.ofAddress v).TableLevel4Index,
        (PageMapIndexer.ofAddress v).TableLevel3Index,
        (PageMapIndexer.ofAddress v).TableLevel2Index,
        (PageMapIndexer.ofAddress v).TableLevel1Index] := by
  simp only [tableWalk, walkFrom]

/-- Where the tables on the path of `MapPage` come from: each table below the root is reached
in the tables before the call along the indices of `v`, or is a frame of `GetPage`. -/
theorem path_origins (g : Nat → Nat) (m m1 : PageTableManager) (ix : PageMapIndexer)
    (t3 t2 t1 : Nat) (q4 q3 q2 : Bool)
    (hq : [(m.tables m.TableLevel4 ix.TableLevel4Index).Present,
        (m.tables m.TableLevel4 ix.TableLevel4Index).Present &&
          (m.tables (m.tables m.TableLevel4 ix.TableLevel4Index).Address
            ix.TableLevel3Index).Present,
        (m.tables m.TableLevel4 ix.TableLevel4Index).Present &&
          (m.tables (m.tables m.TableLevel4 ix.TableLevel4Index).Address
            ix.TableLevel3Index).Present &&
          (m.tables (m.tables (m.tables m.TableLevel4 ix.TableLevel4Index).Address
            ix.TableLevel3Index).Address ix.TableLevel2Index).Present] = [q4, q3, q2])
    (L4 : LevelOutcome g m m1 m.TableLevel4 ix.TableLevel4Index t3 ix.TableLevel3Index q4
      m.requested)
    (L3 : LevelOutcome g m m1 t3 ix.TableLevel3Index t2 ix.TableLevel2Index q3
      (m.requested + [q4].count false))
    (L2 : LevelOutcome g m m1 t2 ix.TableLevel2Index t1 ix.TableLevel1Index q2
      (m.requested + [q4, q3].count false)) :
    (descend m.tables m.TableLevel4 [ix.TableLevel4Index] = some t3 ∨
      ∃ k, m.requested ≤ k ∧ t3 = g k) ∧
    (descend m.tables m.TableLevel4 [ix.TableLevel4Index, ix.TableLevel3Index] = some t2 ∨
      ∃ k, m.requested ≤ k ∧ t2 = g k) ∧
    (descend m.tables m.TableLevel4
        [ix.TableLevel4Index, ix.TableLevel3Index, ix.TableLevel2Index] = some t1 ∨
      ∃ k, m.requested ≤ k ∧ t1 = g k) ∧
    (q3 = true → q4 = true) ∧ (q2 = true → q3 = true) := by
  simp only [List.cons.injEq, and_true] at hq
  obtain ⟨hq4, hq3, hq2⟩ := hq
  cases q4
  · -- level 4 missing
    simp only [hq4, Bool.false_and] at hq3 hq2
    subst hq3
    subst hq2
    simp only [LevelOutcome, Bool.false_eq_true, if_false] at L4 L3 L2
    exact ⟨Or.inr ⟨_, Nat.le_refl _, L4.1⟩, Or.inr ⟨_, Nat.le_add_right _ _, L3.1⟩,
      Or.inr ⟨_, Nat.le_add_right _ _, L2.1⟩, fun h => h, fun h => h⟩
  · simp only [LevelOutcome, if_true] at L4
    obtain ⟨_, p4, a4, _⟩ := L4
    have d3 : descend m.tables m.TableLevel4 [ix.TableLevel4Index] = some t3 := by
      simp only [descend, p4, a4, if_true]
    rw [a4] at hq3 hq2
    simp only [hq4, Bool.true_and] at hq3 hq2
    cases q3
    · simp only [hq3, Bool.false_and] at hq2
      subst hq2
      simp only [LevelOutcome, Bool.false_eq_true, if_false] at L3 L2
      exact ⟨Or.inl d3, Or.inr ⟨_, Nat.le_add_right _ _, L3.1⟩,
        Or.inr ⟨_, Nat.le_add_right _ _, L2.1⟩, fun _ => rfl, fun h => h⟩
    · simp only [LevelOutcome, if_true] at L3
      obtain ⟨_, p3, a3, _⟩ := L3
      have d2 : descend m.tables m.TableLevel4 [ix.TableLevel4Index, ix.TableLevel3Index]
          = some t2 := by
        simp only [descend, p4, a4, p3, a3, if_true]
      rw [a3] at hq2
      simp only [hq3, Bool.true_and] at hq2
      cases q2
      · simp only [LevelOutcome, Bool.false_eq_true, if_false] at L2
        exact ⟨Or.inl d3, Or.inl d2, Or.inr ⟨_, Nat.le_add_right _ _, L2.1⟩, fun _ => rfl,
          fun _ => rfl⟩
      · simp only [LevelOutcome, if_true] at L2
        obtain ⟨_, p2, a2, _⟩ := L2
        refine ⟨Or.inl d3, Or.inl d2, Or.inl ?_, fun _ => rfl, fun _ => rfl⟩
        simp only [descend, p4, a4, p3, a3, p2, a2, if_true]

/-- In tables that form a tree, with frames of `GetPage` not in use, a table reached along a
list of indices that is not an initial part of the indices of `v` is none of the tables on the
path of `v`. -/
theorem off_path (g : Nat → Nat) (m : PageTableManager) (hT : TableTree m)
    (hF : FreshFrames g m) (i4 i3 i2 t3 t2 t1 : Nat)
    (l4 : i4 < 512) (l3 : i3 < 512) (l2 : i2 < 512)
    (O3 : descend m.tables m.TableLevel4 [i4] = some t3 ∨ ∃ k, m.requested ≤ k ∧ t3 = g k)
    (O2 : descend m.tables m.TableLevel4 [i4, i3] = some t2 ∨ ∃ k, m.requested ≤ k ∧ t2 = g k)
    (O1 : descend m.tables m.TableLevel4 [i4, i3, i2] = some t1 ∨
      ∃ k, m.requested ≤ k ∧ t1 = g k)
    (pos : List Nat) (u : Nat) (hlen : pos.length ≤ 3) (hlt : ∀ i ∈ pos, i < 512)
    (hd : descend m.tables m.TableLevel4 pos = some u) (hb : ¬ pos <+: [i4, i3, i2]) :
    ¬ (u = m.TableLevel4 ∨ u = t3 ∨ u = t2 ∨ u = t1) := by
  have b3 : ∀ i ∈ [i4], i < 512 := by
    intro i hi; simp only [List.mem_singleton] at hi; rw [hi]; exact l4
  have b2 : ∀ i ∈ [i4, i3], i < 512 := by
    intro i hi
    simp only [List.mem_cons, List.mem_singleton, List.not_mem_nil, or_false] at hi
    rcases hi with hi | hi <;> rw [hi] <;> assumption
  have b1 : ∀ i ∈ [i4, i3, i2], i < 512 := by
    intro i hi
    simp only [List.mem_cons, List.mem_singleton, List.not_mem_nil, or_false] at hi
    rcases hi with hi | hi | hi <;> rw [hi] <;> assumption
  have key : ∀ (q : List Nat) (t : Nat), q.length ≤ 3 → (∀ i ∈ q, i < 512) →
      q <+: [i4, i3, i2] →
      (descend m.tables m.TableLevel4 q = some t ∨ ∃ k, m.requested ≤ k ∧ t = g k) →
      u ≠ t := by
    intro q t hq1 hq2 hq3 ho hu
    rcases ho with ho | ⟨k, hk, ho⟩
    · have := hT pos q t hlen hq1 hlt hq2 (by rw [hd, hu]) ho
      rw [this] at hb
      exact hb hq3
    · exact (hF k hk).1 pos hlen hlt (by rw [hd, hu, ho])
  intro hS
  rcases hS with h | h | h | h
  · exact key [] m.TableLevel4 (by simp) (by simp) (List.nil_prefix) (Or.inl rfl) h
  · exact key [i4] t3 (by simp) b3 ⟨[i3, i2], rfl⟩ O3 h
  · exact key [i4, i3] t2 (by simp) b2 ⟨[i2], rfl⟩ O2 h
  · exact key [i4, i3, i2] t1 (by simp) b1 ⟨[], rfl⟩ O1 h

/-- Two addresses with the same four table indices have the same indexer. -/
theorem indexer_ext (ix jx : PageMapIndexer) (h4 : jx.TableLevel4Index = ix.TableLevel4Index)
    (h3 : jx.TableLevel3Index = ix.TableLevel3Index)
    (h2 : jx.TableLevel2Index = ix.TableLevel2Index)
    (h1 : jx.TableLevel1Index = ix.TableLevel1Index) : ix = jx := by
  cases ix; cases jx
  simp only at h4 h3 h2 h1
  simp only [PageMapIndexer.mk.injEq, h4, h3, h2, h1, and_self]

/-- One step of the walk above the last level. -/
theorem walkFrom_step (tables : Nat → Nat → PageTableEntry) (t i j : Nat) (rest : List Nat) :
    walkFrom tables t (i :: j :: rest) =
      if (tables t i).Present = false then none
      else walkFrom tables (tables t i).Address (j :: rest) := by
  simp only [walkFrom]

/-- In tables that form a tree, with frames of `GetPage` not in use, `MapPage(v, p)` leaves
what the walk of an address with other table indices results in. -/
theorem MapPage_other (g : Nat → Nat) (m : PageTableManager) (v p w : Nat)
    (hT : TableTree m) (hF : FreshFrames g m)
    (hne : PageMapIndexer.ofAddress v ≠ PageMapIndexer.ofAddress w) :
    translate (MapPage g m v p) w = translate m w := by
  obtain ⟨l4, l3, l2, l1⟩ := ofAddress_lt v
  obtain ⟨k4, k3, k2, k1⟩ := ofAddress_lt w
  have hpath := tree_path_nodup g m v hT hF
  obtain ⟨t3, t2, t1, q4, q3, q2, _, hq, _, _, hroot, R, L4, L3, L2, _, hfr⟩ :=
    MapPage_outcome g m v p hpath
  simp only [translate, tableWalk_eq, hroot]
  simp only [presentLevels] at hq
  generalize MapPage g m v p = m1 at R L4 L3 L2 hfr ⊢
  generalize PageMapIndexer.ofAddress v = ix at hne l4 l3 l2 l1 hq R L4 L3 L2 ⊢
  generalize PageMapIndexer.ofAddress w = jx at hne k4 k3 k2 k1 ⊢
  obtain ⟨O3, O2, O1, i3, i2⟩ := path_origins g m m1 ix t3 t2 t1 q4 q3 q2 hq L4 L3 L2
  have hoff := off_path g m hT hF ix.TableLevel4Index ix.TableLevel3Index ix.TableLevel2Index
    t3 t2 t1 l4 l3 l2 O3 O2 O1
  have hframe : ∀ t, ¬ (t = m.TableLevel4 ∨ t = t3 ∨ t = t2 ∨ t = t1) →
      ∀ x, m1.tables t x = m.tables t x := by
    intro t ht x
    simp only [not_or] at ht
    exact hfr t x ht.1 ht.2.1 ht.2.2.1 ht.2.2.2
  have A := walkFrom_congr m.tables m1.tables _ hframe m.TableLevel4
    (fun pos => pos <+: [ix.TableLevel4Index, ix.TableLevel3Index, ix.TableLevel2Index])
    hoff (fun pos j h => (List.prefix_append pos [j]).trans h)
  simp only [List.cons.injEq, and_true] at hq
  obtain ⟨hq4, hq3, hq2⟩ := hq
  by_cases e4 : jx.TableLevel4Index = ix.TableLevel4Index
  swap
  · -- the walks part at level 4
    have hw : walkFrom m1.tables m.TableLevel4 [jx.TableLevel4Index, jx.TableLevel3Index,
        jx.TableLevel2Index, jx.TableLevel1Index] = walkFrom m.tables m.TableLevel4
        [jx.TableLevel4Index, jx.TableLevel3Index, jx.TableLevel2Index,
          jx.TableLevel1Index] := by
      rw [walkFrom_step m1.tables, walkFrom_step m.tables, R _ e4]
      cases hpr : (m.tables m.TableLevel4 jx.TableLevel4Index).Present
      · simp only [if_true]
      · simp only [Bool.true_eq_false, if_false]
        apply A _ [jx.TableLevel4Index] _ (by simp) (by simp)
        · intro i hi; simp only [List.mem_singleton] at hi; rw [hi]; exact k4
        · intro i hi
          simp only [List.mem_cons, List.mem_singleton, List.not_mem_nil, or_false] at hi
          rcases hi with hi | hi | hi <;> rw [hi] <;> assumption
        · simp only [descend, hpr, if_true]
        · intro h
          simp only [List.cons_prefix_cons] at h
          exact e4 h.1
    rw [hw]
  rw [e4]
  cases q4
  · -- level 4 of `v` was missing: nothing below it was mapped
    simp only [hq4, Bool.false_and] at hq3 hq2
    subst hq3
    subst hq2
    simp only [LevelOutcome, Bool.false_eq_true, if_false] at L4 L3 L2
    have hm : walkFrom m.tables m.TableLevel4 [ix.TableLevel4Index, jx.TableLevel3Index,
        jx.TableLevel2Index, jx.TableLevel1Index] = none := by
      rw [walkFrom_step, hq4]
      simp only [if_true]
    rw [hm]
    simp only [walkFrom, L4.2.1, Bool.true_eq_false, if_false]
    by_cases e3 : jx.TableLevel3Index = ix.TableLevel3Index
    swap
    · rw [L4.2.2 _ e3]
      simp only [if_true]
    rw [e3, L3.2.1]
    simp only [Bool.true_eq_false, if_false]
    by_cases e2 : jx.TableLevel2Index = ix.TableLevel2Index
    swap
    · rw [L3.2.2 _ e2]
      simp only [if_true]
    rw [e2, L2.2.1]
    simp only [Bool.true_eq_false, if_false]
    by_cases e1 : jx.TableLevel1Index = ix.TableLevel1Index
    · exact absurd (indexer_ext ix jx e4 e3 e2 e1) hne
    · rw [L2.2.2 _ e1]
      simp only [Bool.false_eq_true, if_false]
  · -- level 4 of `v` was present
    simp only [LevelOutcome, if_true] at L4
    obtain ⟨s4, p4, a4, f4⟩ := L4
    rw [a4] at hq3 hq2
    simp only [hq4, Bool.true_and] at hq3 hq2
    rw [walkFrom_step m1.tables, walkFrom_step m.tables, s4, p4, a4]
    simp only [Bool.true_eq_false, if_false]
    by_cases e3 : jx.TableLevel3Index = ix.TableLevel3Index
    swap
    · -- the walks part at level 3
      have hw : walkFrom m1.tables t3 [jx.TableLevel3Index, jx.TableLevel2Index,
          jx.TableLevel1Index] = walkFrom m.tables t3
          [jx.TableLevel3Index, jx.TableLevel2Index, jx.TableLevel1Index] := by
        rw [walkFrom_step m1.tables, walkFrom_step m.tables, f4 _ e3]
        cases hpr : (m.tables t3 jx.TableLevel3Index).Present
        · simp only [if_true]
        · simp only [Bool.true_eq_false, if_false]
          apply A _ [ix.TableLevel4Index, jx.TableLevel3Index] _ (by simp) (by simp)
          · intro i hi
            simp only [List.mem_cons, List.mem_singleton, List.not_mem_nil, or_false] at hi
            rcases hi with hi | hi <;> rw [hi] <;> assumption
          · intro i hi
            simp only [List.mem_cons, List.mem_singleton, List.not_mem_nil, or_false] at hi
            rcases hi with hi | hi <;> rw [hi] <;> assumption
          · simp only [descend, p4, a4, hpr, if_true]
          · intro h
            simp only [List.cons_prefix_cons] at h
            exact e3 h.2.1
      rw [hw]
    rw [e3]
    cases q3
    · -- level 3 of `v` was missing
      simp only [hq3, Bool.false_and] at hq2
      subst hq2
      simp only [LevelOutcome, Bool.false_eq_true, if_false] at L3 L2
      have hm : walkFrom m.tables t3 [ix.TableLevel3Index, jx.TableLevel2Index,
          jx.TableLevel1Index] = none := by
        rw [walkFrom_step, hq3]
        simp only [if_true]
      rw [hm]
      simp only [walkFrom, L3.2.1, Bool.true_eq_false, if_false]
      by_cases e2 : jx.TableLevel2Index = ix.TableLevel2Index
      swap
      · rw [L3.2.2 _ e2]
        simp only [if_true]
      rw [e2, L2.2.1]
      simp only [Bool.true_eq_false, if_false]
      by_cases e1 : jx.TableLevel1Index = ix.TableLevel1Index
      · exact absurd (indexer_ext ix jx e4 e3 e2 e1) hne
      · rw [L2.2.2 _ e1]
        simp only [Bool.false_eq_true, if_false]
    · -- level 3 of `v` was present
      simp only [LevelOutcome, if_true] at L3
      obtain ⟨s3, p3, a3, f3⟩ := L3
      rw [a3] at hq2
      simp only [hq3, Bool.true_and] at hq2
      rw [walkFrom_step m1.tables, walkFrom_step m.tables, s3, p3, a3]
      simp only [Bool.true_eq_false, if_false]
      by_cases e2 : jx.TableLevel2Index = ix.TableLevel2Index
      swap
      · -- the walks part at level 2
        have hw : walkFrom m1.tables t2 [jx.TableLevel2Index, jx.TableLevel1Index]
            = walkFrom m.tables t2 [jx.TableLevel2Index, jx.TableLevel1Index] := by
          rw [walkFrom_step m1.tables, walkFrom_step m.tables, f3 _ e2]
          cases hpr : (m.tables t2 jx.TableLevel2Index).Present
          · simp only [if_true]
          · simp only [Bool.true_eq_false, if_false]
            apply A _ [ix.TableLevel4Index, ix.TableLevel3Index, jx.TableLevel2Index] _
              (by simp) (by simp)
            · intro i hi
              simp only [List.mem_cons, List.mem_singleton, List.not_mem_nil, or_false] at hi
              rcases hi with hi | hi | hi <;> rw [hi] <;> assumption
            · intro i hi
              simp only [List.mem_singleton] at hi
              rw [hi]; exact k1
            · simp only [descend, p4, a4, p3, a3, hpr, if_true]
            · intro h
              simp only [List.cons_prefix_cons] at h
              exact e2 h.2.2.1
        rw [hw]
      rw [e2]
      cases q2
      · -- level 2 of `v` was missing
        simp only [LevelOutcome, Bool.false_eq_true, if_false] at L2
        have hm : walkFrom m.tables t2 [ix.TableLevel2Index, jx.TableLevel1Index] = none := by
          rw [walkFrom_step, hq2]
          simp only [if_true]
        rw [hm]
        simp only [walkFrom, L2.2.1, Bool.true_eq_false, if_false]
        by_cases e1 : jx.TableLevel1Index = ix.TableLevel1Index
        · exact absurd (indexer_ext ix jx e4 e3 e2 e1) hne
        · rw [L2.2.2 _ e1]
          simp only [Bool.false_eq_true, if_false]
      · -- all three levels of `v` were present
        simp only [LevelOutcome, if_true] at L2
        obtain ⟨s2, p2, a2, f2⟩ := L2
        rw [walkFrom_step m1.tables, walkFrom_step m.tables, s2, p2, a2]
        simp only [Bool.true_eq_false, if_false]
        by_cases e1 : jx.TableLevel1Index = ix.TableLevel1Index
        · exact absurd (indexer_ext ix jx e4 e3 e2 e1) hne
        · simp only [walkFrom]
          rw [f2 _ e1]

/-! ## `MapPage` keeps the tables a tree -/

/-- After `MapPage`, the entry of a level on the path is present and names the next table of
the path, whether it was there before or was created. -/
theorem LevelOutcome.entry {g : Nat → Nat} {m m1 : PageTableManager}
    {table index child childIndex : Nat} {q : Bool} {k : Nat}
    (h : LevelOutcome g m m1 table index child childIndex q k) :
    (m1.tables table index).Present = true ∧ (m1.tables table index).Address = child := by
  cases q
  · simp only [LevelOutcome, Bool.false_eq_true, if_false] at h
    rw [h.2.1]
    exact ⟨rfl, rfl⟩
  · simp only [LevelOutcome, if_true] at h
    rw [h.1]
    exact ⟨h.2.1, h.2.2.1⟩

/-- The entries of a table on the path other than the one of `v`: as before the call when
the table was there, zero when it was created. -/
theorem LevelOutcome.others {g : Nat → Nat} {m m1 : PageTableManager}
    {table index child childIndex : Nat} {q : Bool} {k : Nat}
    (h : LevelOutcome g m m1 table index child childIndex q k) (x : Nat)
    (hx : x ≠ childIndex) :
    m1.tables child x = if q = true then m.tables child x else ⟨false, false, 0⟩ := by
  cases q
  · simp only [LevelOutcome, Bool.false_eq_true, if_false] at h ⊢
    exact h.2.2 x hx
  · simp only [LevelOutcome, if_true] at h ⊢
    exact h.2.2.2 x hx

/-- Two states of the tables that agree on every table outside a set `S` lead to the same
table from any table reached along a list of indices outside the lists `bad`, when the tables
reached along lists outside `bad` are outside `S`. -/
theorem descend_congr (tables tables1 : Nat → Nat → PageTableEntry) (S : Nat → Prop)
    (hframe : ∀ t, ¬ S t → ∀ x, tables1 t x = tables t x) (root : Nat)
    (bad : List Nat → Prop)
    (hoff : ∀ pos u, pos.length ≤ 3 → (∀ i ∈ pos, i < 512) →
      descend tables root pos = some u → ¬ bad pos → ¬ S u)
    (hbad : ∀ pos j, bad (pos ++ [j]) → bad pos) :
    ∀ (js pos : List Nat) (u : Nat), pos.length + js.length ≤ 3 →
      (∀ i ∈ pos, i < 512) → (∀ i ∈ js, i < 512) → descend tables root pos = some u →
      ¬ bad pos → descend tables1 u js = descend tables u js
  | [], _, _, _, _, _, _, _ => rfl
  | j :: rest, pos, u, hl, hp, hj, hd, hb => by
    simp only [List.length_cons] at hl
    simp only [descend]
    rw [hframe u (hoff pos u (by omega) hp hd hb) j]
    cases hpr : (tables u j).Present
    · simp only [Bool.false_eq_true, if_false]
    · simp only [if_true]
      have hd2 := descend_snoc tables j pos root u hd
      rw [hpr] at hd2
      simp only [if_true] at hd2
      apply descend_congr tables tables1 S hframe root bad hoff hbad rest (pos ++ [j])
        _ (by simp only [List.length_append, List.length_cons, List.length_nil]; omega)
        _ _ hd2 (fun h => hb (hbad pos j h))
      · intro i hi
        simp only [List.mem_append, List.mem_singleton] at hi
        rcases hi with hi | hi
        · exact hp i hi
        · rw [hi]; exact hj j (by simp)
      · intro i hi
        exact hj i (by simp only [List.mem_cons]; exact Or.inr hi)

/-- The lists that are an initial part of a list of three. -/
theorem initial_cases (a b c : Nat) (p : List Nat) (h : p <+: [a, b, c]) :
    p = [] ∨ p = [a] ∨ p = [a, b] ∨ p = [a, b, c] := by
  rcases p with _ | ⟨x, _ | ⟨y, _ | ⟨z, _ | ⟨w, r⟩⟩⟩⟩
  · exact Or.inl rfl
  · simp only [List.cons_prefix_cons] at h
    rw [h.1]; exact Or.inr (Or.inl rfl)
  · simp only [List.cons_prefix_cons] at h
    rw [h.1, h.2.1]; exact Or.inr (Or.inr (Or.inl rfl))
  · simp only [List.cons_prefix_cons] at h
    rw [h.1, h.2.1, h.2.2.1]; exact Or.inr (Or.inr (Or.inr rfl))
  · have := h.length_le
    simp only [List.length_cons, List.length_nil] at this
    omega

/-- The frames on the path that `MapPage` created are frames of `GetPage` numbered below the
count of requests after the call. -/
theorem path_created (g : Nat → Nat) (m m1 : PageTableManager) (ix : PageMapIndexer)
    (t3 t2 t1 : Nat) (q4 q3 q2 : Bool)
    (hq : [(m.tables m.TableLevel4 ix.TableLevel4Index).Present,
        (m.tables m.TableLevel4 ix.TableLevel4Index).Present &&
          (m.tables (m.tables m.TableLevel4 ix.TableLevel4Index).Address
            ix.TableLevel3Index).Present,
        (m.tables m.TableLevel4 ix.TableLevel4Index).Present &&
          (m.tables (m.tables m.TableLevel4 ix.TableLevel4Index).Address
            ix.TableLevel3Index).Present &&
          (m.tables (m.tables (m.tables m.TableLevel4 ix.TableLevel4Index).Address
            ix.TableLevel3Index).Address ix.TableLevel2Index).Present] = [q4, q3, q2])
    (L4 : LevelOutcome g m m1 m.TableLevel4 ix.TableLevel4Index t3 ix.TableLevel3Index q4
      m.requested)
    (L3 : LevelOutcome g m m1 t3 ix.TableLevel3Index t2 ix.TableLevel2Index q3
      (m.requested + [q4].count false))
    (L2 : LevelOutcome g m m1 t2 ix.TableLevel2Index t1 ix.TableLevel1Index q2
      (m.requested + [q4, q3].count false)) :
    (descend m.tables m.TableLevel4 [ix.TableLevel4Index] = some t3 ∨
      ∃ k, m.requested ≤ k ∧ k < m.requested + [q4, q3, q2].count false ∧ t3 = g k) ∧
    (descend m.tables m.TableLevel4 [ix.TableLevel4Index, ix.TableLevel3Index] = some t2 ∨
      ∃ k, m.requested ≤ k ∧ k < m.requested + [q4, q3, q2].count false ∧ t2 = g k) ∧
    (descend m.tables m.TableLevel4
        [ix.TableLevel4Index, ix.TableLevel3Index, ix.TableLevel2Index] = some t1 ∨
      ∃ k, m.requested ≤ k ∧ k < m.requested + [q4, q3, q2].count false ∧ t1 = g k) := by
  obtain ⟨O3, O2, O1, i3, i2⟩ := path_origins g m m1 ix t3 t2 t1 q4 q3 q2 hq L4 L3 L2
  cases q4
  · have h3 : q3 = false := by
      cases q3
      · rfl
      · exact absurd (i3 rfl) (by simp)
    have h2 : q2 = false := by
      cases q2
      · rfl
      · exact absurd (i2 rfl) (by rw [h3]; simp)
    subst h3
    subst h2
    simp only [LevelOutcome, Bool.false_eq_true, if_false] at L4 L3 L2
    exact ⟨Or.inr ⟨_, Nat.le_refl _, Nat.lt_add_of_pos_right (by decide), L4.1⟩,
      Or.inr ⟨_, Nat.le_add_right _ _, Nat.add_lt_add_left (by decide) _, L3.1⟩,
      Or.inr ⟨_, Nat.le_add_right _ _, Nat.add_lt_add_left (by decide) _, L2.1⟩⟩
  · have d3 : descend m.tables m.TableLevel4 [ix.TableLevel4Index] = some t3 := by
      rcases O3 with o | ⟨k, _, o⟩
      · exact o
      · simp only [LevelOutcome, if_true] at L4
        simp only [descend, L4.2.1, L4.2.2.1, if_true]
    cases q3
    · have h2 : q2 = false := by
        cases q2
        · rfl
        · exact absurd (i2 rfl) (by simp)
      subst h2
      simp only [LevelOutcome, Bool.false_eq_true, if_false] at L3 L2
      exact ⟨Or.inl d3, Or.inr ⟨_, Nat.le_add_right _ _, Nat.add_lt_add_left (by decide) _, L3.1⟩,
        Or.inr ⟨_, Nat.le_add_right _ _, Nat.add_lt_add_left (by decide) _, L2.1⟩⟩
    · have d2 : descend m.tables m.TableLevel4
          [ix.TableLevel4Index, ix.TableLevel3Index] = some t2 := by
        simp only [LevelOutcome, if_true] at L4 L3
        simp only [descend, L4.2.1, L4.2.2.1, L3.2.1, L3.2.2.1, if_true]
      cases q2
      · simp only [LevelOutcome, Bool.false_eq_true, if_false] at L2
        exact ⟨Or.inl d3, Or.inl d2, Or.inr ⟨_, Nat.le_add_right _ _, Nat.add_lt_add_left (by decide) _, L2.1⟩⟩
      · simp only [LevelOutcome, if_true] at L4 L3 L2
        refine ⟨Or.inl d3, Or.inl d2, Or.inl ?_⟩
        simp only [descend, L4.2.1, L4.2.2.1, L3.2.1, L3.2.2.1, L2.2.1, L2.2.2.1, if_true]

/-- The tables after `MapPage(v, p)`, in tables that formed a tree with the frames of
`GetPage` not in use: along the indices of `v` the tables of the path are reached; along any
other list of indices a table is reached only if it was reached before the call. -/
theorem MapPage_descend (g : Nat → Nat) (m : PageTableManager) (v p : Nat)
    (hT : TableTree m) (hF : FreshFrames g m) :
    ∃ t3 t2 t1 c, tablePath g m v = [m.TableLevel4, t3, t2, t1] ∧
      (MapPage g m v p).TableLevel4 = m.TableLevel4 ∧
      (MapPage g m v p).requested = m.requested + c ∧
      descend (MapPage g m v p).tables m.TableLevel4
        [(PageMapIndexer.ofAddress v).TableLevel4Index] = some t3 ∧
      descend (MapPage g m v p).tables m.TableLevel4
        [(PageMapIndexer.ofAddress v).TableLevel4Index,
          (PageMapIndexer.ofAddress v).TableLevel3Index] = some t2 ∧
      descend (MapPage g m v p).tables m.TableLevel4
        [(PageMapIndexer.ofAddress v).TableLevel4Index,
          (PageMapIndexer.ofAddress v).TableLevel3Index,
          (PageMapIndexer.ofAddress v).TableLevel2Index] = some t1 ∧
      (∀ pos u, pos.length ≤ 3 → (∀ i ∈ pos, i < 512) →
        ¬ pos <+: [(PageMapIndexer.ofAddress v).TableLevel4Index,
          (PageMapIndexer.ofAddress v).TableLevel3Index,
          (PageMapIndexer.ofAddress v).TableLevel2Index] →
        descend (MapPage g m v p).tables m.TableLevel4 pos = some u →
        descend m.tables m.TableLevel4 pos = some u ∧
          ¬ (u = m.TableLevel4 ∨ u = t3 ∨ u = t2 ∨ u = t1)) ∧
      (descend m.tables m.TableLevel4 [(PageMapIndexer.ofAddress v).TableLevel4Index]
          = some t3 ∨ ∃ k, m.requested ≤ k ∧ k < m.requested + c ∧ t3 = g k) ∧
      (descend m.tables m.TableLevel4 [(PageMapIndexer.ofAddress v).TableLevel4Index,
          (PageMapIndexer.ofAddress v).TableLevel3Index] = some t2 ∨
        ∃ k, m.requested ≤ k ∧ k < m.requested + c ∧ t2 = g k) ∧
      (descend m.tables m.TableLevel4 [(PageMapIndexer.ofAddress v).TableLevel4Index,
          (PageMapIndexer.ofAddress v).TableLevel3Index,
          (PageMapIndexer.ofAddress v).TableLevel2Index] = some t1 ∨
        ∃ k, m.requested ≤ k ∧ k < m.requested + c ∧ t1 = g k) := by
  obtain ⟨l4, l3, l2, l1⟩ := ofAddress_lt v
  have hpath := tree_path_nodup g m v hT hF
  obtain ⟨t3, t2, t1, q4, q3, q2, hp, hq, _, hreq, hroot, R, L4, L3, L2, _, hfr⟩ :=
    MapPage_outcome g m v p hpath
  simp only [presentLevels] at hq
  refine ⟨t3, t2, t1, [q4, q3, q2].count false, hp, hroot, hreq, ?_⟩
  generalize MapPage g m v p = m1 at R L4 L3 L2 hfr ⊢
  generalize PageMapIndexer.ofAddress v = ix at l4 l3 l2 l1 hq R L4 L3 L2 ⊢
  obtain ⟨O3, O2, O1, i3, i2⟩ := path_origins g m m1 ix t3 t2 t1 q4 q3 q2 hq L4 L3 L2
  obtain ⟨C3, C2, C1⟩ := path_created g m m1 ix t3 t2 t1 q4 q3 q2 hq L4 L3 L2
  have hoff := off_path g m hT hF ix.TableLevel4Index ix.TableLevel3Index ix.TableLevel2Index
    t3 t2 t1 l4 l3 l2 O3 O2 O1
  have hframe : ∀ t, ¬ (t = m.TableLevel4 ∨ t = t3 ∨ t = t2 ∨ t = t1) →
      ∀ x, m1.tables t x = m.tables t x := by
    intro t ht x
    simp only [not_or] at ht
    exact hfr t x ht.1 ht.2.1 ht.2.2.1 ht.2.2.2
  have A := descend_congr m.tables m1.tables _ hframe m.TableLevel4
    (fun pos => pos <+: [ix.TableLevel4Index, ix.TableLevel3Index, ix.TableLevel2Index])
    hoff (fun pos j h => (List.prefix_append pos [j]).trans h)
  obtain ⟨E4p, E4a⟩ := L4.entry
  obtain ⟨E3p, E3a⟩ := L3.entry
  obtain ⟨E2p, E2a⟩ := L2.entry
  have X4 := L4.others
  have X3 := L3.others
  have D3 : descend m1.tables m.TableLevel4 [ix.TableLevel4Index] = some t3 := by
    simp only [descend, E4p, E4a, if_true]
  have D2 : descend m1.tables m.TableLevel4 [ix.TableLevel4Index, ix.TableLevel3Index]
      = some t2 := by
    simp only [descend, E4p, E4a, E3p, E3a, if_true]
  have D1 : descend m1.tables m.TableLevel4
      [ix.TableLevel4Index, ix.TableLevel3Index, ix.TableLevel2Index] = some t1 := by
    simp only [descend, E4p, E4a, E3p, E3a, E2p, E2a, if_true]
  refine ⟨D3, D2, D1, ?_, C3, C2, C1⟩
  intro pos u hlen hlt hb hd
  suffices hs : descend m.tables m.TableLevel4 pos = some u from
    ⟨hs, hoff pos u hlen hlt hs hb⟩
  rcases pos with _ | ⟨j4, r⟩
  · exact absurd List.nil_prefix hb
  have k4 : j4 < 512 := hlt j4 (by simp)
  by_cases e4 : j4 = ix.TableLevel4Index
  swap
  · -- the lists part at level 4
    simp only [descend] at hd ⊢
    rw [R _ e4] at hd
    cases hpr : (m.tables m.TableLevel4 j4).Present
    · rw [hpr] at hd
      simp only [Bool.false_eq_true, if_false] at hd
      cases hd
    · rw [hpr] at hd
      simp only [if_true] at hd ⊢
      rw [← hd]
      symm
      apply A r [j4] _ (by simp only [List.length_cons, List.length_nil] at hlen ⊢; omega)
      · intro i hi; simp only [List.mem_singleton] at hi; rw [hi]; exact k4
      · intro i hi; exact hlt i (by simp only [List.mem_cons]; exact Or.inr hi)
      · simp only [descend, hpr, if_true]
      · intro h
        simp only [List.cons_prefix_cons] at h
        exact e4 h.1
  subst e4
  rcases r with _ | ⟨j3, r⟩
  · exact absurd ⟨[ix.TableLevel3Index, ix.TableLevel2Index], rfl⟩ hb
  have k3 : j3 < 512 := hlt j3 (by simp)
  by_cases e3 : j3 = ix.TableLevel3Index
  swap
  · -- the lists part at level 3
    simp only [descend, E4p, E4a, if_true] at hd
    rw [X4 _ e3] at hd
    cases q4
    · simp only [Bool.false_eq_true, if_false] at hd
      cases hd
    · simp only [if_true] at hd
      simp only [LevelOutcome, if_true] at L4
      simp only [descend, L4.2.1, L4.2.2.1, if_true]
      cases hpr : (m.tables t3 j3).Present
      · rw [hpr] at hd
        simp only [Bool.false_eq_true, if_false] at hd
        cases hd
      · rw [hpr] at hd
        simp only [if_true] at hd ⊢
        rw [← hd]
        symm
        apply A r [ix.TableLevel4Index, j3] _ (by simp only [List.length_cons, List.length_nil] at hlen ⊢; omega)
        · intro i hi
          simp only [List.mem_cons, List.mem_singleton, List.not_mem_nil, or_false] at hi
          rcases hi with hi | hi <;> rw [hi] <;> assumption
        · intro i hi
          exact hlt i (by simp only [List.mem_cons]; exact Or.inr (Or.inr hi))
        · simp only [descend, L4.2.1, L4.2.2.1, hpr, if_true]
        · intro h
          simp only [List.cons_prefix_cons] at h
          exact e3 h.2.1
  subst e3
  rcases r with _ | ⟨j2, r⟩
  · exact absurd ⟨[ix.TableLevel2Index], rfl⟩ hb
  have hr : r = [] := by
    simp only [List.length_cons] at hlen
    exact List.eq_nil_of_length_eq_zero (by omega)
  subst hr
  by_cases e2 : j2 = ix.TableLevel2Index
  · subst e2
    exact absurd ⟨[], rfl⟩ hb
  · simp only [descend, E4p, E4a, E3p, E3a, if_true] at hd
    rw [X3 _ e2] at hd
    cases q3
    · simp only [Bool.false_eq_true, if_false] at hd
      cases hd
    · have h4 := i3 rfl
      subst h4
      simp only [if_true] at hd
      simp only [LevelOutcome, if_true] at L4 L3
      simp only [descend, L4.2.1, L4.2.2.1, L3.2.1, L3.2.2.1, if_true]
      exact hd

/-- `MapPage` keeps the assumptions on the tables: in tables that form a tree, with the frames
`GetPage` is still to return not in use, the tables after `MapPage(v, p)` form a tree and the
frames `GetPage` is then still to return are not in use. -/
theorem MapPage_tree (g : Nat → Nat) (m : PageTableManager) (v p : Nat)
    (hT : TableTree m) (hF : FreshFrames g m) :
    TableTree (MapPage g m v p) ∧ FreshFrames g (MapPage g m v p) := by
  obtain ⟨l4, l3, l2, _⟩ := ofAddress_lt v
  have hnd := tree_path_nodup g m v hT hF
  obtain ⟨t3, t2, t1, c, hp, hroot, hreq, D3, D2, D1, hnp, C3, C2, C1⟩ :=
    MapPage_descend g m v p hT hF
  rw [hp] at hnd
  simp only [List.nodup_cons, List.mem_cons, List.mem_singleton, not_or, List.not_mem_nil,
    not_false_eq_true, List.nodup_nil, and_true] at hnd
  obtain ⟨⟨a1, a2, a3⟩, ⟨b1, b2⟩, c1⟩ := hnd
  have a1s : ¬ t3 = m.TableLevel4 := fun h => a1 h.symm
  have a2s : ¬ t2 = m.TableLevel4 := fun h => a2 h.symm
  have a3s : ¬ t1 = m.TableLevel4 := fun h => a3 h.symm
  have b1s : ¬ t2 = t3 := fun h => b1 h.symm
  have b2s : ¬ t1 = t3 := fun h => b2 h.symm
  have c1s : ¬ t1 = t2 := fun h => c1 h.symm
  generalize MapPage g m v p = m1 at hroot hreq D3 D2 D1 hnp ⊢
  generalize PageMapIndexer.ofAddress v = ix at l4 l3 l2 D3 D2 D1 hnp C3 C2 C1
  have D0 : descend m1.tables m.TableLevel4 [] = some m.TableLevel4 := rfl
  -- a table reached along the indices of `v` is a table of the path
  have onPath : ∀ pos t,
      pos <+: [ix.TableLevel4Index, ix.TableLevel3Index, ix.TableLevel2Index] →
      descend m1.tables m.TableLevel4 pos = some t →
      (pos = [] ∧ t = m.TableLevel4) ∨ (pos = [ix.TableLevel4Index] ∧ t = t3) ∨
      (pos = [ix.TableLevel4Index, ix.TableLevel3Index] ∧ t = t2) ∨
      (pos = [ix.TableLevel4Index, ix.TableLevel3Index, ix.TableLevel2Index] ∧ t = t1) := by
    intro pos t hb hd
    rcases initial_cases _ _ _ pos hb with h | h | h | h
    · rw [h, D0] at hd
      exact Or.inl ⟨h, (Option.some.inj hd).symm⟩
    · rw [h, D3] at hd
      exact Or.inr (Or.inl ⟨h, (Option.some.inj hd).symm⟩)
    · rw [h, D2] at hd
      exact Or.inr (Or.inr (Or.inl ⟨h, (Option.some.inj hd).symm⟩))
    · rw [h, D1] at hd
      exact Or.inr (Or.inr (Or.inr ⟨h, (Option.some.inj hd).symm⟩))
  constructor
  · -- the tables form a tree
    intro p q t hpl hql hpb hqb hdp hdq
    rw [hroot] at hdp hdq
    by_cases bp : p <+: [ix.TableLevel4Index, ix.TableLevel3Index, ix.TableLevel2Index]
    · by_cases bq : q <+: [ix.TableLevel4Index, ix.TableLevel3Index, ix.TableLevel2Index]
      · rcases onPath p t bp hdp with ⟨e1, f1⟩ | ⟨e1, f1⟩ | ⟨e1, f1⟩ | ⟨e1, f1⟩ <;>
        rcases onPath q t bq hdq with ⟨e2, f2⟩ | ⟨e2, f2⟩ | ⟨e2, f2⟩ | ⟨e2, f2⟩ <;>
        first
          | exact absurd (f1.symm.trans f2) (by assumption)
          | rw [e1, e2]
      · have h := (hnp q t hql hqb bq hdq).2
        simp only [not_or] at h
        rcases onPath p t bp hdp with ⟨_, f1⟩ | ⟨_, f1⟩ | ⟨_, f1⟩ | ⟨_, f1⟩
        · exact absurd f1 h.1
        · exact absurd f1 h.2.1
        · exact absurd f1 h.2.2.1
        · exact absurd f1 h.2.2.2
    · by_cases bq : q <+: [ix.TableLevel4Index, ix.TableLevel3Index, ix.TableLevel2Index]
      · have h := (hnp p t hpl hpb bp hdp).2
        simp only [not_or] at h
        rcases onPath q t bq hdq with ⟨_, f1⟩ | ⟨_, f1⟩ | ⟨_, f1⟩ | ⟨_, f1⟩
        · exact absurd f1 h.1
        · exact absurd f1 h.2.1
        · exact absurd f1 h.2.2.1
        · exact absurd f1 h.2.2.2
      · exact hT p q t hpl hql hpb hqb (hnp p t hpl hpb bp hdp).1 (hnp q t hql hqb bq hdq).1
  · -- the frames still to come are not in use
    intro k hk
    rw [hreq] at hk
    have hk0 : m.requested ≤ k := by omega
    obtain ⟨F, I⟩ := hF k hk0
    have created : ∀ (pos : List Nat) (t : Nat), pos.length ≤ 3 → (∀ i ∈ pos, i < 512) →
        (descend m.tables m.TableLevel4 pos = some t ∨
          ∃ j, m.requested ≤ j ∧ j < m.requested + c ∧ t = g j) → t ≠ g k := by
      intro pos t h1 h2 ho ht
      rcases ho with ho | ⟨j, hj1, hj2, ho⟩
      · exact F pos h1 h2 (by rw [ho, ht])
      · have := I j hj1 (by rw [← ho, ht])
        omega
    refine ⟨?_, fun j hj h => I j (by omega) h⟩
    intro pos hl hb hd
    rw [hroot] at hd
    by_cases bp : pos <+: [ix.TableLevel4Index, ix.TableLevel3Index, ix.TableLevel2Index]
    · rcases onPath pos _ bp hd with ⟨_, f1⟩ | ⟨_, f1⟩ | ⟨_, f1⟩ | ⟨_, f1⟩
      · exact created [] m.TableLevel4 (by simp) (by simp) (Or.inl rfl) f1.symm
      · refine created [ix.TableLevel4Index] t3 (by simp) ?_ C3 f1.symm
        intro i hi; simp only [List.mem_singleton] at hi; rw [hi]; exact l4
      · refine created [ix.TableLevel4Index, ix.TableLevel3Index] t2 (by simp) ?_ C2 f1.symm
        intro i hi
        simp only [List.mem_cons, List.mem_singleton, List.not_mem_nil, or_false] at hi
        rcases hi with hi | hi <;> rw [hi] <;> assumption
      · refine created [ix.TableLevel4Index, ix.TableLevel3Index, ix.TableLevel2Index] t1
          (by simp) ?_ C1 f1.symm
        intro i hi
        simp only [List.mem_cons, List.mem_singleton, List.not_mem_nil, or_false] at hi
        rcases hi with hi | hi | hi <;> rw [hi] <;> assumption
    · exact F pos hl hb (hnp pos _ hl hb bp hd).1

/-- Addresses with the same table indices have the same bits 12 to 47. -/
theorem ofAddress_inj (v w : Nat)
    (h : PageMapIndexer.ofAddress v = PageMapIndexer.ofAddress w) :
    v / 4096 % 2 ^ 36 = w / 4096 % 2 ^ 36 := by
  simp only [PageMapIndexer.ofAddress, PageMapIndexer.mk.injEq] at h
  obtain ⟨h4, h3, h2, h1⟩ := h
  norm_num at h4 h3 h2 h1 ⊢
  omega

/-- The empty sample tables form a tree. -/
theorem emptyTables_tree : TableTree emptyTables := by
  intro p q t _ _ _ _ hp hq
  cases p with
  | nil =>
    cases q with
    | nil => rfl
    | cons j q => simp [descend, emptyTables] at hq
  | cons i p => simp [descend, emptyTables] at hp

/-- The frames of the sample allocator are not in use in the empty sample tables. -/
theorem emptyTables_fresh : FreshFrames sampleGetPage emptyTables := by
  intro k _
  constructor
  · intro p _ _ h
    cases p with
    | nil =>
      simp only [descend, emptyTables, sampleGetPage, Option.some.injEq] at h
      omega
    | cons i p => simp [descend, emptyTables] at h
  · intro j _ h
    simp only [sampleGetPage] at h
    omega

/-! ## The cursor system calls -/

/-- The upper half of `RAX` after `SysGetCrsr`: the cursor's `X` shifted into place keeps the
32-bit pattern of `X`, whatever its sign. -/
theorem shifted_X (x : Nat) :
    (toUInt64 (toInt32 x) <<< 32) % U64 = 2 ^ 32 * (x % 4294967296) := by
  have hx : x % 4294967296 < 4294967296 := Nat.mod_lt _ (by decide)
  unfold toInt32 toUInt64
  rw [Nat.shiftLeft_eq]
  generalize x % 4294967296 = a at hx
  simp only [U64]
  split_ifs with h <;> omega

/-- For a cursor with `Y ≥ 0` the packing of `SysGetCrsr` is faithful: after `SysSetCrsr` with
`R8 = x` and `R9 = y`, the low 31 bits of `y` holding a non-negative value, the upper 32 bits
of `RAX` are the pattern of `x` and the lower 32 bits the pattern of `y`. -/
theorem cursor_round_trip_nonneg (r : Renderer) (regs : Registers)
    (hy : regs.R9 % 4294967296 < 2147483648) :
    (SysGetCrsr (SysSetCrsr r regs) regs).RAX / 2 ^ 32 = regs.R8 % 4294967296 ∧
    (SysGetCrsr (SysSetCrsr r regs) regs).RAX % 2 ^ 32 = regs.R9 % 4294967296 := by
  have hrax : (SysGetCrsr (SysSetCrsr r regs) regs).RAX
      = 2 ^ 32 * (regs.R8 % 4294967296) + regs.R9 % 4294967296 := by
    simp only [SysGetCrsr, SysSetCrsr]
    rw [shifted_X]
    have hY : toUInt64 (toInt32 regs.R9) = regs.R9 % 4294967296 := by
      unfold toInt32 toUInt64
      rw [if_pos hy]
      omega
    rw [hY]
    exact (Nat.mul_add_lt_is_or (by omega) _).symm
  rw [hrax]
  constructor <;> omega

/-! ## The claims -/

/-- C1 fails as stated. On the kernel heap of 16 pages (one free segment of `65504` bytes,
`H = 32`), `s1 = s2 = 32752` satisfy `s1 + s2 ≤ 16 * 4096 - H`; the second `Malloc` does not
fit behind the header of the second block, so the heap grows by 8 pages, and after both
`Free` calls (in either order) the single free segment has `98272` bytes, not `65504`. -/
theorem two_blocks_coalesce_counterexample :
    32752 + 32752 ≤ 16 * 4096 - sampleConfig.HeaderSize ∧
    (runOps sampleConfig 4 1 kernelHeap
        [.malloc 32752, .malloc 32752, .free (HEAP_ADDRESS + 32),
          .free (HEAP_ADDRESS + 32 + 32752 + 32)]).map (fun r => (r.1, r.2.segments 4))
      = some ([HEAP_ADDRESS + 32, HEAP_ADDRESS + 32 + 32752 + 32],
          [(HEAP_ADDRESS, ⟨98272, 0, 0, true⟩)]) ∧
    (runOps sampleConfig 4 1 kernelHeap
        [.malloc 32752, .malloc 32752, .free (HEAP_ADDRESS + 32 + 32752 + 32),
          .free (HEAP_ADDRESS + 32)]).map (fun r => (r.1, r.2.segments 4))
      = some ([HEAP_ADDRESS + 32, HEAP_ADDRESS + 32 + 32752 + 32],
          [(HEAP_ADDRESS, ⟨98272, 0, 0, true⟩)]) ∧
    98272 ≠ 16 * 4096 - sampleConfig.HeaderSize := by
  decide

/-- C1, as amended. From the heap of `InitializeHeap(base, n)`, two non-zero requests whose
rounded sizes fit the initial segment together with the one extra header the second block
needs are served without growing the heap, and after `Free` on both pointers, in either
order, the list is again one free segment of `n * 4096 - H` bytes. -/
theorem two_blocks_coalesce (c : Config) (hc : c.Sane) (hp0 : Heap) (base n s1 s2 : Nat)
    (hb : 0 < base) (hn : 1 ≤ n) (he : base + n * 4096 < U64) (h63 : n * 4096 ≤ 2 ^ 63)
    (h1 : 0 < s1) (h2 : 0 < s2)
    (hfit : roundedSize c s1 + c.HeaderSize + roundedSize c s2 ≤ n * 4096 - c.HeaderSize)
    (fuel retries : Nat) (hfuel : 2 ≤ fuel) :
    ∃ p1 hp1 p2 hp2,
      Malloc c fuel retries (InitializeHeap c hp0 base n) s1 = some (p1, hp1) ∧
      Malloc c fuel retries hp1 s2 = some (p2, hp2) ∧
      (∀ k, 1 ≤ k → (Free c (Free c hp2 p1) p2).segments k =
        [(base, ⟨n * 4096 - c.HeaderSize, 0, 0, true⟩)]) ∧
      (∀ k, 1 ≤ k → (Free c (Free c hp2 p2) p1).segments k =
        [(base, ⟨n * 4096 - c.HeaderSize, 0, 0, true⟩)]) := by
  have hH := hc.header_pos
  have hH2 := hc.header_lt
  obtain ⟨W0, hS0, _, _⟩ := InitializeHeap_spec c hc hp0 base n hb hn he
  generalize InitializeHeap c hp0 base n = h0 at W0 hS0 ⊢
  generalize hr1 : roundedSize c s1 = r1 at hfit
  generalize hr2 : roundedSize c s2 = r2 at hfit
  have hB2 : c.BLOCK_SIZE ≤ r2 := by rw [← hr2]; exact block_le_roundedSize c s2 h2
  have hB1 : c.BLOCK_SIZE ≤ r1 := by rw [← hr1]; exact block_le_roundedSize c s1 h1
  have hB := hc.block_pos
  -- the first block
  have hsf1 : splitFits c (n * 4096 - c.HeaderSize) r1 :=
    (splitFits_iff c _ r1 (by omega) (by omega) hH2).2 ⟨by omega, by omega⟩
  have hal1 : allocList c (roundedSize c s1) h0.HeapStart [⟨n * 4096 - c.HeaderSize, true⟩]
      = some (base, [⟨r1, false⟩, ⟨n * 4096 - c.HeaderSize - r1 - c.HeaderSize, true⟩]) := by
    rw [hr1, hS0]
    have hlt : r1 < n * 4096 - c.HeaderSize := by omega
    have hle : r1 ≤ n * 4096 - c.HeaderSize := by omega
    simp only [allocList, carve, hlt, hle, hsf1, and_self, if_true]
  obtain ⟨hp1, m1, L1, _, _, F1, _⟩ := Malloc_fit c hc h0 _ W0.layout s1 fuel retries h1
    (by simp only [List.length_singleton]; omega) _ _ hal1
  have hS1 : hp1.HeapStart = base := F1.1.trans hS0
  -- the second block
  generalize hT : n * 4096 - c.HeaderSize - r1 - c.HeaderSize = T at hal1 L1
  have hal2 : allocList c (roundedSize c s2) hp1.HeapStart [⟨r1, false⟩, ⟨T, true⟩]
      = some (base + c.HeaderSize + r1, [⟨r1, false⟩] ++ carve c r2 ⟨T, true⟩ []) := by
    rw [hr2, hS1]
    have := allocList_append c r2 ⟨T, true⟩ [] rfl (by simp only; omega) [⟨r1, false⟩] base
      (by simp)
    simpa [endOf] using this
  obtain ⟨hp2, m2, L2, _, _, F2, _⟩ := Malloc_fit c hc hp1 _ L1 s2 fuel retries h2
    (by simp only [List.length_cons, List.length_nil]; omega) _ _ hal2
  have hS2 : hp2.HeapStart = base := F2.1.trans hS1
  refine ⟨_, hp1, _, hp2, m1, m2, ?_, ?_⟩
  · -- free the first, then the second
    intro k hk
    unfold carve at L2
    split_ifs at L2 with hsp
    · have hsf2 := (splitFits_iff c _ r2 (by simp only; omega) (by simp only; omega) hH2).1 hsp.2
      simp only at hsf2
      obtain ⟨La, Sa⟩ := Free_at c hc hp2 _ L2 0 (by simp) (base + c.HeaderSize)
        (by rw [hS2]; rfl)
      simp only [List.singleton_append, freeList, setFreeAt, mergeAt, mergeHead,
        Bool.false_eq_true, if_false] at La
      obtain ⟨Lb, Sb⟩ := Free_at c hc _ _ La 1 (by simp) (base + c.HeaderSize + r1 + c.HeaderSize)
        (by rw [Sa, hS2]; rfl)
      simp only [freeList, setFreeAt, mergeAt, mergeHead, List.getElem?_cons_zero,
        Option.map_some', if_true] at Lb
      have hq : r1 + c.HeaderSize + (r2 + c.HeaderSize + (T - r2 - c.HeaderSize))
          = n * 4096 - c.HeaderSize := by omega
      rw [hq] at Lb
      rw [segments_single c _ _ Lb k hk, Sb, Sa, hS2]
    · obtain ⟨La, Sa⟩ := Free_at c hc hp2 _ L2 0 (by simp) (base + c.HeaderSize)
        (by rw [hS2]; rfl)
      simp only [List.singleton_append, freeList, setFreeAt, mergeAt, mergeHead,
        Bool.false_eq_true, if_false] at La
      obtain ⟨Lb, Sb⟩ := Free_at c hc _ _ La 1 (by simp) (base + c.HeaderSize + r1 + c.HeaderSize)
        (by rw [Sa, hS2]; rfl)
      simp only [freeList, setFreeAt, mergeAt, mergeHead, List.getElem?_cons_zero,
        Option.map_some', if_true] at Lb
      have hq : r1 + c.HeaderSize + T = n * 4096 - c.HeaderSize := by omega
      rw [hq] at Lb
      rw [segments_single c _ _ Lb k hk, Sb, Sa, hS2]
  · -- free the second, then the first
    intro k hk
    unfold carve at L2
    split_ifs at L2 with hsp
    · have hsf2 := (splitFits_iff c _ r2 (by simp only; omega) (by simp only; omega) hH2).1 hsp.2
      simp only at hsf2
      obtain ⟨La, Sa⟩ := Free_at c hc hp2 _ L2 1 (by simp)
        (base + c.HeaderSize + r1 + c.HeaderSize) (by rw [hS2]; rfl)
      simp only [List.singleton_append, freeList, setFreeAt, mergeAt, mergeHead,
        List.getElem?_cons_zero, Option.map_some', Option.some.injEq, Bool.false_eq_true,
        if_false, if_true] at La
      obtain ⟨Lb, Sb⟩ := Free_at c hc _ _ La 0 (by simp) (base + c.HeaderSize)
        (by rw [Sa, hS2]; rfl)
      simp only [freeList, setFreeAt, mergeAt, mergeHead, if_true] at Lb
      have hq : r1 + c.HeaderSize + (r2 + c.HeaderSize + (T - r2 - c.HeaderSize))
          = n * 4096 - c.HeaderSize := by omega
      rw [hq] at Lb
      rw [segments_single c _ _ Lb k hk, Sb, Sa, hS2]
    · obtain ⟨La, Sa⟩ := Free_at c hc hp2 _ L2 1 (by simp)
        (base + c.HeaderSize + r1 + c.HeaderSize) (by rw [hS2]; rfl)
      simp only [List.singleton_append, freeList, setFreeAt, mergeAt, mergeHead,
        List.getElem?_cons_zero, Option.map_some', Option.some.injEq, Bool.false_eq_true,
        if_false] at La
      obtain ⟨Lb, Sb⟩ := Free_at c hc _ _ La 0 (by simp) (base + c.HeaderSize)
        (by rw [Sa, hS2]; rfl)
      simp only [freeList, setFreeAt, mergeAt, mergeHead, if_true] at Lb
      have hq : r1 + c.HeaderSize + T = n * 4096 - c.HeaderSize := by omega
      rw [hq] at Lb
      rw [segments_single c _ _ Lb k hk, Sb, Sa, hS2]

/-- Witness of the amended C1: requests of 64 and 100 bytes on the kernel heap of 16 pages. -/
theorem two_blocks_coalesce_witness :
    (0 < HEAP_ADDRESS ∧ 1 ≤ 16 ∧ HEAP_ADDRESS + 16 * 4096 < U64 ∧ 16 * 4096 ≤ 2 ^ 63 ∧
      0 < 64 ∧ 0 < 100 ∧
      roundedSize sampleConfig 64 + sampleConfig.HeaderSize + roundedSize sampleConfig 100
        ≤ 16 * 4096 - sampleConfig.HeaderSize) ∧
    ∃ p1 hp1 p2 hp2,
      Malloc sampleConfig 2 0 (InitializeHeap sampleConfig blankHeap HEAP_ADDRESS 16) 64
        = some (p1, hp1) ∧
      Malloc sampleConfig 2 0 hp1 100 = some (p2, hp2) ∧
      (∀ k, 1 ≤ k → (Free sampleConfig (Free sampleConfig hp2 p1) p2).segments k =
        [(HEAP_ADDRESS, ⟨16 * 4096 - sampleConfig.HeaderSize, 0, 0, true⟩)]) ∧
      (∀ k, 1 ≤ k → (Free sampleConfig (Free sampleConfig hp2 p2) p1).segments k =
        [(HEAP_ADDRESS, ⟨16 * 4096 - sampleConfig.HeaderSize, 0, 0, true⟩)]) :=
  ⟨by decide,
    two_blocks_coalesce sampleConfig sampleConfig_sane blankHeap HEAP_ADDRESS 16 64 100
      (by decide) (by decide) (by decide) (by decide) (by decide) (by decide) (by decide)
      2 0 (by decide)⟩

/-- C2 fails on the code. A well-formed heap of one allocated segment has no free segment at
all, so a request of 4096 bytes is larger than every free one; yet `Malloc(4096)` does not
return, whatever the budget of retries the address space leaves room for: `ExtendHeap`
appends a free segment of a page less a header after the allocated `LastHeader`, never makes
it `LastHeader`, and the next `ExtendHeap` links its own new segment in its place. -/
theorem malloc_growth_never_returns (c : Config) (hc : c.Sane) (hB : 4096 % c.BLOCK_SIZE = 0)
    (hp : Heap) (n : Nat) (W : WellFormed c hp [⟨n, false⟩]) (fuel retries : Nat)
    (hfuel : 2 ≤ fuel) (hroom : hp.HeapEnd + 4096 * (retries + 1) < U64) :
    Malloc c fuel retries hp 4096 = none :=
  Stuck.malloc hc hB W.layout.start_pos fuel hfuel retries hp (Stuck.of_wellFormed hc W) hroom

/-- Witness of the statement on C2: the kernel heap after `Malloc(65504)` took its one
segment whole, and a thousand retries, each growing the heap by a page. -/
theorem malloc_growth_never_returns_witness :
    (sampleConfig.Sane ∧ 4096 % sampleConfig.BLOCK_SIZE = 0 ∧
      WellFormed sampleConfig fullKernelHeap [⟨65504, false⟩] ∧ 2 ≤ 2 ∧
      fullKernelHeap.HeapEnd + 4096 * (1000 + 1) < U64) ∧
      Malloc sampleConfig 2 1000 fullKernelHeap 4096 = none :=
  ⟨⟨sampleConfig_sane, by decide, fullKernelHeap_wellFormed, by decide, by decide⟩,
    malloc_growth_never_returns sampleConfig sampleConfig_sane (by decide) fullKernelHeap 65504
      fullKernelHeap_wellFormed 2 1000 (by decide) (by decide)⟩

/-- C3. `Malloc` followed by `Free` is the identity on the heap layout. For every well-formed
heap (contiguous segments, no two adjacent free ones, `LastHeader` the last header) that has a
free segment of at least the rounded request, and every non-zero size: `Malloc` returns a
pointer `p`, and after `Free(p)` the heap is well-formed with the same list, `HeapStart`,
`HeapEnd` and `LastHeader` are what they were, and the walk of the list from `HeapStart`
reads the same headers at the same addresses (sizes, flags, `Next` and `Prev` links). -/
theorem malloc_free_identity (c : Config) (hc : c.Sane) (hp : Heap) (segs : List Seg)
    (W : WellFormed c hp segs) (size fuel retries : Nat) (hsize : 0 < size)
    (hfuel : segs.length ≤ fuel)
    (hfit : ∃ s ∈ segs, s.free = true ∧ roundedSize c size ≤ s.size) :
    ∃ p hp1, Malloc c fuel retries hp size = some (p, hp1) ∧
      WellFormed c (Free c hp1 p) segs ∧
      (Free c hp1 p).HeapStart = hp.HeapStart ∧ (Free c hp1 p).HeapEnd = hp.HeapEnd ∧
      (Free c hp1 p).LastHeader = hp.LastHeader ∧
      ∀ k, (Free c hp1 p).segments k = hp.segments k := by
  have hsome : allocList c (roundedSize c size) hp.HeapStart segs ≠ none := by
    intro h
    obtain ⟨s, hs1, hs2⟩ := hfit
    exact (allocList_none c _ segs _).1 h s hs1 hs2
  obtain ⟨⟨p, l⟩, hal⟩ := Option.ne_none_iff_exists'.1 hsome
  obtain ⟨pre, s, post, e1, e2, e3, e4, e5, e6⟩ := allocList_some c _ _ _ _ _ hal
  obtain ⟨hp1, h1, h2, _, _, h5, h6⟩ := Malloc_fit c hc hp _ W.layout size fuel retries hsize
    hfuel _ _ hal
  have hsz : s.size < U64 := by
    have := mem_le_endOf c.HeaderSize segs hp.HeapStart s (by rw [e1]; simp)
    have := W.layout.stop
    have := W.layout.bound
    omega
  have hfl : freeList c.HeaderSize pre.length l = segs := by
    rw [e6, e1]
    exact freeList_carve c hc.header_lt _ s post e2 e3 hsz pre (by rw [← e1]; exact W.noAdj)
  have hi : pre.length < l.length := by
    have := carve_ne_nil c (roundedSize c size) s post
    have := List.length_pos.2 this
    rw [e6, List.length_append]; omega
  have hp_eq : p + c.HeaderSize = addrAt c.HeaderSize hp1.HeapStart l pre.length
      + c.HeaderSize := by
    rw [h5.1, e6, addrAt_append, e5]
  obtain ⟨f1, f2, f3⟩ := Free_spec c hc hp1 l h2 pre.length hi
  rw [← hp_eq] at f1 f2 f3
  rw [hfl] at f1 f3
  have hlast := f3 (by rw [h5.1]; exact h6 W.last)
  refine ⟨p + c.HeaderSize, hp1, h1, ⟨f1, ?_, W.noAdj⟩, f2.1.trans h5.1, f2.2.1.trans h5.2.1,
    ?_, ?_⟩
  · rw [hlast, f2.1]
  · rw [hlast, h5.1]; exact W.last.symm
  · intro k
    rw [f1.segments_eq, W.layout.segments_eq, f2.1, h5.1]

/-- Witness of C3, the scenario of the specification: on the heap of 16 pages (one free
segment of `65536 - 32` bytes), `Malloc(64)` then `Free` leaves again a single free segment
of `65536 - 32` bytes. -/
theorem malloc_free_identity_witness :
    WellFormed sampleConfig kernelHeap [⟨65504, true⟩] ∧
    ∃ p hp1, Malloc sampleConfig 1 0 kernelHeap 64 = some (p, hp1) ∧
      (Free sampleConfig hp1 p).segments 2 = [(HEAP_ADDRESS, ⟨65504, 0, 0, true⟩)] :=
  ⟨kernelHeap_wellFormed,
    (malloc_free_identity sampleConfig sampleConfig_sane kernelHeap [⟨65504, true⟩]
      kernelHeap_wellFormed 64 1 0 (by decide) (by decide)
      ⟨⟨65504, true⟩, by simp, rfl, by decide⟩).imp fun _ h => h.imp fun _ h =>
        ⟨h.1, (h.2.2.2.2.2 2).trans (by decide)⟩⟩

/-- C4. `Malloc` is first fit. In a well-formed heap whose list is `pre ++ s :: post`, where
`s` is free with at least the rounded request `r` and no segment of `pre` is both free and
that large, a non-zero request returns the address of the header of `s` plus the header size;
that header is marked allocated; all memory below it, hence every header of `pre` with its
size, flag and links, is unchanged. -/
theorem malloc_first_fit (c : Config) (hc : c.Sane) (hp : Heap) (pre : List Seg) (s : Seg)
    (post : List Seg) (W : WellFormed c hp (pre ++ s :: post)) (size fuel retries : Nat)
    (hsize : 0 < size) (hfuel : (pre ++ s :: post).length ≤ fuel)
    (hs : s.free = true ∧ roundedSize c size ≤ s.size)
    (hpre : ∀ x ∈ pre, ¬ (x.free = true ∧ roundedSize c size ≤ x.size)) :
    ∃ hp1, Malloc c fuel retries hp size
        = some (endOf c.HeaderSize hp.HeapStart pre + c.HeaderSize, hp1) ∧
      ((hp.mem (endOf c.HeaderSize hp.HeapStart pre)).Size = s.size ∧
        (hp.mem (endOf c.HeaderSize hp.HeapStart pre)).Free = true) ∧
      (hp1.mem (endOf c.HeaderSize hp.HeapStart pre)).Free = false ∧
      (∀ x, x < endOf c.HeaderSize hp.HeapStart pre → hp1.mem x = hp.mem x) ∧
      hp1.segments pre.length = hp.segments pre.length := by
  have hal := allocList_append c (roundedSize c size) s post hs.1 hs.2 pre hp.HeapStart hpre
  obtain ⟨hp1, h1, h2, h3, _, h5, _⟩ := Malloc_fit c hc hp _ W.layout size fuel retries hsize
    hfuel _ _ hal
  have hhead := Chain_append_head c.HeaderSize hp.mem s post pre 0 hp.HeapStart W.layout.chain
  refine ⟨hp1, h1, ⟨hhead.1, by rw [hhead.2]; exact hs.1⟩, ?_, h3, ?_⟩
  · have hch := h2.chain
    rw [h5.1] at hch
    have hne : carve c (roundedSize c size) s post ≠ [] := carve_ne_nil _ _ _ _
    cases hq : carve c (roundedSize c size) s post with
    | nil => exact absurd hq hne
    | cons u v =>
      rw [hq] at hch
      have := (Chain_append_head c.HeaderSize hp1.mem u v pre 0 hp.HeapStart hch).2
      rw [this]
      unfold carve at hq
      split_ifs at hq
      · simp only [List.cons.injEq] at hq; rw [← hq.1]
      · simp only [List.cons.injEq] at hq; rw [← hq.1]
  · rw [h2.segments_eq, W.layout.segments_eq, h5.1]
    exact headers_take_append _ _ _ (carve_ne_nil _ _ _ _) (by simp) pre 0 hp.HeapStart

/-- Witness of C4 on the kernel heap of 16 pages: `Malloc(64)` takes the one free segment. -/
theorem malloc_first_fit_witness :
    WellFormed sampleConfig kernelHeap ([] ++ (⟨65504, true⟩ : Seg) :: []) ∧
    ∃ hp1, Malloc sampleConfig 1 0 kernelHeap 64 = some (HEAP_ADDRESS + 32, hp1) ∧
      (hp1.mem HEAP_ADDRESS).Free = false :=
  ⟨kernelHeap_wellFormed,
    (malloc_first_fit sampleConfig sampleConfig_sane kernelHeap [] ⟨65504, true⟩ []
      kernelHeap_wellFormed 64 1 0 (by decide) (by decide) (by decide)
      (by simp)).imp fun _ h => ⟨h.1, h.2.2.1⟩⟩

/-- C5. `Malloc(0)` returns `NULL` and does nothing: whatever the heap, the call returns the
null pointer together with the very heap it was given, so the segment list, `HeapStart`,
`HeapEnd`, `LastHeader` are unchanged, no frame was requested and no page was mapped. -/
theorem malloc_zero_returns_null (c : Config) (fuel retries : Nat) (hp : Heap) :
    Malloc c fuel retries hp 0 = some (0, hp) := by
  have h : roundedSize c 0 % U64 = 0 := by simp [roundedSize]
  cases retries <;> simp only [Malloc, mallocBody, h, if_true]

/-- C6. Translation correctness of `MapPage` as a table walk. For every virtual address `v`
and physical address `p` (page-aligned or not), and every state of the tables in which the
four tables `MapPage` goes through for `v` are four different tables (present entries point
to tables of their own, `GetPage` hands out frames not in use on the path), the walk of `v`
after `MapPage(v, p)` finds `Present` at levels 4, 3 and 2 and reaches an entry of level 1
whose address is `p`, with `Present` and `ReadWrite` set. -/
theorem map_page_translation (GetPage : Nat → Nat) (m : PageTableManager) (v p : Nat)
    (hpath : (tablePath GetPage m v).Nodup) :
    tableWalk (MapPage GetPage m v p) v = some ⟨true, true, p⟩ := by
  obtain ⟨t3, t2, t1, _, h0, h4, h3, h2, h1⟩ := MapPage_path GetPage m v p hpath
  rw [← h0] at h4
  rw [tableWalk_of_path _ v t3 t2 t1 _ _ _ h4 h3 h2, h1]

/-- Witness of C6: the heap address of the kernel mapped in empty page tables. -/
theorem map_page_translation_witness :
    (tablePath (fun k => 0x200000 + k * 0x1000) ⟨0x1000, fun _ _ => ⟨false, false, 0⟩, 0⟩
      0xFFFFFFFF00000000).Nodup ∧
    tableWalk (MapPage (fun k => 0x200000 + k * 0x1000)
      ⟨0x1000, fun _ _ => ⟨false, false, 0⟩, 0⟩ 0xFFFFFFFF00000000 0x5000) 0xFFFFFFFF00000000
      = some ⟨true, true, 0x5000⟩ :=
  ⟨sampleTables_path, map_page_translation _ _ _ _ sampleTables_path⟩

/-- C7. Remapping silently replaces. In the setting of C6 (the four tables on the path of `v`
are different tables), after `MapPage(v, p1)` then `MapPage(v, p2)` the walk of `v` yields
`p2` with `Present` and `ReadWrite` set; the second call requests no frame, and the state it
leaves is the state after the first call with the one entry of level 1 indexed by `v`
stored anew, so no other table entry changes. The model of `MapPage` has no error path. -/
theorem remap_replaces (GetPage : Nat → Nat) (m : PageTableManager) (v p1 p2 : Nat)
    (hpath : (tablePath GetPage m v).Nodup) :
    tableWalk (MapPage GetPage (MapPage GetPage m v p1) v p2) v = some ⟨true, true, p2⟩ ∧
    (MapPage GetPage (MapPage GetPage m v p1) v p2).requested
      = (MapPage GetPage m v p1).requested ∧
    ∃ t1, (tablePath GetPage m v).getLast? = some t1 ∧
      MapPage GetPage (MapPage GetPage m v p1) v p2 =
        ⟨(MapPage GetPage m v p1).TableLevel4,
          storeEntry (MapPage GetPage m v p1).tables t1
            (PageMapIndexer.ofAddress v).TableLevel1Index ⟨true, true, p2⟩,
          (MapPage GetPage m v p1).requested⟩ ∧
      ∀ t i, ¬ (t = t1 ∧ i = (PageMapIndexer.ofAddress v).TableLevel1Index) →
        (MapPage GetPage (MapPage GetPage m v p1) v p2).tables t i
          = (MapPage GetPage m v p1).tables t i := by
  obtain ⟨t3, t2, t1, hp, h0, h4, h3, h2, _⟩ := MapPage_path GetPage m v p1 hpath
  rw [← h0] at h4
  have hm := MapPage_present GetPage (MapPage GetPage m v p1) v p2 t3 t2 t1 h4 h3 h2
  rw [hp] at hpath
  simp only [List.nodup_cons, List.mem_cons, List.mem_singleton, not_or, List.not_mem_nil,
    not_false_eq_true, List.nodup_nil, and_true] at hpath
  obtain ⟨⟨_, _, a3⟩, ⟨_, b2⟩, c1⟩ := hpath
  rw [← h0] at a3
  have hl : (tablePath GetPage m v).getLast? = some t1 := by rw [hp]; rfl
  simp only [tableWalk]
  generalize MapPage GetPage m v p1 = M1 at h4 h3 h2 hm a3 ⊢
  generalize PageMapIndexer.ofAddress v = ix at h4 h3 h2 hm ⊢
  have g4 : (MapPage GetPage M1 v p2).tables (MapPage GetPage M1 v p2).TableLevel4
      ix.TableLevel4Index = M1.tables M1.TableLevel4 ix.TableLevel4Index := by
    rw [hm]; simp only [storeEntry, a3, false_and, if_false]
  have g3 : (MapPage GetPage M1 v p2).tables t3 ix.TableLevel3Index
      = M1.tables t3 ix.TableLevel3Index := by
    rw [hm]; simp only [storeEntry, b2, false_and, if_false]
  have g2 : (MapPage GetPage M1 v p2).tables t2 ix.TableLevel2Index
      = M1.tables t2 ix.TableLevel2Index := by
    rw [hm]; simp only [storeEntry, c1, false_and, if_false]
  have g1 : (MapPage GetPage M1 v p2).tables t1 ix.TableLevel1Index = ⟨true, true, p2⟩ := by
    rw [hm]; simp only [storeEntry, and_self, if_true]
  refine ⟨?_, by rw [hm], t1, hl, hm, ?_⟩
  · rw [g4, h4]
    simp only [Bool.true_eq_false, if_false]
    rw [g3, h3]
    simp only [Bool.true_eq_false, if_false]
    rw [g2, h2]
    simp only [Bool.true_eq_false, if_false]
    rw [g1]
  · intro t i hti
    rw [hm]
    simp only [storeEntry, hti, if_false]

/-- Witness of C7: the heap address of the kernel mapped twice in empty page tables. -/
theorem remap_replaces_witness :
    (tablePath (fun k => 0x200000 + k * 0x1000) ⟨0x1000, fun _ _ => ⟨false, false, 0⟩, 0⟩
      0xFFFFFFFF00000000).Nodup ∧
    tableWalk (MapPage (fun k => 0x200000 + k * 0x1000)
      (MapPage (fun k => 0x200000 + k * 0x1000) ⟨0x1000, fun _ _ => ⟨false, false, 0⟩, 0⟩
        0xFFFFFFFF00000000 0x5000) 0xFFFFFFFF00000000 0x6000) 0xFFFFFFFF00000000
      = some ⟨true, true, 0x6000⟩ :=
  ⟨sampleTables_path, (remap_replaces _ _ _ 0x5000 0x6000 sampleTables_path).1⟩

/-- C8 fails on the code. From the kernel heap, `Malloc(65504)`, `Malloc(100)` and
`Malloc(8000)` reach a heap whose first header has `Next` 17 pages past the heap start while
the segment itself ends 16 pages past it: the second growth linked its new segment after
the stale `LastHeader`, cutting the segments of the first growth out of the list. -/
theorem contiguity_broken_by_growth :
    (runOps sampleConfig 8 2 kernelHeap [.malloc 65504, .malloc 100, .malloc 8000]).map
        (fun r => (r.2.segments 1, decide (Contiguous sampleConfig r.2 8)))
      = some ([(HEAP_ADDRESS, ⟨65504, HEAP_ADDRESS + 17 * 4096, 0, false⟩)], false) := by
  decide

/-- C9 fails on the code. From the kernel heap, five `Malloc` calls (two of them growing the
heap), then `Free` and `Malloc` calls on pointers `Malloc` returned, reach a heap without two
adjacent free segments in which `Free` on the payload of the allocated last segment leaves it
free right after its free predecessor: its `Prev` pointer had been redirected to a header
that is no longer in the list. -/
theorem adjacent_free_after_free :
    (runOps sampleConfig 8 2 kernelHeap
        [.malloc 2000, .malloc 63472, .malloc 100, .malloc 5000, .malloc 3120,
          .free (HEAP_ADDRESS + 2032 + 32), .free (HEAP_ADDRESS + 32), .malloc 65504,
          .free (HEAP_ADDRESS + 17 * 4096 + 32), .free (HEAP_ADDRESS + 16 * 4096 + 32)]).map
        (fun r => (r.1, (r.2.segments 8).map (fun x => (x.1, x.2.Free)),
          decide (NoAdjacentFree r.2 8),
          decide (NoAdjacentFree (Free sampleConfig r.2 (HEAP_ADDRESS + 17 * 4096 + 5040 + 32)) 8)))
      = some ([HEAP_ADDRESS + 32, HEAP_ADDRESS + 2032 + 32, HEAP_ADDRESS + 16 * 4096 + 32,
            HEAP_ADDRESS + 17 * 4096 + 32, HEAP_ADDRESS + 17 * 4096 + 5040 + 32,
            HEAP_ADDRESS + 32],
          [(HEAP_ADDRESS, false), (HEAP_ADDRESS + 17 * 4096, true),
            (HEAP_ADDRESS + 17 * 4096 + 5040, false)],
          true, false) := by
  decide

/-- C10. Three blocks of one size `s > 0`, the initial heap having room for three headers and
three rounded payloads. `Malloc` returns `A`, `B`, `C` at consecutive headers `a`, `b`, `cc`.
`Free(B)` changes nothing but the `Free` flag of the header of `B`, which keeps its size `r`
between the allocated `A` and `C`. A following `Free(A)` leaves at `a` one free segment of
size `A.Size + H + B.Size` whose `Next` is the header of `C`; `C` is still allocated and its
`Prev` is `a`. -/
theorem three_blocks_scenario (c : Config) (hc : c.Sane) (hp0 : Heap) (base n s : Nat)
    (hb : 0 < base) (hn : 1 ≤ n) (he : base + n * 4096 < U64) (h63 : n * 4096 ≤ 2 ^ 63)
    (hs : 0 < s) (hfit : 3 * (c.HeaderSize + roundedSize c s) ≤ n * 4096)
    (fuel retries : Nat) (hfuel : 3 ≤ fuel) :
    ∃ hpA hpB hpC,
      Malloc c fuel retries (InitializeHeap c hp0 base n) s
        = some (base + c.HeaderSize, hpA) ∧
      Malloc c fuel retries hpA s
        = some (base + c.HeaderSize + roundedSize c s + c.HeaderSize, hpB) ∧
      Malloc c fuel retries hpB s
        = some (base + c.HeaderSize + roundedSize c s + c.HeaderSize + roundedSize c s
            + c.HeaderSize, hpC) ∧
      ((hpC.mem base).Size = roundedSize c s ∧ (hpC.mem base).Free = false) ∧
      ((hpC.mem (base + c.HeaderSize + roundedSize c s)).Size = roundedSize c s ∧
        (hpC.mem (base + c.HeaderSize + roundedSize c s)).Free = false) ∧
      (hpC.mem (base + c.HeaderSize + roundedSize c s + c.HeaderSize + roundedSize c s)).Free
        = false ∧
      Free c hpC (base + c.HeaderSize + roundedSize c s + c.HeaderSize)
        = hpC.setFree (base + c.HeaderSize + roundedSize c s) true ∧
      ((Free c (Free c hpC (base + c.HeaderSize + roundedSize c s + c.HeaderSize))
          (base + c.HeaderSize)).mem base
        = ⟨roundedSize c s + c.HeaderSize + roundedSize c s,
            base + c.HeaderSize + roundedSize c s + c.HeaderSize + roundedSize c s, 0, true⟩) ∧
      ((Free c (Free c hpC (base + c.HeaderSize + roundedSize c s + c.HeaderSize))
          (base + c.HeaderSize)).mem
          (base + c.HeaderSize + roundedSize c s + c.HeaderSize + roundedSize c s)).Free
        = false ∧
      ((Free c (Free c hpC (base + c.HeaderSize + roundedSize c s + c.HeaderSize))
          (base + c.HeaderSize)).mem
          (base + c.HeaderSize + roundedSize c s + c.HeaderSize + roundedSize c s)).Prev
        = base := by
  have hH := hc.header_pos
  have hH2 := hc.header_lt
  obtain ⟨W0, hS0, _, _⟩ := InitializeHeap_spec c hc hp0 base n hb hn he
  generalize InitializeHeap c hp0 base n = h0 at W0 hS0 ⊢
  have hBr : c.BLOCK_SIZE ≤ roundedSize c s := block_le_roundedSize c s hs
  generalize hr : roundedSize c s = r at hfit hBr ⊢
  -- the first block
  have hsf1 : splitFits c (n * 4096 - c.HeaderSize) r :=
    (splitFits_iff c _ r (by omega) (by omega) hH2).2 ⟨by omega, by omega⟩
  have hal1 : allocList c (roundedSize c s) h0.HeapStart [⟨n * 4096 - c.HeaderSize, true⟩]
      = some (base, [⟨r, false⟩, ⟨n * 4096 - c.HeaderSize - r - c.HeaderSize, true⟩]) := by
    rw [hr, hS0]
    have hlt : r < n * 4096 - c.HeaderSize := by omega
    have hle : r ≤ n * 4096 - c.HeaderSize := by omega
    simp only [allocList, carve, hlt, hle, hsf1, and_self, if_true]
  obtain ⟨hpA, m1, L1, _, _, F1, _⟩ := Malloc_fit c hc h0 _ W0.layout s fuel retries hs
    (by simp only [List.length_singleton]; omega) _ _ hal1
  have hS1 : hpA.HeapStart = base := F1.1.trans hS0
  -- the second block
  generalize hT : n * 4096 - c.HeaderSize - r - c.HeaderSize = T at hal1 L1
  have hsf2 : splitFits c T r :=
    (splitFits_iff c _ r (by omega) (by omega) hH2).2 ⟨by omega, by omega⟩
  have hal2 : allocList c (roundedSize c s) hpA.HeapStart [⟨r, false⟩, ⟨T, true⟩]
      = some (base + c.HeaderSize + r, [⟨r, false⟩, ⟨r, false⟩, ⟨T - r - c.HeaderSize, true⟩]) := by
    rw [hr, hS1]
    have := allocList_append c r ⟨T, true⟩ [] rfl (by simp only; omega) [⟨r, false⟩] base
      (by simp)
    have hlt : r < T := by omega
    simpa [endOf, carve, hlt, hsf2] using this
  obtain ⟨hpB, m2, L2, _, _, F2, _⟩ := Malloc_fit c hc hpA _ L1 s fuel retries hs
    (by simp only [List.length_cons, List.length_nil]; omega) _ _ hal2
  have hS2 : hpB.HeapStart = base := F2.1.trans hS1
  -- the third block
  generalize hT2 : T - r - c.HeaderSize = T2 at hal2 L2
  obtain ⟨u, v, hcv, hu⟩ := carve_head c r ⟨T2, true⟩ []
  have hal3 : allocList c (roundedSize c s) hpB.HeapStart [⟨r, false⟩, ⟨r, false⟩, ⟨T2, true⟩]
      = some (base + c.HeaderSize + r + c.HeaderSize + r,
          [⟨r, false⟩, ⟨r, false⟩, u] ++ v) := by
    rw [hr, hS2]
    have := allocList_append c r ⟨T2, true⟩ [] rfl (by simp only; omega)
      [⟨r, false⟩, ⟨r, false⟩] base (by simp)
    rw [hcv] at this
    simpa [endOf] using this
  obtain ⟨hpC, m3, L3, _, _, F3, _⟩ := Malloc_fit c hc hpB _ L2 s fuel retries hs
    (by simp only [List.length_cons, List.length_nil]; omega) _ _ hal3
  have hS3 : hpC.HeapStart = base := F3.1.trans hS2
  have hch := L3.chain
  rw [hS3] at hch
  simp only [List.cons_append, List.nil_append] at hch L3
  obtain ⟨ca, cb, cc, _⟩ := hch
  simp only [nextOf] at ca cb
  refine ⟨hpA, hpB, hpC, m1, m2, m3, by rw [ca]; exact ⟨rfl, rfl⟩, by rw [cb]; exact ⟨rfl, rfl⟩,
    by rw [cc]; exact hu, ?_, ?_⟩
  · -- `Free(B)` only sets the flag
    have e1 : base + c.HeaderSize + r + c.HeaderSize + r ≠ base + c.HeaderSize + r := by omega
    have e2 : base ≠ base + c.HeaderSize + r := by omega
    have e3 : base + c.HeaderSize + r + c.HeaderSize + r ≠ 0 := by omega
    have e4 : base ≠ 0 := by omega
    have hseg : (base + c.HeaderSize + r + c.HeaderSize + U64 - c.HeaderSize % U64) % U64
        = base + c.HeaderSize + r := by
      have h2 : c.HeaderSize % U64 = c.HeaderSize := Nat.mod_eq_of_lt (by simp only [U64]; omega)
      have := cons_le_endOf c.HeaderSize ⟨r, false⟩ (⟨r, false⟩ :: u :: v) base
      have := L3.stop
      have := L3.bound
      rw [h2]
      simp only [U64] at *
      omega
    unfold Free
    simp only [hseg]
    have hN : ((hpC.setFree (base + c.HeaderSize + r) true).mem (base + c.HeaderSize + r)).Next
        = base + c.HeaderSize + r + c.HeaderSize + r := by
      simp only [mem_set, cb]
    have hNF : ((hpC.setFree (base + c.HeaderSize + r) true).mem
        (base + c.HeaderSize + r + c.HeaderSize + r)).Free = false := by
      simp only [mem_set, e1, if_false, cc, hu]
    have hmn : MergeNext c (hpC.setFree (base + c.HeaderSize + r) true) (base + c.HeaderSize + r)
        = hpC.setFree (base + c.HeaderSize + r) true := by
      unfold MergeNext
      rw [if_pos (Or.inr (by rw [hN]; exact hNF))]
    rw [hmn]
    unfold MergePrev
    have hP : ((hpC.setFree (base + c.HeaderSize + r) true).mem (base + c.HeaderSize + r)).Prev
        = base := by
      simp only [mem_set, cb]
    have hPF : ((hpC.setFree (base + c.HeaderSize + r) true).mem base).Free = false := by
      simp only [mem_set, e2, if_false, ca]
    rw [if_neg (fun h => by rw [hP, hPF] at h; simp at h)]
  · -- then `Free(A)` merges the two
    obtain ⟨La, Sa⟩ := Free_at c hc hpC _ L3 1 (by simp)
      (base + c.HeaderSize + r + c.HeaderSize) (by rw [hS3]; rfl)
    simp only [freeList, setFreeAt, mergeAt, mergeHead, List.getElem?_cons_zero,
      Option.map_some', Option.some.injEq, Bool.false_eq_true, if_false, hu] at La
    obtain ⟨Lb, Sb⟩ := Free_at c hc _ _ La 0 (by simp) (base + c.HeaderSize)
      (by rw [Sa, hS3]; rfl)
    simp only [freeList, setFreeAt, mergeAt, mergeHead, if_true] at Lb
    have hch2 := Lb.chain
    rw [Sb, Sa, hS3] at hch2
    obtain ⟨da, db, _⟩ := hch2
    simp only [nextOf] at da
    have hq : base + c.HeaderSize + (r + c.HeaderSize + r)
        = base + c.HeaderSize + r + c.HeaderSize + r := by omega
    rw [hq] at da db
    exact ⟨da, by rw [db]; exact hu, by rw [db]⟩

/-- Witness of C10: three blocks of 1000 bytes (rounded to 1008) on the kernel heap. -/
theorem three_blocks_scenario_witness :
    (0 < HEAP_ADDRESS ∧ 1 ≤ 16 ∧ HEAP_ADDRESS + 16 * 4096 < U64 ∧ 16 * 4096 ≤ 2 ^ 63 ∧
      0 < 1000 ∧ 3 * (sampleConfig.HeaderSize + roundedSize sampleConfig 1000) ≤ 16 * 4096) ∧
    ∃ hpA hpB hpC,
      Malloc sampleConfig 3 0 kernelHeap 1000 = some (HEAP_ADDRESS + 32, hpA) ∧
      Malloc sampleConfig 3 0 hpA 1000 = some (HEAP_ADDRESS + 32 + 1008 + 32, hpB) ∧
      Malloc sampleConfig 3 0 hpB 1000 = some (HEAP_ADDRESS + 32 + 1008 + 32 + 1008 + 32, hpC) ∧
      Free sampleConfig hpC (HEAP_ADDRESS + 32 + 1008 + 32)
        = hpC.setFree (HEAP_ADDRESS + 32 + 1008) true ∧
      (Free sampleConfig (Free sampleConfig hpC (HEAP_ADDRESS + 32 + 1008 + 32))
          (HEAP_ADDRESS + 32)).mem HEAP_ADDRESS
        = ⟨1008 + 32 + 1008, HEAP_ADDRESS + 32 + 1008 + 32 + 1008, 0, true⟩ :=
  ⟨by decide,
    (three_blocks_scenario sampleConfig sampleConfig_sane blankHeap HEAP_ADDRESS 16 1000
      (by decide) (by decide) (by decide) (by decide) (by decide) (by decide) 3 0
      (by decide)).imp fun _ h => h.imp fun _ h => h.imp fun _ h =>
        ⟨h.1, h.2.1, h.2.2.1, h.2.2.2.2.2.2.1, h.2.2.2.2.2.2.2.1⟩⟩

/-- C11. Postcondition of `InitializeHeap(base, n)`. For every `base` and `n`, in 64-bit
arithmetic: `HeapStart = base`, `HeapEnd = base + n * 4096`, the header at `base` is free with
`Next = Prev = NULL` and `Size = n * 4096 - H`, `LastHeader = base`, and `n` frames were
requested. For a non-null `base` (page-aligned or not) and `n ≥ 1` pages that end below `2^64`
these values do not wrap, the list read from `HeapStart` is that single header, and the
`i`-th frame (`i = 0 .. n-1`) was mapped at the virtual page `base + i * 4096`. -/
theorem initialize_heap_postcondition (c : Config) (hc : c.Sane) (hp0 : Heap) (base n : Nat) :
    ((InitializeHeap c hp0 base n).HeapStart = base ∧
      (InitializeHeap c hp0 base n).HeapEnd = (base + n * 4096 % U64) % U64 ∧
      (InitializeHeap c hp0 base n).mem base
        = ⟨(n * 4096 % U64 + U64 - c.HeaderSize % U64) % U64, 0, 0, true⟩ ∧
      (InitializeHeap c hp0 base n).LastHeader = base ∧
      (InitializeHeap c hp0 base n).frames = hp0.frames + n) ∧
    (0 < base → 1 ≤ n → base + n * 4096 < U64 →
      (InitializeHeap c hp0 base n).HeapEnd = base + n * 4096 ∧
      (∀ k, 1 ≤ k → (InitializeHeap c hp0 base n).segments k
        = [(base, ⟨n * 4096 - c.HeaderSize, 0, 0, true⟩)]) ∧
      (InitializeHeap c hp0 base n).mapped = hp0.mapped ++
        (List.range n).map
          (fun i => (base + i * 4096, c.RequestPageFrame (hp0.frames + i)))) := by
  refine ⟨⟨rfl, ?_, ?_, rfl, ?_⟩, ?_⟩
  · simp only [InitializeHeap, fld_set]
  · apply header_ext <;>
      simp only [InitializeHeap, mem_set, fld_set, if_true]
  · simp only [InitializeHeap, fld_set]
    exact initLoop_frames c n hp0 base
  · intro hb hn he
    obtain ⟨W, hS, hE, _⟩ := InitializeHeap_spec c hc hp0 base n hb hn he
    have hcalls := initLoop_calls c n hp0 base he
    refine ⟨hE, ?_, ?_⟩
    · intro k hk
      rw [segments_single c _ _ W.layout k hk, hS]
    · simp only [InitializeHeap, fld_set]; exact hcalls.2

/-- Witness of C11: the kernel heap, `InitializeHeap(HEAP_ADDRESS, 16)` on a blank heap object;
two of its sixteen pages are shown. -/
theorem initialize_heap_postcondition_witness :
    (0 < HEAP_ADDRESS ∧ 1 ≤ 16 ∧ HEAP_ADDRESS + 16 * 4096 < U64) ∧
    kernelHeap.HeapEnd = HEAP_ADDRESS + 65536 ∧
    kernelHeap.segments 1 = [(HEAP_ADDRESS, ⟨65504, 0, 0, true⟩)] ∧
    kernelHeap.frames = 16 ∧
    kernelHeap.mapped[0]? = some (HEAP_ADDRESS, 0x200000) ∧
    kernelHeap.mapped[15]? = some (HEAP_ADDRESS + 15 * 4096, 0x20F000) :=
  have h := initialize_heap_postcondition sampleConfig sampleConfig_sane blankHeap HEAP_ADDRESS 16
  have h2 := h.2 (by decide) (by decide) (by decide)
  ⟨by decide, h2.1, h2.2.1 1 (by decide), h.1.2.2.2.2.trans (by decide),
    by rw [show kernelHeap.mapped = _ from h2.2.2]; decide,
    by rw [show kernelHeap.mapped = _ from h2.2.2]; decide⟩

/-- C12 fails on the code. In a heap whose list `pre ++ [t]` is contiguous up to `HeapEnd`,
whose `LastHeader` is the header of the tail `t`, and whose tail is allocated, `ExtendHeap`
appends a free segment at the old `HeapEnd` and leaves `LastHeader` as it was: afterwards
`LastHeader` names the header of `t`, whose `Next` is the new segment and not `NULL`, while the
last header of the list is the one at the old `HeapEnd`. -/
theorem last_header_stale_after_extend (c : Config) (hc : c.Sane) (hp : Heap)
    (pre : List Seg) (t : Seg) (L : Layout c hp (pre ++ [t]))
    (hl : hp.LastHeader = lastAddr c.HeaderSize hp.HeapStart (pre ++ [t]))
    (ht : t.free = false) (size : Nat) (hs : 0 < size)
    (he : hp.HeapEnd + pageRounded size < U64) :
    Layout c (ExtendHeap c hp size) (pre ++ [t, ⟨pageRounded size - c.HeaderSize, true⟩]) ∧
    (ExtendHeap c hp size).LastHeader = hp.LastHeader ∧
    ((ExtendHeap c hp size).mem (ExtendHeap c hp size).LastHeader).Next = hp.HeapEnd ∧
    hp.HeapEnd ≠ 0 ∧
    lastAddr c.HeaderSize (ExtendHeap c hp size).HeapStart
      (pre ++ [t, ⟨pageRounded size - c.HeaderSize, true⟩]) = hp.HeapEnd ∧
    ((ExtendHeap c hp size).mem hp.HeapEnd).Next = 0 ∧
    (ExtendHeap c hp size).LastHeader ≠ hp.HeapEnd := by
  obtain ⟨h1, _, _, _, h5, h6⟩ := ExtendHeap_spec c hc hp pre t L hl size hs he
  rw [if_neg (by rw [ht]; simp)] at h1
  have hH := hc.header_pos
  have hstop := L.stop
  rw [endOf_append] at hstop
  simp only [endOf] at hstop
  have hsp := L.start_pos
  have hla := le_endOf c.HeaderSize pre hp.HeapStart
  have hd := Chain_drop c.HeaderSize _ [t, ⟨pageRounded size - c.HeaderSize, true⟩] pre 0 _
    h1.chain
  rw [h5] at hd
  obtain ⟨d1, d2, _⟩ := hd
  simp only [nextOf, hstop] at d1 d2
  have hl2 : hp.LastHeader = endOf c.HeaderSize hp.HeapStart pre := by
    rw [hl, lastAddr_snoc]
  refine ⟨h1, h6, by rw [h6, hl2, d1], by omega, ?_, by rw [d2], by rw [h6, hl2]; omega⟩
  have : pre ++ [t, (⟨pageRounded size - c.HeaderSize, true⟩ : Seg)]
      = (pre ++ [t]) ++ [⟨pageRounded size - c.HeaderSize, true⟩] := by simp
  rw [this, lastAddr_snoc, h5, L.stop]

/-- Witness of the statement on C12: the kernel heap after `Malloc(65504)` took its one
segment whole, grown by `ExtendHeap(100)`. -/
theorem last_header_stale_after_extend_witness :
    (Layout sampleConfig fullKernelHeap ([] ++ [⟨65504, false⟩]) ∧
      fullKernelHeap.LastHeader = HEAP_ADDRESS) ∧
    (ExtendHeap sampleConfig fullKernelHeap 100).LastHeader = HEAP_ADDRESS ∧
    ((ExtendHeap sampleConfig fullKernelHeap 100).mem HEAP_ADDRESS).Next
      = HEAP_ADDRESS + 65536 ∧
    ((ExtendHeap sampleConfig fullKernelHeap 100).mem (HEAP_ADDRESS + 65536)).Next = 0 :=
  have h := last_header_stale_after_extend sampleConfig sampleConfig_sane fullKernelHeap []
    ⟨65504, false⟩ fullKernelHeap_wellFormed.layout fullKernelHeap_wellFormed.last rfl 100
    (by decide) (by decide)
  ⟨⟨fullKernelHeap_wellFormed.layout, by decide⟩, h.2.1.trans (by decide),
    by decide, by decide⟩

/-- C13. `ExtendHeap` grows and coalesces. In a heap whose list `pre ++ [t]` is contiguous up to
`HeapEnd` and whose `LastHeader` is the header of the tail `t`, for every `size > 0` with
`P` the size rounded up to a multiple of 4096 (`HeapEnd + P` below `2^64`): `ExtendHeap(size)`
requests `P / 4096` frames and maps the `i`-th at the page `HeapEnd + i * 4096`, and sets
`HeapEnd` to the old `HeapEnd + P`. When `t` was free, the list is afterwards `pre` followed by
one free tail of size `t.size + P` at the address of `t`, so it has as many segments as before;
when `t` was allocated, the list is `pre`, `t` and one new free segment of size `P - H`, whose
header is at the old `HeapEnd`. -/
theorem extend_heap_grows_and_coalesces (c : Config) (hc : c.Sane) (hp : Heap)
    (pre : List Seg) (t : Seg) (L : Layout c hp (pre ++ [t]))
    (hl : hp.LastHeader = lastAddr c.HeaderSize hp.HeapStart (pre ++ [t]))
    (size : Nat) (hs : 0 < size) (he : hp.HeapEnd + pageRounded size < U64) :
    (4096 ∣ pageRounded size ∧ size ≤ pageRounded size ∧ pageRounded size < size + 4096) ∧
    (ExtendHeap c hp size).frames = hp.frames + pageRounded size / 4096 ∧
    (ExtendHeap c hp size).mapped = hp.mapped ++
      (List.range (pageRounded size / 4096)).map
        (fun i => (hp.HeapEnd + i * 4096, c.RequestPageFrame (hp.frames + i))) ∧
    (ExtendHeap c hp size).HeapEnd = hp.HeapEnd + pageRounded size ∧
    (ExtendHeap c hp size).HeapStart = hp.HeapStart ∧
    (t.free = true →
      Layout c (ExtendHeap c hp size) (pre ++ [⟨t.size + pageRounded size, true⟩]) ∧
      (pre ++ [(⟨t.size + pageRounded size, true⟩ : Seg)]).length = (pre ++ [t]).length ∧
      ((ExtendHeap c hp size).mem (endOf c.HeaderSize hp.HeapStart pre)).Size
        = t.size + pageRounded size ∧
      ((ExtendHeap c hp size).mem (endOf c.HeaderSize hp.HeapStart pre)).Free = true) ∧
    (t.free = false →
      Layout c (ExtendHeap c hp size) (pre ++ [t, ⟨pageRounded size - c.HeaderSize, true⟩]) ∧
      (ExtendHeap c hp size).mem hp.HeapEnd
        = ⟨pageRounded size - c.HeaderSize, 0, endOf c.HeaderSize hp.HeapStart pre, true⟩ ∧
      ((ExtendHeap c hp size).mem (endOf c.HeaderSize hp.HeapStart pre)).Next = hp.HeapEnd ∧
      ((ExtendHeap c hp size).mem (endOf c.HeaderSize hp.HeapStart pre)).Free = false) := by
  obtain ⟨h1, h2, h3, h4, h5, _⟩ := ExtendHeap_spec c hc hp pre t L hl size hs he
  refine ⟨pageRounded_spec size, h2, h3, h4, h5, ?_, ?_⟩
  · intro hf
    rw [if_pos hf] at h1
    have hh := Chain_append_head c.HeaderSize _ _ [] pre 0 _ h1.chain
    rw [h5] at hh
    exact ⟨h1, by simp, hh.1, hh.2⟩
  · intro hf
    rw [if_neg (by rw [hf]; simp)] at h1
    have hstop := L.stop
    rw [endOf_append] at hstop
    simp only [endOf] at hstop
    have hd := Chain_drop c.HeaderSize _ [t, ⟨pageRounded size - c.HeaderSize, true⟩] pre 0 _
      h1.chain
    rw [h5] at hd
    obtain ⟨d1, d2, _⟩ := hd
    simp only [nextOf, hstop] at d1 d2
    refine ⟨h1, ?_, by rw [d1], by rw [d1]; exact hf⟩
    rw [d2]

/-- Witness of C13: the kernel heap, whose one segment is free, grown by `ExtendHeap(100)`: one
page is mapped at the old `HeapEnd` and the segment grows by `4096` bytes. -/
theorem extend_heap_grows_and_coalesces_witness :
    (Layout sampleConfig kernelHeap ([] ++ [⟨65504, true⟩]) ∧
      (ExtendHeap sampleConfig kernelHeap 100).segments 4
        = [(HEAP_ADDRESS, ⟨65504 + 4096, 0, 0, true⟩)]) ∧
    (ExtendHeap sampleConfig kernelHeap 100).HeapEnd = HEAP_ADDRESS + 65536 + 4096 ∧
    (ExtendHeap sampleConfig kernelHeap 100).mapped.getLast?
      = some (HEAP_ADDRESS + 65536, 0x210000) :=
  have h := extend_heap_grows_and_coalesces sampleConfig sampleConfig_sane kernelHeap []
    ⟨65504, true⟩ kernelHeap_wellFormed.layout kernelHeap_wellFormed.last 100 (by decide)
    (by decide)
  ⟨⟨kernelHeap_wellFormed.layout, ((h.2.2.2.2.2.1 rfl).1.segments_eq 4).trans (by decide)⟩,
    h.2.2.2.1.trans (by decide), by rw [h.2.2.1]; decide⟩

/-- C14. The split rule. In a heap whose list `pre ++ s :: post` is contiguous, let `s` be the
segment `Malloc` picks for a non-zero request (the first free one of at least the rounded
request `r`) and let it be strictly larger than `r`; its header is at `S`. The call returns
`S + H`. The test of `Split` is the signed comparison `BLOCK_SIZE ≤ (int64) (s.size - r - H)`,
which holds exactly when `r + H + BLOCK_SIZE ≤ s.size` and the remainder is below `2^63`; a
segment with `s.size - r < H` is not split. When the test holds, the list afterwards has
`s` replaced by an allocated segment of size exactly `r` and a free one of size
`s.size - r - H` whose header is at `S + H + r`, and the two cover `H + s.size` bytes as `s`
did. Otherwise the list has `s` allocated whole, its size unchanged, and no segment added. -/
theorem malloc_split_rule (c : Config) (hc : c.Sane) (hp : Heap) (pre : List Seg) (s : Seg)
    (post : List Seg) (L : Layout c hp (pre ++ s :: post)) (size fuel retries : Nat)
    (hsize : 0 < size) (hfuel : (pre ++ s :: post).length ≤ fuel)
    (hs : s.free = true ∧ roundedSize c size < s.size)
    (hpre : ∀ x ∈ pre, ¬ (x.free = true ∧ roundedSize c size ≤ x.size)) :
    ∃ hp1, Malloc c fuel retries hp size
        = some (endOf c.HeaderSize hp.HeapStart pre + c.HeaderSize, hp1) ∧
      (splitFits c s.size (roundedSize c size) ↔
        roundedSize c size + c.HeaderSize + c.BLOCK_SIZE ≤ s.size ∧
          s.size - roundedSize c size - c.HeaderSize < 2 ^ 63) ∧
      (splitFits c s.size (roundedSize c size) →
        Layout c hp1 (pre ++ ⟨roundedSize c size, false⟩ ::
          ⟨s.size - roundedSize c size - c.HeaderSize, true⟩ :: post) ∧
        hp1.mem (endOf c.HeaderSize hp.HeapStart pre)
          = ⟨roundedSize c size,
              endOf c.HeaderSize hp.HeapStart pre + c.HeaderSize + roundedSize c size,
              (hp.mem (endOf c.HeaderSize hp.HeapStart pre)).Prev, false⟩ ∧
        hp1.mem (endOf c.HeaderSize hp.HeapStart pre + c.HeaderSize + roundedSize c size)
          = ⟨s.size - roundedSize c size - c.HeaderSize,
              (hp.mem (endOf c.HeaderSize hp.HeapStart pre)).Next,
              endOf c.HeaderSize hp.HeapStart pre, true⟩ ∧
        (c.HeaderSize + roundedSize c size)
            + (c.HeaderSize + (s.size - roundedSize c size - c.HeaderSize))
          = c.HeaderSize + s.size) ∧
      (¬ splitFits c s.size (roundedSize c size) →
        Layout c hp1 (pre ++ ⟨s.size, false⟩ :: post) ∧
        hp1.mem (endOf c.HeaderSize hp.HeapStart pre)
          = { hp.mem (endOf c.HeaderSize hp.HeapStart pre) with Free := false }) := by
  have hH := hc.header_pos
  have hH2 := hc.header_lt
  generalize hr : roundedSize c size = r at hs hpre ⊢
  have hal := allocList_append c r s post hs.1 (Nat.le_of_lt hs.2) pre hp.HeapStart hpre
  rw [← hr] at hal
  obtain ⟨hp1, h1, h2, _, _, h5, _⟩ := Malloc_fit c hc hp _ L size fuel retries hsize
    hfuel _ _ hal
  rw [hr] at h2
  have hsz : s.size < U64 := by
    have := mem_le_endOf c.HeaderSize (pre ++ s :: post) hp.HeapStart s (by simp)
    have := L.stop
    have := L.bound
    omega
  have hiff := splitFits_iff c s.size r hsz (Nat.le_of_lt hs.2) hH2
  have h0 := Chain_drop c.HeaderSize _ (s :: post) pre 0 _ L.chain
  obtain ⟨o1, _⟩ := h0
  refine ⟨hp1, h1, hiff, ?_, ?_⟩
  · intro hf
    have hfit := hiff.1 hf
    simp only [carve, hs.2, hf, and_self, if_true] at h2
    have hd := Chain_drop c.HeaderSize _ _ pre 0 _ h2.chain
    rw [h5.1] at hd
    obtain ⟨d1, d2, _⟩ := hd
    simp only [nextOf] at d1
    refine ⟨h2, ?_, ?_, by omega⟩
    · rw [d1, o1]
    · rw [d2, o1]
      simp only [HeapSegmentHeader.mk.injEq, true_and, and_true]
      cases post with
      | nil => rfl
      | cons u v => simp only [nextOf]; omega
  · intro hf
    simp only [carve, hf, and_false, if_false] at h2
    have hd := Chain_drop c.HeaderSize _ _ pre 0 _ h2.chain
    rw [h5.1] at hd
    obtain ⟨d1, _⟩ := hd
    refine ⟨h2, ?_⟩
    rw [d1, o1]

/-- Witness of C14 on the kernel heap of 16 pages: `Malloc(64)` splits the one free segment of
`65504` bytes into an allocated one of `64` and a free one of `65408`. -/
theorem malloc_split_rule_witness :
    Layout sampleConfig kernelHeap ([] ++ (⟨65504, true⟩ : Seg) :: []) ∧
    ∃ hp1, Malloc sampleConfig 1 0 kernelHeap 64 = some (HEAP_ADDRESS + 32, hp1) ∧
      hp1.mem HEAP_ADDRESS = ⟨64, HEAP_ADDRESS + 96, 0, false⟩ ∧
      hp1.mem (HEAP_ADDRESS + 96) = ⟨65408, 0, HEAP_ADDRESS, true⟩ :=
  ⟨kernelHeap_wellFormed.layout,
    (malloc_split_rule sampleConfig sampleConfig_sane kernelHeap [] ⟨65504, true⟩ []
      kernelHeap_wellFormed.layout 64 1 0 (by decide) (by decide) (by decide)
      (by simp)).imp fun _ h => ⟨h.1, ((h.2.2.1 (by decide)).2.1).trans (by decide),
        ((h.2.2.1 (by decide)).2.2.1).trans (by decide)⟩⟩

/-- C15. Sandwich coalescing. In a well-formed heap whose list is
`pre ++ X :: Y :: Z :: post` with `X` and `Z` free and `Y` allocated, the headers being at `x`,
`y = x + H + X.size` and `z = y + H + Y.size`: after `Free(y + H)` the list is `pre`, one free
segment of size `X.size + Y.size + Z.size + 2 * H`, `post`. The header of that segment is at
`x`, keeps the `Prev` of `X`, and has the former `Next` of `Z` as `Next`; when that is not
`NULL`, the header it names has `Prev = x`; `LastHeader` is the last header of the new list,
which is `x` when `Z` was the last segment. Before the call the header at `y` was the one
marked allocated. -/
theorem free_sandwich (c : Config) (hc : c.Sane) (hp : Heap) (pre : List Seg) (X Y Z : Seg)
    (post : List Seg) (W : WellFormed c hp (pre ++ X :: Y :: Z :: post))
    (hX : X.free = true) (hY : Y.free = false) (hZ : Z.free = true) :
    Layout c
      (Free c hp (endOf c.HeaderSize hp.HeapStart pre + c.HeaderSize + X.size + c.HeaderSize))
      (pre ++ ⟨X.size + Y.size + Z.size + 2 * c.HeaderSize, true⟩ :: post) ∧
    (Free c hp (endOf c.HeaderSize hp.HeapStart pre + c.HeaderSize + X.size + c.HeaderSize)).mem
        (endOf c.HeaderSize hp.HeapStart pre)
      = ⟨X.size + Y.size + Z.size + 2 * c.HeaderSize,
          (hp.mem (endOf c.HeaderSize hp.HeapStart pre + c.HeaderSize + X.size
            + c.HeaderSize + Y.size)).Next,
          (hp.mem (endOf c.HeaderSize hp.HeapStart pre)).Prev, true⟩ ∧
    ((hp.mem (endOf c.HeaderSize hp.HeapStart pre + c.HeaderSize + X.size
        + c.HeaderSize + Y.size)).Next ≠ 0 →
      ((Free c hp
          (endOf c.HeaderSize hp.HeapStart pre + c.HeaderSize + X.size + c.HeaderSize)).mem
        (hp.mem (endOf c.HeaderSize hp.HeapStart pre + c.HeaderSize + X.size
          + c.HeaderSize + Y.size)).Next).Prev = endOf c.HeaderSize hp.HeapStart pre) ∧
    (Free c hp
        (endOf c.HeaderSize hp.HeapStart pre + c.HeaderSize + X.size + c.HeaderSize)).LastHeader
      = lastAddr c.HeaderSize hp.HeapStart
          (pre ++ ⟨X.size + Y.size + Z.size + 2 * c.HeaderSize, true⟩ :: post) ∧
    (post = [] →
      (Free c hp (endOf c.HeaderSize hp.HeapStart pre + c.HeaderSize + X.size
          + c.HeaderSize)).LastHeader = endOf c.HeaderSize hp.HeapStart pre) ∧
    (hp.mem (endOf c.HeaderSize hp.HeapStart pre + c.HeaderSize + X.size)).Free = false := by
  have hH := hc.header_pos
  have hlist : pre ++ X :: Y :: Z :: post = (pre ++ [X]) ++ Y :: Z :: post := by simp
  have hlen : (pre ++ [X]).length = pre.length + 1 := by simp
  have haddr : addrAt c.HeaderSize hp.HeapStart (pre ++ X :: Y :: Z :: post) (pre.length + 1)
      = endOf c.HeaderSize hp.HeapStart pre + c.HeaderSize + X.size := by
    rw [hlist, ← hlen, addrAt_append, endOf_append]
    rfl
  have hfl : freeList c.HeaderSize (pre.length + 1) (pre ++ X :: Y :: Z :: post)
      = pre ++ ⟨X.size + Y.size + Z.size + 2 * c.HeaderSize, true⟩ :: post := by
    have hk : (pre ++ X :: Y :: Z :: post)[pre.length]? = some X := by
      rw [List.getElem?_append_right (Nat.le_refl _), Nat.sub_self]
      rfl
    simp only [freeList, hk, Option.map_some', hX, if_true]
    rw [hlist, ← hlen, setFreeAt_append, mergeAt_append]
    simp only [mergeHead, hZ, if_true]
    have h2 : (pre ++ [X]) ++ (⟨Y.size + c.HeaderSize + Z.size, true⟩ : Seg) :: post
        = pre ++ (X :: ⟨Y.size + c.HeaderSize + Z.size, true⟩ :: post) := by simp
    rw [h2, mergeAt_append]
    simp only [mergeHead, if_true, hX]
    have : X.size + c.HeaderSize + (Y.size + c.HeaderSize + Z.size)
        = X.size + Y.size + Z.size + 2 * c.HeaderSize := by omega
    rw [this]
  obtain ⟨f1, f2, f3⟩ := Free_spec c hc hp _ W.layout (pre.length + 1) (by simp)
  rw [haddr, hfl] at f1 f3
  rw [haddr] at f2
  have hlast := f3 W.last
  generalize Free c hp (endOf c.HeaderSize hp.HeapStart pre + c.HeaderSize + X.size
    + c.HeaderSize) = hp1 at f1 f2 hlast ⊢
  -- the headers of `X` and `Z` before the call
  obtain ⟨o1, o2, o3, _⟩ := Chain_drop c.HeaderSize _ (X :: Y :: Z :: post) pre 0 _
    W.layout.chain
  -- the merged header after the call
  have hd := Chain_drop c.HeaderSize _
    (⟨X.size + Y.size + Z.size + 2 * c.HeaderSize, true⟩ :: post) pre 0 _ f1.chain
  rw [f2.1] at hd
  obtain ⟨d1, d2⟩ := hd
  simp only at d1 d2
  generalize hx : endOf c.HeaderSize hp.HeapStart pre = x at o1 o2 o3 d1 d2 ⊢
  have hnext : nextOf c.HeaderSize x (X.size + Y.size + Z.size + 2 * c.HeaderSize) post
      = nextOf c.HeaderSize (x + c.HeaderSize + X.size + c.HeaderSize + Y.size) Z.size post := by
    cases post with
    | nil => rfl
    | cons u v => simp only [nextOf]; omega
  refine ⟨f1, ?_, ?_, hlast, ?_, by rw [o2, hY]⟩
  · rw [d1, o1, o3, hnext]
  · rw [o3]
    cases post with
    | nil => intro h; exact absurd rfl h
    | cons u v =>
      intro _
      simp only [nextOf]
      have e : x + c.HeaderSize + X.size + c.HeaderSize + Y.size + c.HeaderSize + Z.size
          = x + c.HeaderSize + (X.size + Y.size + Z.size + 2 * c.HeaderSize) := by omega
      rw [e, d2.1]
  · intro hpost
    rw [hlast, hpost, lastAddr_snoc, hx]

/-- Witness of C15: the kernel heap after `A = Malloc(64)`, `B = Malloc(64)` and `Free(A)`
holds a free segment, the allocated `B` and a free remainder; `Free(B)` leaves one free
segment of `65504` bytes. -/
theorem free_sandwich_witness :
    ∃ hp : Heap,
      (runOps sampleConfig 4 0 kernelHeap
        [.malloc 64, .malloc 64, .free (HEAP_ADDRESS + 32)]).map Prod.snd = some hp ∧
      WellFormed sampleConfig hp ([] ++ [⟨64, true⟩, ⟨64, false⟩, ⟨65312, true⟩]) ∧
      (Free sampleConfig hp (HEAP_ADDRESS + 32 + 64 + 32)).mem HEAP_ADDRESS
        = ⟨65504, 0, 0, true⟩ ∧
      (Free sampleConfig hp (HEAP_ADDRESS + 32 + 64 + 32)).LastHeader = HEAP_ADDRESS :=
  have W : WellFormed sampleConfig
      (Free sampleConfig
        (((Malloc sampleConfig 4 0
          (((Malloc sampleConfig 4 0 kernelHeap 64).map Prod.snd).getD kernelHeap)
          64).map Prod.snd).getD kernelHeap) (HEAP_ADDRESS + 32))
      ([] ++ [⟨64, true⟩, ⟨64, false⟩, ⟨65312, true⟩]) :=
    ⟨⟨by simp, by decide, ⟨by decide, by decide, by decide, trivial⟩, by decide, by decide⟩,
      by decide, by simp [NoAdjFree]⟩
  have h := free_sandwich sampleConfig sampleConfig_sane _ [] ⟨64, true⟩ ⟨64, false⟩
    ⟨65312, true⟩ [] W rfl rfl rfl
  ⟨_, rfl, W, h.2.1.trans (by decide), h.2.2.2.2.1 rfl⟩

/-- C16. Lazy table creation. Whatever the tables hold, `MapPage(v, p)` requests one frame for
each of the three entries it reads at levels 4, 3 and 2 that is not `Present`, between 0 and
3 in all; at each level an entry that is `Present` is left as it is and the table it names is
the one descended into, and for an entry that is not, the frame `GetPage` returns is first
filled with zero entries and then installed with `Present` and `ReadWrite` set. When the four
tables on the path of `v` are different tables, these entries are the entries on the walk of
`v` in the tables before the call (an entry below a missing one counted as missing), and
after the call: a present entry is unchanged and its table is changed at most at the index of
`v`; a created table is the `k`-th frame of `GetPage`, is named by an entry with `Present` and
`ReadWrite` set, and is all zero but at the index of `v`; tables off the path are unchanged. -/
theorem map_page_lazy_tables (GetPage : Nat → Nat) (m : PageTableManager) (v p : Nat) :
    ((MapPage GetPage m v p).requested = m.requested + (readLevels GetPage m v).count false ∧
      (readLevels GetPage m v).count false ≤ 3) ∧
    (∀ (s : PageTableManager) (t i : Nat),
      ((s.tables t i).Present = true →
        levelEntry GetPage s t i = (s, (s.tables t i).Address)) ∧
      ((s.tables t i).Present = false →
        levelEntry GetPage s t i =
          (⟨s.TableLevel4,
            storeEntry (zeroTable s.tables (GetPage s.requested)) t i
              ⟨true, true, GetPage s.requested⟩,
            s.requested + 1⟩, GetPage s.requested) ∧
        ∀ x, zeroTable s.tables (GetPage s.requested) (GetPage s.requested) x
          = ⟨false, false, 0⟩)) ∧
    ((tablePath GetPage m v).Nodup →
      ∃ t3 t2 t1 q4 q3 q2, tablePath GetPage m v = [m.TableLevel4, t3, t2, t1] ∧
        presentLevels m v = [q4, q3, q2] ∧ readLevels GetPage m v = [q4, q3, q2] ∧
        (MapPage GetPage m v p).requested = m.requested + [q4, q3, q2].count false ∧
        LevelOutcome GetPage m (MapPage GetPage m v p) m.TableLevel4
          (PageMapIndexer.ofAddress v).TableLevel4Index t3
          (PageMapIndexer.ofAddress v).TableLevel3Index q4 m.requested ∧
        LevelOutcome GetPage m (MapPage GetPage m v p) t3
          (PageMapIndexer.ofAddress v).TableLevel3Index t2
          (PageMapIndexer.ofAddress v).TableLevel2Index q3
          (m.requested + [q4].count false) ∧
        LevelOutcome GetPage m (MapPage GetPage m v p) t2
          (PageMapIndexer.ofAddress v).TableLevel2Index t1
          (PageMapIndexer.ofAddress v).TableLevel1Index q2
          (m.requested + [q4, q3].count false) ∧
        (∀ t x, t ≠ m.TableLevel4 → t ≠ t3 → t ≠ t2 → t ≠ t1 →
          (MapPage GetPage m v p).tables t x = m.tables t x)) := by
  refine ⟨MapPage_requested GetPage m v p, ?_, ?_⟩
  · intro s t i
    refine ⟨levelEntry_present GetPage s t i, fun h => ⟨levelEntry_absent GetPage s t i h, ?_⟩⟩
    intro x
    simp only [zeroTable, if_true]
  · intro hpath
    obtain ⟨t3, t2, t1, q4, q3, q2, h1, h2, h3, h4, _, _, h7, h8, h9, _, h11⟩ :=
      MapPage_outcome GetPage m v p hpath
    exact ⟨t3, t2, t1, q4, q3, q2, h1, h2, h3, h4, h7, h8, h9, h11⟩

/-- Witness of C16: in empty page tables the mapping of the heap address of the kernel
creates the three tables below the root, from the first three frames of `GetPage`. -/
theorem map_page_lazy_tables_witness :
    (tablePath (fun k => 0x200000 + k * 0x1000) ⟨0x1000, fun _ _ => ⟨false, false, 0⟩, 0⟩
      0xFFFFFFFF00000000).Nodup ∧
    (MapPage (fun k => 0x200000 + k * 0x1000) ⟨0x1000, fun _ _ => ⟨false, false, 0⟩, 0⟩
      0xFFFFFFFF00000000 0x5000).requested = 3 ∧
    ∃ t3 t2 t1, tablePath (fun k => 0x200000 + k * 0x1000)
      ⟨0x1000, fun _ _ => ⟨false, false, 0⟩, 0⟩ 0xFFFFFFFF00000000 = [0x1000, t3, t2, t1] :=
  have h := map_page_lazy_tables (fun k => 0x200000 + k * 0x1000)
    ⟨0x1000, fun _ _ => ⟨false, false, 0⟩, 0⟩ 0xFFFFFFFF00000000 0x5000
  ⟨sampleTables_path, h.1.1.trans (by decide),
    (h.2.2 sampleTables_path).imp fun _ h3 => h3.imp fun _ h2 => h2.imp fun _ h1 =>
      h1.elim fun _ h0 => h0.elim fun _ hh => hh.elim fun _ hk => hk.1⟩

/-- C17 fails as stated. With blocks of 16 bytes the request `2^64 - 1` is rounded to
`2^64`, which 64-bit arithmetic keeps as `0`: the value used for the search is below the
request, and `Malloc` takes it for a request of zero bytes and returns `NULL`. -/
theorem malloc_rounding_counterexample :
    roundedSize sampleConfig 18446744073709551615 % U64 = 0 ∧
    ¬ (18446744073709551615 ≤ roundedSize sampleConfig 18446744073709551615 % U64) ∧
    (Malloc sampleConfig 1 0 kernelHeap 18446744073709551615).map Prod.fst = some 0 := by
  decide

/-- C17, as amended. For every size whose value rounded up to the block size is below `2^64`:
the value `Malloc` searches with is that rounded value, the least multiple of `BLOCK_SIZE`
that is at least `size`. For a non-zero such size, every pointer `Malloc` returns is the
payload of a header marked allocated whose `Size` is at least `size`, whatever the heap holds;
and `Malloc` does return one whenever the list of a contiguous heap has a free segment of at
least the rounded size and the scan is given the length of the list as budget. -/
theorem malloc_rounding (c : Config) (hc : c.Sane) (size : Nat)
    (hr : roundedSize c size < U64) :
    (roundedSize c size % U64 = roundedSize c size ∧
      c.BLOCK_SIZE ∣ roundedSize c size ∧ size ≤ roundedSize c size ∧
      ∀ m, c.BLOCK_SIZE ∣ m → size ≤ m → roundedSize c size ≤ m) ∧
    (0 < size →
      (∀ (hp : Heap) (fuel retries p : Nat) (hp1 : Heap),
        Malloc c fuel retries hp size = some (p, hp1) →
        ∃ seg, p = (seg + c.HeaderSize) % U64 ∧ size ≤ (hp1.mem seg).Size ∧
          (hp1.mem seg).Free = false) ∧
      (∀ (hp : Heap) (segs : List Seg), Layout c hp segs →
        (∃ s ∈ segs, s.free = true ∧ roundedSize c size ≤ s.size) →
        ∀ fuel retries, segs.length ≤ fuel →
          ∃ p hp1, Malloc c fuel retries hp size = some (p, hp1))) := by
  have hB := hc.block_pos
  refine ⟨⟨Nat.mod_eq_of_lt hr, roundedSize_dvd c size, le_roundedSize c hB size,
    fun m hm hle => roundedSize_least c size m hm hle⟩, fun hs => ⟨?_, ?_⟩⟩
  · intro hp fuel retries p hp1 h
    obtain ⟨seg, h1, h2, h3⟩ := Malloc_found c hB fuel retries hp size p hp1 hs hr h
    exact ⟨seg, h1, Nat.le_trans (le_roundedSize c hB size) h2, h3⟩
  · intro hp segs L hfit fuel retries hfuel
    have hsome : allocList c (roundedSize c size) hp.HeapStart segs ≠ none := by
      intro h
      obtain ⟨s, hs1, hs2⟩ := hfit
      exact (allocList_none c _ segs _).1 h s hs1 hs2
    obtain ⟨⟨p, l⟩, hal⟩ := Option.ne_none_iff_exists'.1 hsome
    obtain ⟨hp1, h1, _⟩ := Malloc_fit c hc hp _ L size fuel retries hs hfuel _ _ hal
    exact ⟨_, hp1, h1⟩

/-- Witness of the amended C17: a request of 100 bytes with blocks of 16 bytes is rounded to
112; on the kernel heap `Malloc(100)` returns a pointer. -/
theorem malloc_rounding_witness :
    roundedSize sampleConfig 100 < U64 ∧
    roundedSize sampleConfig 100 % U64 = 112 ∧
    ∃ p hp1, Malloc sampleConfig 1 0 kernelHeap 100 = some (p, hp1) :=
  have h := malloc_rounding sampleConfig sampleConfig_sane 100 (by decide)
  ⟨by decide, h.1.1.trans (by decide),
    (h.2 (by decide)).2 kernelHeap [⟨65504, true⟩] kernelHeap_wellFormed.layout
      ⟨⟨65504, true⟩, by simp, rfl, by decide⟩ 1 0 (by decide)⟩

/-- C18 fails on the code. From the kernel heap: `A = Malloc(65504)` takes the one segment;
`X = Malloc(100)` grows the heap by a page and is served from it, `LastHeader` still naming the
header of `A`; `Free(A)`; then `Malloc(70000)` grows the heap again, links the new segment
after the stale `LastHeader` and merges it into the free segment of `A`, which now spans the
header and the payload of the live block `X`. The pointer returned is `A` again, with `70000`
bytes: the payload of `X`, `112` bytes at `HEAP_ADDRESS + 65568` still marked allocated, lies
inside it. -/
theorem live_blocks_overlap_after_growth :
    (runOps sampleConfig 8 2 kernelHeap
        [.malloc 65504, .malloc 100, .free (HEAP_ADDRESS + 32), .malloc 70000]).map
      (fun r => (r.1,
        ((r.2.mem (HEAP_ADDRESS + 65536)).Free, (r.2.mem (HEAP_ADDRESS + 65536)).Size),
        ((r.2.mem HEAP_ADDRESS).Free, (r.2.mem HEAP_ADDRESS).Size)))
      = some ([HEAP_ADDRESS + 32, HEAP_ADDRESS + 65536 + 32, HEAP_ADDRESS + 32],
          (false, 112), (false, 70000)) ∧
    HEAP_ADDRESS + 32 ≤ HEAP_ADDRESS + 65536 + 32 ∧
    HEAP_ADDRESS + 65536 + 32 + 112 ≤ HEAP_ADDRESS + 32 + 70000 := by
  decide

/-- C19 fails as stated. The addresses `0` and `2^48` lie in different pages and have the
same four table indices, the indices being bits 12 to 47 of an address: in the empty sample
tables (a tree, the frames of the allocator not in use) `2^48` is not mapped, and after
`MapPage(0, 0x5000)` its walk yields the frame `0x5000`. -/
theorem map_page_keeps_other_mappings_counterexample :
    TableTree emptyTables ∧ FreshFrames sampleGetPage emptyTables ∧
    0 / 4096 ≠ 281474976710656 / 4096 ∧
    translate emptyTables 281474976710656 = none ∧
    translate (MapPage sampleGetPage emptyTables 0 0x5000) 281474976710656
      = some (0x5000, true) :=
  ⟨emptyTables_tree, emptyTables_fresh, by decide, by decide, by decide⟩

/-- C19, as amended. In tables that form a tree (a table is reached from the root along one
list of entries only), with the frames `GetPage` is still to return not in use as tables and
different from one another: for all addresses `v` and `w` whose bits 12 to 47 differ (for
canonical addresses: that lie in different 4096-byte pages), the walk of `w` results in the
same after `MapPage(v, p)` as before, not mapped or mapped to the same frame with the same
`ReadWrite` flag. -/
theorem map_page_keeps_other_mappings (GetPage : Nat → Nat) (m : PageTableManager)
    (v w p : Nat) (hT : TableTree m) (hF : FreshFrames GetPage m)
    (hne : v / 4096 % 2 ^ 36 ≠ w / 4096 % 2 ^ 36) :
    translate (MapPage GetPage m v p) w = translate m w :=
  MapPage_other GetPage m v p w hT hF (fun h => hne (ofAddress_inj v w h))

/-- Witness of the amended C19: the empty sample tables after the page behind the heap
address of the kernel was mapped to the frame `0x6000` form a tree; mapping the heap address
itself leaves that page mapped to `0x6000`. -/
theorem map_page_keeps_other_mappings_witness :
    (TableTree (MapPage sampleGetPage emptyTables (HEAP_ADDRESS + 4096) 0x6000) ∧
      FreshFrames sampleGetPage (MapPage sampleGetPage emptyTables (HEAP_ADDRESS + 4096) 0x6000) ∧
      HEAP_ADDRESS / 4096 % 2 ^ 36 ≠ (HEAP_ADDRESS + 4096) / 4096 % 2 ^ 36) ∧
    translate (MapPage sampleGetPage
        (MapPage sampleGetPage emptyTables (HEAP_ADDRESS + 4096) 0x6000) HEAP_ADDRESS 0x5000)
      (HEAP_ADDRESS + 4096) = some (0x6000, true) :=
  have hm := MapPage_tree sampleGetPage emptyTables (HEAP_ADDRESS + 4096) 0x6000
    emptyTables_tree emptyTables_fresh
  ⟨⟨hm.1, hm.2, by decide⟩,
    (map_page_keeps_other_mappings sampleGetPage _ HEAP_ADDRESS
      (HEAP_ADDRESS + 4096) 0x5000 hm.1 hm.2 (by decide)).trans (by decide)⟩

/-- C20 fails on the code. After `SysSetCrsr` with `R8 = 5` and `R9 = 0xFFFFFFFF` the cursor is
`(5, -1)`; `SysGetCrsr` converts `Cursor.Y` to 64 bits with its sign, so the `|` sets all of
the upper 32 bits of `RAX`: they read `0xFFFFFFFF`, not the bit pattern `5` of `x`. -/
theorem cursor_round_trip_negative_y :
    (SysSetCrsr ⟨⟨0, 0⟩⟩ ⟨0, 5, 0xFFFFFFFF⟩).Cursor = ⟨5, -1⟩ ∧
    (SysGetCrsr (SysSetCrsr ⟨⟨0, 0⟩⟩ ⟨0, 5, 0xFFFFFFFF⟩) ⟨0, 5, 0xFFFFFFFF⟩).RAX
      = 0xFFFFFFFFFFFFFFFF ∧
    (SysGetCrsr (SysSetCrsr ⟨⟨0, 0⟩⟩ ⟨0, 5, 0xFFFFFFFF⟩) ⟨0, 5, 0xFFFFFFFF⟩).RAX / 2 ^ 32
      ≠ 5 := by
  decide

end TokyoOS
